import Mathlib

/-!
A shallow embedding of the tripe on-disk phrase index (`tripe.py`).

Modelling conventions:
* The memory-mapped file is a `Store`: header slots 1 and 2 (`ROOT`,
  `FIRST_FREE`) are fields, `flen` is the file length in bytes, and `blocks`
  associates each block's payload offset (its handle) with its payload.
  The payload of a block is modelled at the granularity at which the source
  accesses it: number blocks as their 64-bit entries (`Block.nums`), raw-text
  blocks as the string they encode (`Block.str`, whose size is its UTF-8 byte
  length), and an allocated-but-not-yet-written block as `Block.raw n`
  (`n` stale bytes; the source never reads a block before writing it).
* Every operation takes and returns the store (`Except Err (α × Store)`),
  mirroring the imperative flow; reads return the store unchanged.
* `pack('Q', n)` raises `struct.error` for `n ≥ 2^64`; writes are guarded
  accordingly (`Err.overflow`).  Errors abandon the intermediate state, which
  only matters on paths the specification already declares undefined.
* Python 2 byte-string semantics (`lower`, `\W`, `\s`, `ord`) are modelled on
  characters; for ASCII input the two coincide.
-/

set_option maxRecDepth 16000

namespace Tripe

/-- Errors surfaced by store and index operations (Python exceptions in the
source: `struct.error` for out-of-range packs, `IndexError` for the
`tokenized[0]` subscript in `search`, the assertion in `update_numbers`,
`UnicodeDecodeError` in `load_text`, `ValueError` for mapping an empty file,
and nontermination of the free-list walk on a cyclic list, which the model
reports as fuel exhaustion). -/
inductive Err where
  | overflow
  | emptyPhrase
  | sizeMismatch
  | badText
  | badBlock
  | ioError
  | fuel
deriving DecidableEq, Repr

deriving instance DecidableEq for Except

/-! ## Tokenizer and stemmer (`stem`, `tokenize`) -/

/-- Python 2 `str.lower`: lowercase ASCII letters, leave the rest. -/
def pyLower (c : Char) : Char :=
  if 'A' ≤ c ∧ c ≤ 'Z' then Char.ofNat (c.toNat + 32) else c

/-- Python 2 `\w` (without `re.UNICODE`): alphanumeric or underscore. -/
def isWordChar (c : Char) : Bool :=
  ('a' ≤ c && c ≤ 'z') || ('A' ≤ c && c ≤ 'Z') || ('0' ≤ c && c ≤ '9') || c = '_'

/-- `stem`: `STEMRE.sub('', term.lower())` — lowercase, then drop non-word
characters. -/
def stem (term : String) : String :=
  ((term.toList.map pyLower).filter isWordChar).asString

/-- Python 2 `\s`: space, tab, newline, carriage return, vertical tab,
form feed. -/
def pySpace (c : Char) : Bool :=
  c = ' ' || c = '\t' || c = '\n' || c = '\r' || c = '\x0b' || c = '\x0c'

/-- One token yielded by `tokenize`: `(off, stem(term), term)`. -/
structure Tok where
  off : Nat
  stemmed : String
  raw : String
deriving DecidableEq, Repr, Inhabited

/-- The `TOKRE.findall` loop of `tokenize`: each match consumes surrounding
whitespace, `off` advances over it, and each non-whitespace run is yielded at
its character offset.  The first argument is fuel, structurally decreasing so
the function evaluates in the kernel; every step consumes at least one
character, so fuel equal to the character count never runs out. -/
def tokenizeAux : Nat → Nat → List Char → List Tok
  | 0, _, _ => []
  | _, _, [] => []
  | fuel + 1, off, c :: cs =>
    if pySpace c then tokenizeAux fuel (off + 1) cs
    else
      let run := c :: cs.takeWhile (fun d => !pySpace d)
      ⟨off, stem run.asString, run.asString⟩ ::
        tokenizeAux fuel (off + run.length) (cs.dropWhile (fun d => !pySpace d))

/-- `tokenize(text)`: split on whitespace runs, yielding
`(offset, stemmed, raw)` per non-whitespace run. -/
def tokenize (text : String) : List Tok :=
  tokenizeAux text.toList.length 0 text.toList

/-! ## The block store (`TripeStore`) -/

/-- `2^64`: the bound `pack('Q', ·)` enforces. -/
def U64 : Nat := 2 ^ 64

/-- A block payload, at the granularity the source accesses it. -/
inductive Block where
  | nums (l : List Nat)
  | str (s : String)
  | raw (n : Nat)
deriving DecidableEq, Repr

/-- Payload size in bytes — the value of the 8-byte size prefix stored
immediately before the handle. -/
def Block.size : Block → Nat
  | .nums l => 8 * l.length
  | .str s => s.utf8ByteSize
  | .raw n => n

/-- The mapped file: header slots `ROOT` and `FIRST_FREE`, the file length,
and the blocks keyed by handle (payload offset). -/
structure Store where
  root : Nat
  firstFree : Nat
  flen : Nat
  blocks : List (Nat × Block)
deriving DecidableEq, Repr

def findBlock : List (Nat × Block) → Nat → Option Block
  | [], _ => none
  | (k, b) :: t, h => if k = h then some b else findBlock t h

def setBlockL : List (Nat × Block) → Nat → Block → List (Nat × Block)
  | [], h, b => [(h, b)]
  | (k, v) :: t, h, b => if k = h then (h, b) :: t else (k, v) :: setBlockL t h b

def Store.find (s : Store) (h : Nat) : Option Block := findBlock s.blocks h

def Store.set (s : Store) (h : Nat) (b : Block) : Store :=
  { s with blocks := setBlockL s.blocks h b }

/-- `__load_number` at a block's payload start (the free-list next pointer). -/
def Store.loadPtr (s : Store) (h : Nat) : Except Err Nat :=
  match s.find h with
  | some (.nums (x :: _)) => .ok x
  | _ => .error .badBlock

/-- `__store_number` at a block's payload start. -/
def Store.storePtr (s : Store) (h : Nat) (v : Nat) : Except Err Store :=
  if v < U64 then
    match s.find h with
    | some (.nums (_ :: t)) => .ok (s.set h (.nums (v :: t)))
    | _ => .error .badBlock
  else .error .overflow

/-- `__handle_size`: the 8 bytes immediately before the handle. -/
def Store.handleSize (s : Store) (h : Nat) : Except Err Nat :=
  match s.find h with
  | some b => .ok b.size
  | none => .error .badBlock

/-- The `while free != 0` walk of `__allocate`.  `prev` is where the current
link was read from: `none` for header slot `FIRST_FREE`, `some p` for the
payload start of the previous free block.  The `free = 0` branch is the
`while`/`else` arm that grows the file. -/
def allocWalk (size : Nat) : Store → Option Nat → Nat → Nat → Except Err (Nat × Store)
  | _, _, _, 0 => .error .fuel
  | s, prev, free, fuel + 1 =>
    if free = 0 then
      -- no free blocks: offset = len(mmap); resize; store_number(offset, size)
      if size < U64 then
        .ok (s.flen + 8, { s with flen := s.flen + 8 + size,
                                  blocks := setBlockL s.blocks (s.flen + 8) (.raw size) })
      else .error .overflow
    else
      match s.find free with
      | none => .error .badBlock
      | some b =>
        if b.size > size then do
          -- found a valid block: unlink it, then store_number(offset, size)
          let next ← s.loadPtr free
          let s₁ ← (match prev with
            | none => if next < U64 then .ok { s with firstFree := next }
                      else .error Err.overflow
            | some p => s.storePtr p next)
          if size < U64 then .ok (free, s₁.set free (.raw size))
          else .error .overflow
        else do
          let next ← s.loadPtr free
          allocWalk size s (some free) next fuel

/-- `__allocate(size)`.  The fuel bounds the free-list walk; any acyclic list
fits within `blocks.length + 1` steps. -/
def Store.allocate (s : Store) (size : Nat) : Except Err (Nat × Store) :=
  allocWalk size s none s.firstFree (s.blocks.length + 1)

/-- `store_numbers(numbers)`. -/
def Store.store_numbers (s : Store) (l : List Nat) : Except Err (Nat × Store) := do
  let (h, s₁) ← s.allocate (8 * l.length)
  if l.all (· < U64) then .ok (h, s₁.set h (.nums l)) else .error .overflow

/-- `store_text(text)`. -/
def Store.store_text (s : Store) (t : String) : Except Err (Nat × Store) := do
  let (h, s₁) ← s.allocate t.utf8ByteSize
  .ok (h, s₁.set h (.str t))

/-- `update_numbers(handle, numbers)`. -/
def Store.update_numbers (s : Store) (h : Nat) (l : List Nat) : Except Err (Unit × Store) := do
  let sz ← s.handleSize h
  if 8 * l.length = sz then
    if l.all (· < U64) then .ok ((), s.set h (.nums l)) else .error .overflow
  else .error .sizeMismatch

/-- `load_numbers(handle)`. -/
def Store.load_numbers (s : Store) (h : Nat) : Except Err (List Nat × Store) :=
  match s.find h with
  | some (.nums l) => .ok (l, s)
  | _ => .error .badBlock

/-- `load_text(handle)`. -/
def Store.load_text (s : Store) (h : Nat) : Except Err (String × Store) :=
  match s.find h with
  | some (.str t) => .ok (t, s)
  | _ => .error .badText

/-- `free(handle)`: store a junk text block of `'F'`s (note the source
allocates a fresh block for it), thread the old `FIRST_FREE` through the freed
payload's first 8 bytes, and point `FIRST_FREE` at the freed block. -/
def Store.free (s : Store) (h : Nat) : Except Err (Unit × Store) := do
  let sz ← s.handleSize h
  let (_, s₁) ← s.store_text (String.mk (List.replicate sz 'F'))
  let s₂ ← s₁.storePtr h s₁.firstFree
  if h < U64 then .ok ((), { s₂ with firstFree := h }) else .error .overflow

def Store.get_root (s : Store) : Nat := s.root

def Store.set_root (s : Store) (h : Nat) : Except Err (Unit × Store) :=
  if h < U64 then .ok ((), { s with root := h }) else .error .overflow

/-- The store corresponding to a freshly created file: header only. -/
def emptyStore : Store := { root := 0, firstFree := 0, flen := 128, blocks := [] }

/-! ## `TripeStore.__init__` (file creation and magic handling)

`__init__` is modelled separately at the byte level, since it manipulates the
raw file rather than blocks. -/

def natToLE8 (n : Nat) : List Nat :=
  (List.range 8).map fun i => n / 256 ^ i % 256

def leToNat (l : List Nat) : Nat := l.foldr (fun b acc => b + 256 * acc) 0

/-- `Tripe.MAGIC = unpack('Q', 'Tripe001')[0]`. -/
def MAGIC : Nat := leToNat ("Tripe001".toList.map Char.toNat)

/-- The 128 header bytes written on creation:
`pack('Q'*16, MAGIC, 0, …, 0)`. -/
def headerBytes : List Nat := natToLE8 MAGIC ++ List.replicate 120 0

/-- `TripeStore.__init__(filename, writable)` as a function of the current
file contents (`none` = the path does not exist) to the file contents that end
up mapped.  If the file does not exist it is created with the header —
the source checks only existence, not `writable`.  Mapping an empty file
fails (`mmap` raises); no other validation is performed. -/
def TripeStore.init (file : Option (List Nat)) (_writable : Bool) : Except Err (List Nat) :=
  let f := match file with
    | none => headerBytes
    | some c => c
  if f.length = 0 then .error .ioError else .ok f

/-! ## Trie nodes (`TrieNode`) -/

/-- `load_numbers` destructured as exactly two values
(`matches_handle, children_handle = …`). -/
def load2 (s : Store) (h : Nat) : Except Err ((Nat × Nat) × Store) := do
  let (l, s₁) ← s.load_numbers h
  match l with
  | [m, c] => .ok ((m, c), s₁)
  | _ => .error .badBlock

/-- `TrieNode.__init__` with `handle=None`: allocate and write `(0, 0)`. -/
def newNode (s : Store) : Except Err (Nat × Store) := s.store_numbers [0, 0]

/-- `TrieNode.__matches`. -/
def nodeMatches (s : Store) (h : Nat) : Except Err (List Nat × Store) := do
  let ((m, _c), s₁) ← load2 s h
  if m = 0 then .ok ([], s₁) else s₁.load_numbers m

/-- `zip(children[::2], children[1::2])`. -/
def pairUp : List Nat → List (Nat × Nat)
  | a :: b :: t => (a, b) :: pairUp t
  | _ => []

/-- `TrieNode.__children`. -/
def nodeChildren (s : Store) (h : Nat) : Except Err (List (Nat × Nat) × Store) := do
  let ((_m, c), s₁) ← load2 s h
  if c = 0 then .ok ([], s₁)
  else do
    let (l, s₂) ← s₁.load_numbers c
    .ok (pairUp l, s₂)

/-- The linear scan of `TrieNode.__find_child`. -/
def findFirst : List (Nat × Nat) → Nat → Option Nat
  | [], _ => none
  | (k, v) :: t, key => if k = key then some v else findFirst t key

/-- `TrieNode.__find_child(name)`. -/
def findChild (s : Store) (h : Nat) (key : Nat) : Except Err (Option Nat × Store) := do
  let (cs, s₁) ← nodeChildren s h
  .ok (findFirst cs key, s₁)

/-! ## Term instances (`TermInstance`) -/

/-- A loaded `TermInstance`: the four stored numbers plus the decoded raw
text, together with the handle it was loaded from. -/
structure Inst where
  handle : Nat
  doc : Nat
  offset : Nat
  rawH : Nat
  nextH : Nat
  raw : String
deriving DecidableEq, Repr

/-- `TermInstance.__init__` with a handle: load the four numbers and decode
the raw text. -/
def loadInstance (s : Store) (h : Nat) : Except Err (Inst × Store) := do
  let (l, s₁) ← s.load_numbers h
  match l with
  | [d, o, r, n] => do
    let (raw, s₂) ← s₁.load_text r
    .ok (⟨h, d, o, r, n, raw⟩, s₂)
  | _ => .error .badBlock

/-- The list comprehension `[TermInstance(self.tripe, h) for h in hs]`. -/
def loadInstances : Store → List Nat → Except Err (List Inst × Store)
  | s, [] => .ok ([], s)
  | s, h :: t => do
    let (i, s₁) ← loadInstance s h
    let (is, s₂) ← loadInstances s₁ t
    .ok (i :: is, s₂)

/-- `TermInstance.__init__` with `handle=None`: store the raw text, then the
record `(doc, offset, raw_handle, next_handle)`. -/
def newInstance (s : Store) (doc off : Nat) (raw : String) (nextH : Nat) :
    Except Err (Nat × Store) := do
  let (rawH, s₁) ← s.store_text raw
  s₁.store_numbers [doc, off, rawH, nextH]

/-- `TermInstance.next()`. -/
def instNext (s : Store) (i : Inst) : Except Err (Option Inst × Store) :=
  if i.nextH ≠ 0 then do
    let (j, s₁) ← loadInstance s i.nextH
    .ok (some j, s₁)
  else .ok (none, s)

/-- `TermInstance.matches_exact(raw)`. -/
def matches_exact (i : Inst) (raw : String) : Bool := i.raw == raw

/-- The `for` loop of `matches_phrase`, with `cur` the running `instance`. -/
def matchesPhraseLoop (exact : Bool) : Store → Option Inst → List Tok → Except Err (Bool × Store)
  | s, _, [] => .ok (true, s)
  | s, cur, t :: rest =>
    match cur with
    | none => .ok (false, s)
    | some inst =>
      if exact then
        if t.raw ≠ inst.raw then .ok (false, s)
        else do
          let (nx, s₁) ← instNext s inst
          matchesPhraseLoop exact s₁ nx rest
      else
        if t.stemmed ≠ stem inst.raw then .ok (false, s)
        else do
          let (nx, s₁) ← instNext s inst
          matchesPhraseLoop exact s₁ nx rest

/-- `TermInstance.matches_phrase(phrase, exact)`. -/
def matches_phrase (s : Store) (i : Inst) (phrase : List Tok) (exact : Bool) :
    Except Err (Bool × Store) := do
  let (cur, s₁) ← instNext s i
  matchesPhraseLoop exact s₁ cur phrase

/-! ## Trie search and insertion -/

/-- `TrieNode.search(term)`. -/
def nodeSearch : Store → Nat → List Char → Except Err (List Inst × Store)
  | s, h, [] => do
    let (ms, s₁) ← nodeMatches s h
    loadInstances s₁ ms
  | s, h, c :: rest => do
    let (ch, s₁) ← findChild s h c.toNat
    match ch with
    | some child => nodeSearch s₁ child rest
    | none => .ok ([], s₁)

def flattenPairs : List (Nat × Nat) → List Nat
  | [] => []
  | (k, v) :: t => k :: v :: flattenPairs t

/-- Strict lexicographic order on `(key, handle)` pairs, the order
`children.sort()` sorts by. -/
def pairLt (a b : Nat × Nat) : Bool := a.1 < b.1 || (a.1 == b.1 && a.2 < b.2)

/-- Insert before the first element that is not strictly smaller (keeps the
sort stable, like Python's). -/
def insertPair (x : Nat × Nat) : List (Nat × Nat) → List (Nat × Nat)
  | [] => [x]
  | y :: t => if pairLt y x then y :: insertPair x t else x :: y :: t

/-- `children.sort()`: a stable sort by lexicographic pair order.  Any stable
sort computes the same list, so insertion sort models Python's sort
faithfully. -/
def pySort : List (Nat × Nat) → List (Nat × Nat)
  | [] => []
  | x :: t => insertPair x (pySort t)

/-- `TrieNode.add(term, value)` (the value being the instance's handle). -/
def nodeAdd : Store → Nat → List Char → Nat → Except Err (Unit × Store)
  | s, h, [], v => do
    let (ms, s₁) ← nodeMatches s h
    let (newM, s₂) ← s₁.store_numbers (ms ++ [v])
    let ((oldM, c), s₃) ← load2 s₂ h
    let ((), s₄) ← s₃.update_numbers h [newM, c]
    if oldM ≠ 0 then s₄.free oldM else .ok ((), s₄)
  | s, h, ch :: rest, v => do
    let character := ch.toNat
    let (found, s₁) ← findChild s h character
    match found with
    | some child => nodeAdd s₁ child rest v
    | none => do
      let (child, s₂) ← newNode s₁
      let (children, s₃) ← nodeChildren s₂ h
      let (newC, s₄) ← s₃.store_numbers (flattenPairs (pySort (children ++ [(character, child)])))
      let ((m, oldC), s₅) ← load2 s₄ h
      let ((), s₆) ← s₅.update_numbers h [m, newC]
      let ((), s₇) ← (if oldC ≠ 0 then s₆.free oldC else .ok ((), s₆))
      nodeAdd s₇ child rest v

/-! ## The index facade (`Tripe`) -/

/-- `Tripe.__init__`: adopt the root node, creating one if the root slot
is 0.  Returns the root handle the facade keeps using. -/
def openIndex (s : Store) : Except Err (Nat × Store) :=
  if s.get_root = 0 then do
    let (h, s₁) ← newNode s
    let ((), s₂) ← s₁.set_root h
    .ok (h, s₂)
  else .ok (s.get_root, s)

/-- The filter `[i for i in instances if i.matches_exact(raw)]`. -/
def filterExact (raw : String) (l : List Inst) : List Inst :=
  l.filter (fun i => matches_exact i raw)

/-- The filter `[i for i in instances if i.matches_phrase(rest, exact)]`. -/
def filterPhrase (phrase : List Tok) (exact : Bool) :
    Store → List Inst → Except Err (List Inst × Store)
  | s, [] => .ok ([], s)
  | s, i :: t => do
    let (b, s₁) ← matches_phrase s i phrase exact
    let (rest, s₂) ← filterPhrase phrase exact s₁ t
    .ok (if b then i :: rest else rest, s₂)

/-- `Tripe.search(phrase, exact)`.  `tokenized[0]` on an empty token list
raises (`IndexError`); this is the search-with-no-tokens failure. -/
def search (s : Store) (rootH : Nat) (phrase : String) (exact : Bool) :
    Except Err (List Inst × Store) :=
  match tokenize phrase with
  | [] => .error .emptyPhrase
  | t0 :: rest => do
    let (instances, s₁) ← nodeSearch s rootH t0.stemmed.toList
    let instances := if exact then filterExact t0.raw instances else instances
    filterPhrase rest exact s₁ instances

/-- The reversed-token loop of `Tripe.add`, threading the running
`next` handle (0 for `None`). -/
def addLoop (rootH doc : Nat) : Store → List Tok → Nat → Except Err (Unit × Store)
  | s, [], _ => .ok ((), s)
  | s, t :: rest, nextH => do
    let (h, s₁) ← newInstance s doc t.off t.raw nextH
    let ((), s₂) ← nodeAdd s₁ rootH t.stemmed.toList h
    addLoop rootH doc s₂ rest h

/-- `Tripe.add(text, doc)`. -/
def add (s : Store) (rootH : Nat) (text : String) (doc : Nat) :
    Except Err (Unit × Store) :=
  addLoop rootH doc s (tokenize text).reverse 0

/-- A sequence of `add` operations against a fixed root. -/
def addAll (rootH : Nat) : Store → List (String × Nat) → Except Err Store
  | s, [] => .ok s
  | s, (text, d) :: rest => do
    let ((), s₁) ← add s rootH text d
    addAll rootH s₁ rest

/-! ## Specification-side definitions used to state the claims -/

/-- A 128-byte file whose header slot 0 is zero rather than MAGIC. -/
def badMagicFile : List Nat := List.replicate 128 0

/-- A store with one free block of payload size 24 (strictly larger than the
request of 8 used in the counterexample below). -/
def c2Store : Store :=
  { root := 0, firstFree := 136, flen := 168, blocks := [(136, Block.nums [0, 7, 9])] }

/-- A store holding exactly one empty trie node at 136, rooted there — the
state of a freshly initialized index. -/
def oneNodeStore : Store :=
  { root := 136, firstFree := 0, flen := 152, blocks := [(136, Block.nums [0, 0])] }

/-- The payload size recorded for a handle (0 when the handle is dangling). -/
def sizeAt (s : Store) (f : Nat) : Nat :=
  match s.find f with
  | some b => b.size
  | none => 0

/-- `freeChainB s h l m`: following free-list links from `h` visits exactly
the blocks `l` and ends with link value `m`.  Each link is a stored u64, so it
is below `2^64`. -/
def freeChainB (s : Store) : Nat → List Nat → Nat → Bool
  | h, [], m => h == m
  | h, f :: rest, m =>
    h == f && !(f == 0) &&
      (match s.find f with
       | some (.nums (next :: _)) => decide (next < U64) && freeChainB s next rest m
       | _ => false)

/-- `freeListFromB s h fl`: following free-list links from `h` visits exactly
the blocks `fl` and ends at the null handle. -/
def freeListFromB (s : Store) (h : Nat) (fl : List Nat) : Bool := freeChainB s h fl 0

/-- The block `__allocate`'s first-fit walk picks from a free list: the first
block whose payload size is strictly greater than the request. -/
def firstFit (s : Store) (size : Nat) : List Nat → Option Nat
  | [] => none
  | f :: rest => if size < sizeAt s f then some f else firstFit s size rest

/-- The write `store_number(prev, …)` that unlinks a found free block:
either the header slot `FIRST_FREE` (`none`) or the payload start of the
previous free block (`some p`).  The fall-through case never arises for a
well-formed previous block. -/
def unlinkAt (s : Store) : Option Nat → Nat → Store
  | none, v => { s with firstFree := v }
  | some p, v =>
    match s.find p with
    | some (.nums (_ :: t)) => s.set p (.nums (v :: t))
    | _ => s

/-- The last visited block of a walk prefix, seeded with the link position the
walk started from. -/
def lastOf : List Nat → Option Nat → Option Nat
  | [], prev => prev
  | p :: ps, _ => lastOf ps (some p)

/-! ## Abstraction layer for the trie invariant

`TAbs` is the abstract shape of the trie reachable from a node: the node's
handle, its two array handles, the matches contents and the children (key,
subtree) pairs, in stored order. -/

inductive TAbs where
  | node (nodeH mH cH : Nat) (ms : List Nat) (children : List (Nat × TAbs))

def TAbs.nodeH : TAbs → Nat
  | .node n _ _ _ _ => n

def TAbs.matches : TAbs → List Nat
  | .node _ _ _ ms _ => ms

def TAbs.children : TAbs → List (Nat × TAbs)
  | .node _ _ _ _ cs => cs

def lookupChildA : List (Nat × TAbs) → Nat → Option TAbs
  | [], _ => none
  | (k, c) :: t, key => if k = key then some c else lookupChildA t key

/-- The abstract counterpart of `TrieNode.search` restricted to handles:
descend by byte, then read the matches list. -/
def absSearch : TAbs → List Char → List Nat
  | t, [] => t.matches
  | t, ch :: rest =>
    match lookupChildA t.children ch.toNat with
    | some c => absSearch c rest
    | none => []

/-- Replace the first child entry with the given key. -/
def replaceChild : List (Nat × TAbs) → Nat → TAbs → List (Nat × TAbs)
  | [], _, _ => []
  | (k, c) :: t, key, c' => if k = key then (key, c') :: t else (k, c) :: replaceChild t key c'

/-- The abstract counterparts of `insertPair`/`pySort`, comparing entries by
`(key, child node handle)`. -/
def insertPairA (x : Nat × TAbs) : List (Nat × TAbs) → List (Nat × TAbs)
  | [] => [x]
  | y :: t => if pairLt (y.1, y.2.nodeH) (x.1, x.2.nodeH) then y :: insertPairA x t
              else x :: y :: t

def pySortA : List (Nat × TAbs) → List (Nat × TAbs)
  | [] => []
  | x :: t => insertPairA x (pySortA t)

mutual
/-- The handles a subtree occupies: its node blocks and its (nonzero)
matches- and children-array blocks. -/
def foot : TAbs → List Nat
  | .node n mH cH _ cs =>
    n :: ((if mH = 0 then [] else [mH]) ++ (if cH = 0 then [] else [cH]) ++ footChildren cs)

def footChildren : List (Nat × TAbs) → List Nat
  | [] => []
  | (_, c) :: t => foot c ++ footChildren t
end

mutual
/-- `NodeRep s t`: the abstract subtree `t` is faithfully stored in `s`. -/
def NodeRep (s : Store) : TAbs → Prop
  | .node n mH cH ms cs =>
    s.find n = some (.nums [mH, cH]) ∧
    (if mH = 0 then ms = [] else s.find mH = some (.nums ms)) ∧
    (if cH = 0 then cs = []
     else s.find cH = some (.nums (flattenPairs (cs.map fun p => (p.1, p.2.nodeH))))) ∧
    (cs.map Prod.fst).Nodup ∧
    ChildrenRep s cs

def ChildrenRep (s : Store) : List (Nat × TAbs) → Prop
  | [] => True
  | (_, c) :: t => NodeRep s c ∧ ChildrenRep s t
end

/-- `ChainRep s live d h toks`: from handle `h` a chain of `TermInstance`
blocks spells out the token list `toks` for document `d`; every block involved
(instances and raw-text blocks) is in the protected set `live`. -/
def ChainRep (s : Store) (live : List Nat) (d : Nat) : Nat → List Tok → Prop
  | _, [] => True
  | h, t :: rest =>
    h ∈ live ∧
    ∃ rawH nextH,
      s.find h = some (.nums [d, t.off, rawH, nextH]) ∧
      rawH ∈ live ∧ s.find rawH = some (.str t.raw) ∧
      (match rest with
       | [] => nextH = 0
       | _ :: _ => nextH ≠ 0 ∧ ChainRep s live d nextH rest)

/-- `InstOK`: the instance handle `v`, filed under trie path `σ`, is a real
occurrence: some indexed document's token `i` stems to `σ` and `v` heads a
chain spelling out that document's token suffix from `i`. -/
def InstOK (docsT : List (List Tok × Nat)) (s : Store) (live : List Nat)
    (v : Nat) (σ : List Char) : Prop :=
  ∃ toks d i, (toks, d) ∈ docsT ∧ i < toks.length ∧
    (toks.getD i default).stemmed.toList = σ ∧
    ChainRep s live d v (toks.drop i)

/-- Soundness of every trie path: everything a search can reach is a real
occurrence. -/
def Abs2 (docsT : List (List Tok × Nat)) (t : TAbs) (s : Store) (live : List Nat) : Prop :=
  ∀ σ v, v ∈ absSearch t σ → InstOK docsT s live v σ

/-- Every block lies within the file. -/
def DomBound (s : Store) : Prop :=
  ∀ x b, s.find x = some b → x + b.size ≤ s.flen

/-- The tokenized view of a sequence of `add` calls. -/
def docsTok (docs : List (String × Nat)) : List (List Tok × Nat) :=
  docs.map fun p => (tokenize p.1, p.2)

/-- Token comparison in the two matching modes of `matches_phrase`:
byte-equal raw forms when exact, equal stemmed forms otherwise. -/
def tokMatch (exact : Bool) (pt dt : Tok) : Prop :=
  if exact then pt.raw = dt.raw else pt.stemmed = stem dt.raw

/-- The phrase tokens match the document tokens starting at token index `i`. -/
def PhraseMatchAt (ph toks : List Tok) (i : Nat) (exact : Bool) : Prop :=
  i + ph.length ≤ toks.length ∧
  ∀ j, j < ph.length → tokMatch exact (ph.getD j default) (toks.getD (i + j) default)

/-- Walk `k` steps along a `TermInstance` chain from handle `h` (loading each
record as `TermInstance.__init__` does); `none` when the chain ended. -/
def chainFrom (s : Store) (h : Nat) : Nat → Except Err (Option Inst)
  | 0 =>
    match loadInstance s h with
    | .ok (i, _) => .ok (some i)
    | .error e => .error e
  | k + 1 => do
    let prev ← chainFrom s h k
    match prev with
    | none => .ok none
    | some i =>
      if i.nextH = 0 then .ok none
      else
        match loadInstance s i.nextH with
        | .ok (j, _) => .ok (some j)
        | .error e => .error e

/-- The continuation of a chain after one element: `nextH` is 0 exactly when
the remaining token list is empty, and otherwise heads a chain for it. -/
def TailRep (s : Store) (live : List Nat) (d nextH : Nat) : List Tok → Prop
  | [] => nextH = 0
  | ts@(_ :: _) => nextH ≠ 0 ∧ ChainRep s live d nextH ts

/-- The cursor of the `matches_phrase` loop tracks the remaining document
tokens: `none` exactly at the end, otherwise the loaded head of a chain. -/
def CurRep (s : Store) (live : List Nat) (d : Nat) : Option Inst → List Tok → Prop
  | none, dtoks => dtoks = []
  | some inst, dtoks => ∃ dt drest, dtoks = dt :: drest ∧ inst.raw = dt.raw ∧
      TailRep s live d inst.nextH drest

/-- The global invariant the `add` pipeline maintains: the trie rooted at `t`
is faithfully stored with a duplicate-free footprint, the free list is a
duplicate-free chain disjoint from the footprint, every block lies inside the
file, the protected chain blocks `live` are present and disjoint from both,
and every trie entry is a real occurrence of some indexed document. -/
def Inv (docsT : List (List Tok × Nat)) (s : Store) (t : TAbs)
    (fl live : List Nat) : Prop :=
  NodeRep s t ∧ (foot t).Nodup ∧
  freeChainB s s.firstFree fl 0 = true ∧ fl.Nodup ∧ DomBound s ∧
  (∀ x ∈ foot t, x ∉ fl) ∧ (∀ x ∈ live, x ∉ fl) ∧ (∀ x ∈ live, x ∉ foot t) ∧
  (∀ x ∈ live, (s.find x).isSome) ∧
  Abs2 docsT t s live

/-- What one `TrieNode.add(term, value)` call guarantees: the subtree is again
faithfully stored with the entry `v` appended under path `σ` and nothing else
changed in it, the free list is again a well-formed chain, new footprint and
free-list blocks come only from the old footprint, the old free list or fresh
file space, and every protected block is untouched. -/
def AddPost (s : Store) (t : TAbs) (fl live : List Nat) (v : Nat) (σ : List Char)
    (s' : Store) (t' : TAbs) (fl' : List Nat) : Prop :=
  NodeRep s' t' ∧ t'.nodeH = t.nodeH ∧ (foot t').Nodup ∧
  freeChainB s' s'.firstFree fl' 0 = true ∧ fl'.Nodup ∧ DomBound s' ∧
  (∀ x ∈ foot t', x ∉ fl') ∧
  (∀ x ∈ foot t', x ∈ foot t ∨ x ∈ fl ∨ s.find x = none) ∧
  (∀ x ∈ fl', x ∈ fl ∨ x ∈ foot t ∨ s.find x = none) ∧
  s'.root = s.root ∧
  (∀ x, (s.find x).isSome → (s'.find x).isSome) ∧
  (∀ x b, x ∈ live → s.find x = some b → s'.find x = some b) ∧
  (∀ σ2, absSearch t' σ2 = if σ2 = σ then absSearch t σ2 ++ [v] else absSearch t σ2)

/-- The store obtained by indexing the single document `("ab", 7)` into a
fresh index (used to witness the search-soundness theorem on concrete data). -/
def c1Store : Store :=
  { root := 136, firstFree := 0, flen := 314,
    blocks := [(136, Block.nums [0, 234]),
               (160, Block.str "ab"),
               (170, Block.nums [7, 0, 160, 0]),
               (210, Block.nums [0, 282]),
               (234, Block.nums [97, 210]),
               (258, Block.nums [306, 0]),
               (282, Block.nums [98, 258]),
               (306, Block.nums [170])] }

/-- The store obtained by indexing the single document `("ab ab", 7)` into a
fresh index (used to witness the chain-invariant theorem on concrete data). -/
def c5Store : Store :=
  { root := 136, firstFree := 306, flen := 404,
    blocks := [(136, Block.nums [0, 234]),
               (160, Block.str "ab"),
               (170, Block.nums [7, 3, 160, 0]),
               (210, Block.nums [0, 282]),
               (234, Block.nums [97, 210]),
               (258, Block.nums [372, 0]),
               (282, Block.nums [98, 258]),
               (306, Block.nums [0]),
               (322, Block.str "ab"),
               (332, Block.nums [7, 0, 322, 170]),
               (372, Block.nums [170, 332]),
               (396, Block.str "FFFFFFFF")] }

def c5Insts : List Inst :=
  [⟨170, 7, 3, 160, 0, "ab"⟩, ⟨332, 7, 0, 322, 170, "ab"⟩]

def c5J : Inst := ⟨332, 7, 0, 322, 170, "ab"⟩

/-! ## Basic lemmas about the block map -/

theorem findBlock_setBlockL_self (l : List (Nat × Block)) (h : Nat) (b : Block) :
    findBlock (setBlockL l h b) h = some b := by
  induction l with
  | nil => simp [setBlockL, findBlock]
  | cons p t ih =>
    obtain ⟨k, v⟩ := p
    by_cases hk : k = h <;> simp [setBlockL, findBlock, hk, ih]

theorem findBlock_setBlockL_ne (l : List (Nat × Block)) (h h' : Nat) (b : Block)
    (hne : h' ≠ h) : findBlock (setBlockL l h b) h' = findBlock l h' := by
  induction l with
  | nil => simp [setBlockL, findBlock, Ne.symm hne]
  | cons p t ih =>
    obtain ⟨k, v⟩ := p
    simp only [setBlockL]
    by_cases hk : k = h
    · subst hk
      simp [findBlock, Ne.symm hne]
    · rw [if_neg hk]
      by_cases hk' : k = h'
      · subst hk'
        simp [findBlock]
      · simp [findBlock, hk', ih]

theorem Store.find_set_self (s : Store) (h : Nat) (b : Block) :
    (s.set h b).find h = some b := findBlock_setBlockL_self _ _ _

theorem Store.find_set_ne (s : Store) (h h' : Nat) (b : Block) (hne : h' ≠ h) :
    (s.set h b).find h' = s.find h' := findBlock_setBlockL_ne _ _ _ _ hne

/-! ## Tokenizer lemmas -/

theorem tokenizeAux_all_space (fuel off : Nat) (cs : List Char)
    (h : ∀ c ∈ cs, pySpace c) : tokenizeAux fuel off cs = [] := by
  induction fuel generalizing off cs with
  | zero => cases cs <;> rfl
  | succ n ih =>
    cases cs with
    | nil => rfl
    | cons c cs' =>
      have hc : pySpace c = true := h c (List.mem_cons_self c cs')
      simp only [tokenizeAux, hc, if_true]
      exact ih _ _ fun d hd => h d (List.mem_cons_of_mem c hd)

/-! ## Claims about `TripeStore.__init__` (C10, C3) -/

/-- C10: opening a store on a nonexistent path creates the file and writes the
128-byte header — the 8-byte little-endian MAGIC followed by fifteen zero
slots (120 zero bytes) — regardless of the `writable` flag; in particular a
read-only open of a missing file creates and initializes it rather than
failing. -/
theorem c10_open_missing_creates_header (writable : Bool) :
    TripeStore.init none writable = .ok headerBytes ∧
    headerBytes.length = 128 ∧
    headerBytes.take 8 = natToLE8 MAGIC ∧
    headerBytes.drop 8 = List.replicate 120 0 ∧
    MAGIC = 0x3130306570697254 := by
  refine ⟨rfl, by decide, by decide, by decide, by decide⟩

/-- C3 counterexample: opening an existing file whose slot 0 is not MAGIC
succeeds — no `BadMagic` failure occurs, in either mode. -/
theorem c3_counterexample :
    leToNat (badMagicFile.take 8) ≠ MAGIC ∧
    TripeStore.init (some badMagicFile) true = .ok badMagicFile ∧
    TripeStore.init (some badMagicFile) false = .ok badMagicFile := by
  refine ⟨by decide, by decide, by decide⟩

/-- C3 amended: `TripeStore.__init__` performs no magic verification at all.
Opening any existing, nonempty file succeeds regardless of the contents of
header slot 0; `BadMagic` is never raised. -/
theorem c3_open_never_checks_magic (f : List Nat) (writable : Bool) (hne : f ≠ []) :
    TripeStore.init (some f) writable = .ok f := by
  unfold TripeStore.init
  simp [List.length_eq_zero, hne]

theorem c3_open_never_checks_magic_witness :
    ([7, 7, 7] : List Nat) ≠ [] ∧ TripeStore.init (some [7, 7, 7]) false = .ok [7, 7, 7] :=
  ⟨by decide, c3_open_never_checks_magic [7, 7, 7] false (by decide)⟩

/-! ## Claim C7: searching an empty phrase -/

/-- C7: whenever a phrase tokenizes to no tokens, `search` fails with the
empty-phrase error (the source raises at the `tokenized[0]` subscript before
touching the index), rather than returning results or a different error. -/
theorem c7_empty_phrase_fails (s : Store) (rootH : Nat) (phrase : String) (exact : Bool)
    (h : tokenize phrase = []) :
    search s rootH phrase exact = .error .emptyPhrase := by
  unfold search
  rw [h]

theorem c7_empty_phrase_fails_witness :
    tokenize " \t " = [] ∧
    search emptyStore 136 " \t " true = .error .emptyPhrase :=
  ⟨by decide, c7_empty_phrase_fails emptyStore 136 " \t " true (by decide)⟩

/-! ## Claim C9: adding token-free text -/

/-- C9: `add` of text containing only whitespace characters (or nothing)
performs no store operation at all: the resulting store is the input store,
byte for byte. -/
theorem c9_add_whitespace_noop (s : Store) (rootH : Nat) (text : String) (doc : Nat)
    (h : ∀ c ∈ text.toList, pySpace c) :
    add s rootH text doc = .ok ((), s) := by
  unfold add tokenize
  rw [tokenizeAux_all_space _ _ _ h]
  rfl

theorem c9_add_whitespace_noop_witness :
    (∀ c ∈ (" \t\n".toList), pySpace c = true) ∧
    add emptyStore 136 " \t\n" 5 = .ok ((), emptyStore) :=
  ⟨by decide, c9_add_whitespace_noop emptyStore 136 " \t\n" 5 (by decide)⟩

/-! ## Claim C2: the size prefix of a reused free block -/

/-- C2 counterexample: allocating 8 bytes reuses the free block at 136, whose
payload size was 24 (> 8); afterwards the stored size prefix of the returned
handle is the requested 8, not the original 24 — `__allocate` overwrites the
prefix via `store_number(offset, size)` on the reuse path too. -/
theorem c2_counterexample :
    c2Store.firstFree = 136 ∧
    c2Store.find 136 = some (Block.nums [0, 7, 9]) ∧
    (Block.nums [0, 7, 9]).size = 24 ∧ 24 > 8 ∧
    c2Store.allocate 8 =
      .ok (136, { root := 0, firstFree := 0, flen := 168, blocks := [(136, Block.raw 8)] }) ∧
    (Block.raw 8).size ≠ 24 := by
  refine ⟨rfl, by decide, by decide, by decide, by decide, by decide⟩

/-! ## Destructuring `Except` binds -/

theorem bind_ok {α β : Type _} {e : Except Err α} {f : α → Except Err β} {b : β}
    (h : e >>= f = .ok b) : ∃ a, e = .ok a ∧ f a = .ok b := by
  cases e with
  | ok a => exact ⟨a, rfl, h⟩
  | error ex => simp [Bind.bind, Except.bind] at h

theorem ok_bind {α β : Type _} (a : α) (f : α → Except Err β) :
    ((.ok a : Except Err α) >>= f) = f a := rfl

/-! ## Characterizing `__allocate` -/

/-- A successful allocation records the requested size — not the found
block's original size — as the size prefix of the returned handle. -/
theorem allocWalk_prefix (size : Nat) :
    ∀ (fuel : Nat) (s : Store) (prev : Option Nat) (free h : Nat) (s' : Store),
      allocWalk size s prev free fuel = .ok (h, s') →
      s'.find h = some (Block.raw size) := by
  intro fuel
  induction fuel with
  | zero =>
    intro s prev free h s' hw
    exact absurd hw (by simp [allocWalk])
  | succ n ih =>
    intro s prev free h s' hw
    unfold allocWalk at hw
    by_cases hf : free = 0
    · rw [if_pos hf] at hw
      by_cases hsz : size < U64
      · rw [if_pos hsz] at hw
        injection hw with hw
        injection hw with h1 h2
        subst h1; subst h2
        exact Store.find_set_self _ _ _
      · rw [if_neg hsz] at hw
        exact absurd hw (by simp)
    · rw [if_neg hf] at hw
      cases hfind : s.find free with
      | none => rw [hfind] at hw; exact absurd hw (by simp)
      | some b =>
        rw [hfind] at hw
        dsimp only at hw
        by_cases hbs : b.size > size
        · rw [if_pos hbs] at hw
          obtain ⟨next, hnext, hw⟩ := bind_ok hw
          obtain ⟨s₁, hs₁, hw⟩ := bind_ok hw
          by_cases hsz : size < U64
          · rw [if_pos hsz] at hw
            injection hw with hw
            injection hw with h1 h2
            subst h1; subst h2
            exact Store.find_set_self _ _ _
          · rw [if_neg hsz] at hw
            exact absurd hw (by simp)
        · rw [if_neg hbs] at hw
          obtain ⟨next, hnext, hw⟩ := bind_ok hw
          exact ih s (some free) next h s' hw

/-! ## Free-list chain lemmas -/

theorem freeChainB_nil {s : Store} {h m : Nat} :
    freeChainB s h [] m = true ↔ h = m := by
  simp [freeChainB]

theorem freeChainB_cons {s : Store} {h f m : Nat} {rest : List Nat}
    (hc : freeChainB s h (f :: rest) m = true) :
    h = f ∧ f ≠ 0 ∧ ∃ next tail, s.find f = some (Block.nums (next :: tail)) ∧
      next < U64 ∧ freeChainB s next rest m = true := by
  unfold freeChainB at hc
  obtain ⟨⟨h1, h0⟩, h2⟩ := Bool.and_eq_true_iff.mp hc |>.imp_left Bool.and_eq_true_iff.mp
  refine ⟨eq_of_beq h1, by simpa using h0, ?_⟩
  cases hfi : s.find f with
  | none => rw [hfi] at h2; simp at h2
  | some b =>
    rw [hfi] at h2
    cases b with
    | nums ln =>
      cases ln with
      | nil => simp at h2
      | cons x t =>
        obtain ⟨hx, hrest⟩ := Bool.and_eq_true_iff.mp h2
        exact ⟨x, t, rfl, of_decide_eq_true hx, hrest⟩
    | str t => simp at h2
    | raw nn => simp at h2

theorem freeChainB_cons_intro {s : Store} {f m next : Nat} {tail : List Nat}
    {rest : List Nat} (h0 : f ≠ 0) (hfind : s.find f = some (Block.nums (next :: tail)))
    (hlt : next < U64) (hrest : freeChainB s next rest m = true) :
    freeChainB s f (f :: rest) m = true := by
  unfold freeChainB
  rw [hfind]
  simp [h0, hlt, hrest]

theorem freeChainB_frame :
    ∀ (l : List Nat) (s s' : Store) (h m : Nat),
      (∀ f ∈ l, s'.find f = s.find f) →
      freeChainB s' h l m = freeChainB s h l m := by
  intro l
  induction l with
  | nil => intros; rfl
  | cons f rest ih =>
    intro s s' h m hagree
    unfold freeChainB
    rw [hagree f (List.mem_cons_self f rest)]
    cases hfi : s.find f with
    | none => rfl
    | some b =>
      cases b with
      | nums ln =>
        cases ln with
        | nil => rfl
        | cons x t =>
          dsimp only
          rw [ih s s' x m fun g hg => hagree g (List.mem_cons_of_mem f hg)]
      | str t => rfl
      | raw nn => rfl

theorem freeChainB_append :
    ∀ (l₁ l₂ : List Nat) (s : Store) (h m : Nat),
      freeChainB s h (l₁ ++ l₂) m = true ↔
        ∃ k, freeChainB s h l₁ k = true ∧ freeChainB s k l₂ m = true := by
  intro l₁
  induction l₁ with
  | nil =>
    intro l₂ s h m
    constructor
    · intro hw
      exact ⟨h, by simp [freeChainB], hw⟩
    · rintro ⟨k, hk, hw⟩
      rwa [freeChainB_nil.mp hk]
  | cons f rest ih =>
    intro l₂ s h m
    constructor
    · intro hw
      obtain ⟨h1, h0, next, tail, hfind, hlt, hrest⟩ := freeChainB_cons hw
      obtain ⟨k, hk1, hk2⟩ := (ih l₂ s next m).mp hrest
      subst h1
      exact ⟨k, freeChainB_cons_intro h0 hfind hlt hk1, hk2⟩
    · rintro ⟨k, hk, hw⟩
      obtain ⟨h1, h0, next, tail, hfind, hlt, hrest⟩ := freeChainB_cons hk
      subst h1
      exact freeChainB_cons_intro h0 hfind hlt ((ih l₂ s next m).mpr ⟨k, hrest, hw⟩)

theorem findBlock_mem_keys :
    ∀ (l : List (Nat × Block)) (h : Nat) (b : Block),
      findBlock l h = some b → h ∈ l.map Prod.fst := by
  intro l
  induction l with
  | nil => intro h b hf; simp [findBlock] at hf
  | cons p t ih =>
    intro h b hf
    obtain ⟨k, v⟩ := p
    unfold findBlock at hf
    by_cases hk : k = h
    · subst hk; simp
    · rw [if_neg hk] at hf
      simpa using Or.inr (ih h b hf)

theorem freeChainB_subset_keys (s : Store) :
    ∀ (l : List Nat) (h m : Nat), freeChainB s h l m = true →
      ∀ f ∈ l, f ∈ s.blocks.map Prod.fst := by
  intro l
  induction l with
  | nil => intro h m _ f hf; simp at hf
  | cons g rest ih =>
    intro h m hc f hf
    obtain ⟨h1, h0, next, tail, hfind, hlt, hrest⟩ := freeChainB_cons hc
    rcases List.mem_cons.mp hf with h2 | h2
    · subst h2; exact findBlock_mem_keys _ _ _ hfind
    · exact ih next m hrest f h2

theorem nodup_subset_length_le {l₁ l₂ : List Nat} (h₁ : l₁.Nodup)
    (hsub : ∀ x ∈ l₁, x ∈ l₂) : l₁.length ≤ l₂.length := by
  calc l₁.length = l₁.toFinset.card := (List.toFinset_card_of_nodup h₁).symm
    _ ≤ l₂.toFinset.card := Finset.card_le_card fun x hx => by
        simp only [List.mem_toFinset] at hx ⊢
        exact hsub x hx
    _ ≤ l₂.length := l₂.toFinset_card_le

/-! ## The first-fit walk: found and extend cases -/

theorem firstFit_some_split (s : Store) (size : Nat) :
    ∀ (fl : List Nat) (f : Nat), firstFit s size fl = some f →
      ∃ pre post, fl = pre ++ f :: post ∧ (∀ x ∈ pre, ¬ size < sizeAt s x) ∧
        size < sizeAt s f := by
  intro fl
  induction fl with
  | nil => intro f h; simp [firstFit] at h
  | cons g rest ih =>
    intro f h
    unfold firstFit at h
    by_cases hg : size < sizeAt s g
    · rw [if_pos hg] at h
      injection h with h; subst h
      exact ⟨[], rest, rfl, by simp, hg⟩
    · rw [if_neg hg] at h
      obtain ⟨pre, post, heq, hpre, hf⟩ := ih f h
      refine ⟨g :: pre, post, by rw [heq]; rfl, ?_, hf⟩
      intro x hx
      rcases List.mem_cons.mp hx with h1 | h2
      · subst h1; exact hg
      · exact hpre x h2

theorem firstFit_none_nofit (s : Store) (size : Nat) :
    ∀ (fl : List Nat), firstFit s size fl = none → ∀ x ∈ fl, ¬ size < sizeAt s x := by
  intro fl
  induction fl with
  | nil => intro _ x hx; simp at hx
  | cons g rest ih =>
    intro h x hx
    unfold firstFit at h
    by_cases hg : size < sizeAt s g
    · rw [if_pos hg] at h; cases h
    · rw [if_neg hg] at h
      rcases List.mem_cons.mp hx with h1 | h2
      · subst h1; exact hg
      · exact ih h x h2

theorem lastOf_append_singleton (l : List Nat) (a : Nat) :
    ∀ (prev : Option Nat), lastOf (l ++ [a]) prev = some a := by
  induction l with
  | nil => intro prev; rfl
  | cons x t ih => intro prev; exact ih (some x)

theorem lastOf_mem (l : List Nat) :
    ∀ (p : Nat), lastOf l none = some p → p ∈ l := by
  rcases List.eq_nil_or_concat l with h | ⟨L, b, h⟩
  · subst h; intro p hp; cases hp
  · subst h
    intro p hp
    rw [List.concat_eq_append, lastOf_append_singleton] at hp
    injection hp with hp
    subst hp
    simp

theorem allocWalk_extend (size : Nat) (hsz : size < U64) :
    ∀ (fl : List Nat) (s : Store) (prev : Option Nat) (free fuel : Nat),
      fuel ≥ fl.length + 1 →
      freeChainB s free fl 0 = true →
      (∀ x ∈ fl, ¬ size < sizeAt s x) →
      allocWalk size s prev free fuel =
        .ok (s.flen + 8, { s with flen := s.flen + 8 + size,
                                  blocks := setBlockL s.blocks (s.flen + 8) (.raw size) }) := by
  intro fl
  induction fl with
  | nil =>
    intro s prev free fuel hfuel hchain _
    have hf : free = 0 := freeChainB_nil.mp hchain
    cases fuel with
    | zero => omega
    | succ n =>
      subst hf
      simp [allocWalk, hsz]
  | cons f rest ih =>
    intro s prev free fuel hfuel hchain hnofit
    obtain ⟨h1, h0, next, tail, hfind, hlt, hrest⟩ := freeChainB_cons hchain
    subst h1
    cases fuel with
    | zero => simp at hfuel
    | succ n =>
      have hnf : ¬ (Block.nums (next :: tail)).size > size := by
        have hx := hnofit free (List.mem_cons_self free rest)
        unfold sizeAt at hx
        rw [hfind] at hx
        exact hx
      unfold allocWalk
      rw [if_neg h0, hfind]
      dsimp only
      rw [if_neg hnf]
      have hload : s.loadPtr free = .ok next := by
        unfold Store.loadPtr
        rw [hfind]
      rw [hload, ok_bind]
      exact ih s (some free) next n (by simpa using hfuel) hrest
        fun x hx => hnofit x (List.mem_cons_of_mem free hx)

theorem allocWalk_found (size : Nat) (hsz : size < U64) :
    ∀ (pre : List Nat) (s : Store) (f : Nat) (post : List Nat) (prev : Option Nat)
      (free fuel : Nat),
      fuel ≥ pre.length + 1 →
      freeChainB s free (pre ++ f :: post) 0 = true →
      (∀ x ∈ pre, ¬ size < sizeAt s x) →
      size < sizeAt s f →
      (prev = none ∨ ∃ p w tp, prev = some p ∧ s.find p = some (Block.nums (w :: tp))) →
      ∃ next tail, s.find f = some (Block.nums (next :: tail)) ∧ next < U64 ∧
        freeChainB s next post 0 = true ∧
        allocWalk size s prev free fuel =
          .ok (f, (unlinkAt s (lastOf pre prev) next).set f (Block.raw size)) := by
  intro pre
  induction pre with
  | nil =>
    intro s f post prev free fuel hfuel hchain _ hfit hprev
    obtain ⟨h1, h0, next, tail, hfind, hlt, hrest⟩ := freeChainB_cons hchain
    subst h1
    cases fuel with
    | zero => omega
    | succ n =>
      refine ⟨next, tail, hfind, hlt, hrest, ?_⟩
      have hgt : (Block.nums (next :: tail)).size > size := by
        have hx := hfit
        unfold sizeAt at hx
        rw [hfind] at hx
        exact hx
      unfold allocWalk
      rw [if_neg h0, hfind]
      dsimp only
      rw [if_pos hgt]
      have hload : s.loadPtr free = .ok next := by
        unfold Store.loadPtr
        rw [hfind]
      rw [hload, ok_bind]
      rcases hprev with hp | ⟨p, w, tp, hp, hpfind⟩
      · subst hp
        dsimp only
        rw [if_pos hlt, ok_bind, if_pos hsz]
        rfl
      · subst hp
        dsimp only
        have hsp : s.storePtr p next = .ok (s.set p (Block.nums (next :: tp))) := by
          unfold Store.storePtr
          rw [if_pos hlt, hpfind]
        rw [hsp, ok_bind, if_pos hsz]
        have hun : unlinkAt s (some p) next = s.set p (Block.nums (next :: tp)) := by
          unfold unlinkAt
          dsimp only
          rw [hpfind]
        dsimp only [lastOf]
        rw [hun]
  | cons q pre' ih =>
    intro s f post prev free fuel hfuel hchain hnofit hfit hprev
    rw [List.cons_append] at hchain
    obtain ⟨h1, h0, nq, tq, hqfind, hqlt, hrest⟩ := freeChainB_cons hchain
    subst h1
    cases fuel with
    | zero => simp at hfuel
    | succ n =>
      have hnf : ¬ (Block.nums (nq :: tq)).size > size := by
        have hx := hnofit free (List.mem_cons_self free pre')
        unfold sizeAt at hx
        rw [hqfind] at hx
        exact hx
      unfold allocWalk
      rw [if_neg h0, hqfind]
      dsimp only
      rw [if_neg hnf]
      have hload : s.loadPtr free = .ok nq := by
        unfold Store.loadPtr
        rw [hqfind]
      rw [hload, ok_bind]
      exact ih s f post (some free) nq n (by simpa using hfuel) hrest
        (fun x hx => hnofit x (List.mem_cons_of_mem free hx)) hfit
        (Or.inr ⟨free, nq, tq, rfl, hqfind⟩)

/-! ## Claims C2 (amended) and C4 -/

/-- C2 amended: after any successful `allocate(size)`, the 8 bytes immediately
before the returned handle hold the requested `size`.  In particular, when the
request was satisfied from the free list by a strictly larger block, the
block's original payload size is overwritten with the smaller request — it is
not preserved. -/
theorem c2_allocate_prefix_is_request (s : Store) (size h : Nat) (s' : Store)
    (hok : s.allocate size = .ok (h, s')) :
    s'.find h = some (Block.raw size) ∧ sizeAt s' h = size := by
  have hf := allocWalk_prefix size _ s none s.firstFree h s' hok
  refine ⟨hf, ?_⟩
  unfold sizeAt
  rw [hf]
  rfl

theorem c2_allocate_prefix_is_request_witness :
    c2Store.allocate 8 =
      .ok (136, { root := 0, firstFree := 0, flen := 168, blocks := [(136, Block.raw 8)] }) ∧
    ({ root := 0, firstFree := 0, flen := 168, blocks := [(136, Block.raw 8)] } : Store).find 136 =
      some (Block.raw 8) :=
  ⟨by decide, (c2_allocate_prefix_is_request c2Store 8 136 _ (by decide)).1⟩

/-- `unlinkAt` leaves every handle other than the named one unchanged. -/
theorem unlinkAt_find_ne (s : Store) (o : Option Nat) (v h : Nat)
    (ho : ∀ p, o = some p → h ≠ p) : (unlinkAt s o v).find h = s.find h := by
  cases o with
  | none => rfl
  | some p =>
    unfold unlinkAt
    dsimp only
    cases s.find p with
    | none => rfl
    | some b =>
      cases b with
      | nums l =>
        cases l with
        | nil => rfl
        | cons x t => exact Store.find_set_ne _ _ _ _ (ho p rfl)
      | str t => rfl
      | raw n => rfl

/-- Neither unlinking nor a block write changes `flen` or `root`. -/
theorem unlinkAt_flen (s : Store) (o : Option Nat) (v : Nat) :
    (unlinkAt s o v).flen = s.flen ∧ (unlinkAt s o v).root = s.root := by
  cases o with
  | none => exact ⟨rfl, rfl⟩
  | some p =>
    unfold unlinkAt
    dsimp only
    cases s.find p with
    | none => exact ⟨rfl, rfl⟩
    | some b =>
      cases b with
      | nums l =>
        cases l with
        | nil => exact ⟨rfl, rfl⟩
        | cons x t => exact ⟨rfl, rfl⟩
      | str t => exact ⟨rfl, rfl⟩
      | raw n => exact ⟨rfl, rfl⟩

/-- C4: `allocate(size)` walks the free list from `FIRST_FREE` and returns the
first block whose payload size is strictly greater than `size` (a block of
exactly `size` is skipped), unlinking it from the list and touching no block
outside the free list; if no free block is strictly larger, the file is
extended by exactly `8 + size` bytes, the size prefix is written at the old
end of the file, and the payload handle `old_length + 8` is returned. -/
theorem c4_allocate_first_fit (s : Store) (size : Nat) (fl : List Nat)
    (hfl : freeListFromB s s.firstFree fl = true)
    (hnd : fl.Nodup)
    (hsz : size < U64) :
    (firstFit s size fl = none →
      s.allocate size =
        .ok (s.flen + 8, { s with flen := s.flen + 8 + size,
                                  blocks := setBlockL s.blocks (s.flen + 8) (.raw size) })) ∧
    (∀ f, firstFit s size fl = some f →
      ∃ s', s.allocate size = .ok (f, s') ∧
        sizeAt s' f = size ∧
        s'.flen = s.flen ∧
        s'.root = s.root ∧
        freeListFromB s' s'.firstFree (fl.erase f) = true ∧
        (∀ h, h ∉ fl → s'.find h = s.find h)) := by
  unfold freeListFromB at hfl
  have hsub := freeChainB_subset_keys s fl s.firstFree 0 hfl
  have hlen : fl.length ≤ s.blocks.length := by
    have h1 := nodup_subset_length_le hnd hsub
    rwa [List.length_map] at h1
  constructor
  · intro hnone
    exact allocWalk_extend size hsz fl s none s.firstFree (s.blocks.length + 1)
      (by omega) hfl (firstFit_none_nofit s size fl hnone)
  · intro f hsome
    obtain ⟨pre, post, heq, hpre, hfit⟩ := firstFit_some_split s size fl f hsome
    subst heq
    have hprelen : pre.length ≤ s.blocks.length := by
      have hp2 : pre.length ≤ (pre ++ f :: post).length := by
        simp [List.length_append]
      omega
    obtain ⟨next, tail, hffind, hnlt, hpost, hwalk⟩ :=
      allocWalk_found size hsz pre s f post none s.firstFree (s.blocks.length + 1)
        (by omega) hfl hpre hfit (Or.inl rfl)
    -- nodup facts
    have hndp := hnd
    rw [List.nodup_append] at hndp
    obtain ⟨hndpre, hndfp, hdisj⟩ := hndp
    have hfpre : f ∉ pre := fun hm => hdisj hm (List.mem_cons_self f post)
    have hfpost : f ∉ post := (List.nodup_cons.mp hndfp).1
    refine ⟨(unlinkAt s (lastOf pre none) next).set f (Block.raw size), hwalk, ?_, ?_, ?_, ?_, ?_⟩
    · unfold sizeAt
      rw [Store.find_set_self]
      rfl
    · exact (unlinkAt_flen s (lastOf pre none) next).1
    · exact (unlinkAt_flen s (lastOf pre none) next).2
    · -- the new free list is the old one with f unlinked
      rw [List.erase_append_right _ hfpre, List.erase_cons_head]
      unfold freeListFromB
      rcases List.eq_nil_or_concat pre with hpe | ⟨L, p, hpe⟩
      · -- f was the head of the free list: FIRST_FREE now points at f's next
        subst hpe
        show freeChainB ((unlinkAt s (lastOf [] none) next).set f (Block.raw size))
          ((unlinkAt s (lastOf [] none) next).set f (Block.raw size)).firstFree ([] ++ post) 0 = true
        have hagree : ∀ g ∈ post,
            ((unlinkAt s (lastOf [] none) next).set f (Block.raw size)).find g = s.find g := by
          intro g hg
          have hgf : g ≠ f := fun hgf => hfpost (hgf ▸ hg)
          exact Store.find_set_ne _ f g (Block.raw size) hgf
        rw [List.nil_append, freeChainB_frame post s _ _ 0 hagree]
        exact hpost
      · -- f was deeper in the list: its predecessor p is re-pointed at f's next
        subst hpe
        rw [List.concat_eq_append] at hndpre hfpre hdisj ⊢
        have hlast : lastOf (L ++ [p]) none = some p := lastOf_append_singleton L p none
        rw [hlast]
        -- decompose the original chain around p
        have hchain2 : freeChainB s s.firstFree (L ++ p :: f :: post) 0 = true := by
          have hre : (L ++ [p]) ++ f :: post = L ++ p :: f :: post := by simp
          rw [List.concat_eq_append] at hfl
          rwa [hre] at hfl
        obtain ⟨k, hkL, hkrest⟩ := (freeChainB_append L (p :: f :: post) s s.firstFree 0).mp hchain2
        obtain ⟨hk, hp0, np, tp, hpfind, hnplt, hnprest⟩ := freeChainB_cons hkrest
        have hk2 : p = k := hk.symm
        subst hk2
        obtain ⟨hnpf, hf0, next2, tail2, hffind2, hn2lt, hrest2⟩ := freeChainB_cons hnprest
        have hnpf2 : f = np := hnpf.symm
        subst hnpf2
        rw [hffind] at hffind2
        have hinj : next = next2 ∧ tail = tail2 := by
          have h2 := hffind2
          simp only [Option.some.injEq, Block.nums.injEq, List.cons.injEq] at h2
          exact h2
        obtain ⟨hnn, -⟩ := hinj
        subst hnn
        -- nodup facts
        rw [List.nodup_append] at hndpre
        obtain ⟨hndL, -, hdisjLp⟩ := hndpre
        have hpL : p ∉ L := fun hm => hdisjLp hm (by simp)
        have hfL : f ∉ L := fun hm => hfpre (by simp [hm])
        have hfp : f ≠ p := fun hm => hfpre (by simp [hm])
        have hppost : p ∉ post := fun hm =>
          hdisj (List.mem_append_right L (by simp)) (List.mem_cons_of_mem f hm)
        -- the unlink write rewrites the predecessor link to f's next
        have hs1 : unlinkAt s (some p) next = s.set p (Block.nums (next :: tp)) := by
          unfold unlinkAt
          dsimp only
          rw [hpfind]
        rw [hs1]
        have hre2 : L ++ [p] ++ post = L ++ p :: post := by simp
        rw [hre2]
        have hff2 : (((s.set p (Block.nums (next :: tp))).set f (Block.raw size))).firstFree
            = s.firstFree := rfl
        rw [hff2]
        apply (freeChainB_append L (p :: post) _ s.firstFree 0).mpr
        refine ⟨p, ?_, ?_⟩
        · have hagree : ∀ g ∈ L,
              ((s.set p (Block.nums (next :: tp))).set f (Block.raw size)).find g = s.find g := by
            intro g hg
            have hgf : g ≠ f := fun hx => hfL (hx ▸ hg)
            have hgp : g ≠ p := fun hx => hpL (hx ▸ hg)
            rw [Store.find_set_ne _ f g _ hgf, Store.find_set_ne _ p g _ hgp]
          rw [freeChainB_frame L s _ s.firstFree p hagree]
          exact hkL
        · have hfindp : ((s.set p (Block.nums (next :: tp))).set f (Block.raw size)).find p
              = some (Block.nums (next :: tp)) := by
            rw [Store.find_set_ne _ f p _ (Ne.symm hfp)]
            exact Store.find_set_self _ _ _
          apply freeChainB_cons_intro hp0 hfindp hnlt
          have hagree : ∀ g ∈ post,
              ((s.set p (Block.nums (next :: tp))).set f (Block.raw size)).find g = s.find g := by
            intro g hg
            have hgf : g ≠ f := fun hx => hfpost (hx ▸ hg)
            have hgp : g ≠ p := fun hx => hppost (hx ▸ hg)
            rw [Store.find_set_ne _ f g _ hgf, Store.find_set_ne _ p g _ hgp]
          rw [freeChainB_frame post s _ next 0 hagree]
          exact hpost
    · -- frame: no block outside the free list is touched
      intro h hh
      have hhf : h ≠ f := by
        intro hx
        exact hh (by simp [hx])
      rw [Store.find_set_ne _ f h _ hhf]
      apply unlinkAt_find_ne
      intro p hp hx
      apply hh
      rw [hx]
      exact List.mem_append_left _ (lastOf_mem pre p hp)

theorem c4_allocate_first_fit_witness :
    freeListFromB c2Store c2Store.firstFree [136] = true ∧
    ([136] : List Nat).Nodup ∧ 8 < U64 ∧ firstFit c2Store 8 [136] = some 136 ∧
    (∃ s', c2Store.allocate 8 = .ok (136, s') ∧
        sizeAt s' 136 = 8 ∧
        s'.flen = c2Store.flen ∧
        s'.root = c2Store.root ∧
        freeListFromB s' s'.firstFree (([136] : List Nat).erase 136) = true ∧
        (∀ h, h ∉ ([136] : List Nat) → s'.find h = c2Store.find h)) :=
  ⟨by decide, by decide, by decide, by decide,
   (c4_allocate_first_fit c2Store 8 [136] (by decide) (by decide) (by decide)).2 136 (by decide)⟩

/-! ## Mutation lemmas for the primitive store operations -/

theorem Store.find_set_isSome (s : Store) (h x : Nat) (b : Block)
    (hx : (s.find x).isSome) : ((s.set h b).find x).isSome := by
  by_cases hxh : x = h
  · subst hxh
    rw [Store.find_set_self]
    rfl
  · rw [Store.find_set_ne _ _ _ _ hxh]
    exact hx

theorem unlinkAt_find_isSome (s : Store) (o : Option Nat) (v x : Nat)
    (hx : (s.find x).isSome) : ((unlinkAt s o v).find x).isSome := by
  cases o with
  | none => exact hx
  | some p =>
    unfold unlinkAt
    dsimp only
    cases hp : s.find p with
    | none => exact hx
    | some b =>
      cases b with
      | nums l =>
        cases l with
        | nil => exact hx
        | cons w t => exact Store.find_set_isSome _ _ _ _ hx
      | str t => exact hx
      | raw n => exact hx

theorem unlinkAt_find_size (s : Store) (o : Option Nat) (v x : Nat) (b' : Block)
    (hx : (unlinkAt s o v).find x = some b') :
    ∃ b, s.find x = some b ∧ b'.size = b.size := by
  cases o with
  | none => exact ⟨b', hx, rfl⟩
  | some p =>
    unfold unlinkAt at hx
    dsimp only at hx
    cases hp : s.find p with
    | none => rw [hp] at hx; exact ⟨b', hx, rfl⟩
    | some b =>
      rw [hp] at hx
      cases b with
      | nums l =>
        cases l with
        | nil => exact ⟨b', hx, rfl⟩
        | cons w t =>
          by_cases hxp : x = p
          · subst hxp
            rw [Store.find_set_self] at hx
            injection hx with hx
            subst hx
            exact ⟨.nums (w :: t), hp, by simp [Block.size]⟩
          · rw [Store.find_set_ne _ _ _ _ hxp] at hx
            exact ⟨b', hx, rfl⟩
      | str t => exact ⟨b', hx, rfl⟩
      | raw n => exact ⟨b', hx, rfl⟩

theorem allocWalk_ok_size_lt {size : Nat} :
    ∀ {fuel : Nat} {s : Store} {prev : Option Nat} {free : Nat} {r : Nat × Store},
      allocWalk size s prev free fuel = .ok r → size < U64 := by
  intro fuel
  induction fuel with
  | zero => intro s prev free r hw; exact absurd hw (by simp [allocWalk])
  | succ n ih =>
    intro s prev free r hw
    unfold allocWalk at hw
    by_cases hf : free = 0
    · rw [if_pos hf] at hw
      by_cases hsz : size < U64
      · exact hsz
      · rw [if_neg hsz] at hw
        cases hw
    · rw [if_neg hf] at hw
      cases hfind : s.find free with
      | none => rw [hfind] at hw; cases hw
      | some b =>
        rw [hfind] at hw
        dsimp only at hw
        by_cases hbs : b.size > size
        · rw [if_pos hbs] at hw
          obtain ⟨next, _, hw⟩ := bind_ok hw
          obtain ⟨s₁, _, hw⟩ := bind_ok hw
          by_cases hsz : size < U64
          · exact hsz
          · rw [if_neg hsz] at hw
            cases hw
        · rw [if_neg hbs] at hw
          obtain ⟨next, _, hw⟩ := bind_ok hw
          exact ih hw

/-- Every block on a free-list chain is a nonzero handle holding a nonempty
number block. -/
theorem freeChainB_elems (s : Store) :
    ∀ (l : List Nat) (h m : Nat), freeChainB s h l m = true →
      ∀ g ∈ l, g ≠ 0 ∧ ∃ w tw, s.find g = some (Block.nums (w :: tw)) := by
  intro l
  induction l with
  | nil => intro h m _ g hg; cases hg
  | cons f rest ih =>
    intro h m hc g hg
    obtain ⟨h1, h0, next, tail, hfind, hlt, hrest⟩ := freeChainB_cons hc
    rcases List.mem_cons.mp hg with h2 | h2
    · subst h2; exact ⟨h0, next, tail, hfind⟩
    · exact ih next m hrest g h2

/-- Full characterization of a successful `allocate` relative to a known free
list: the returned handle carries a `size`-byte block, and either a free-list
block was reused (file length unchanged, nothing outside the free list
touched) or the file grew by exactly `8 + size`. -/
theorem allocate_ok_cases {s : Store} {size h : Nat} {s' : Store} {fl : List Nat}
    (hfl : freeChainB s s.firstFree fl 0 = true) (hnd : fl.Nodup)
    (hdb : DomBound s)
    (hok : s.allocate size = .ok (h, s')) :
    s'.find h = some (Block.raw size) ∧ s'.root = s.root ∧ s.flen ≤ s'.flen ∧
    h ≠ 0 ∧ size < U64 ∧ DomBound s' ∧
    (∀ x, (s.find x).isSome → (s'.find x).isSome) ∧
    (∃ fl', freeChainB s' s'.firstFree fl' 0 = true ∧ fl'.Nodup ∧
      (∀ x ∈ fl', x ∈ fl) ∧ h ∉ fl' ∧
      (∀ x, x ∉ fl → x ≠ h → s'.find x = s.find x) ∧
      ((h ∈ fl ∧ s'.flen = s.flen) ∨ (s.find h = none ∧ s'.flen = s.flen + 8 + size))) := by
  have hsz : size < U64 := allocWalk_ok_size_lt hok
  have hsub := freeChainB_subset_keys s fl s.firstFree 0 hfl
  have hlen : fl.length ≤ s.blocks.length := by
    have h1 := nodup_subset_length_le hnd hsub
    rwa [List.length_map] at h1
  have helems := freeChainB_elems s fl s.firstFree 0 hfl
  have hfresh_not_dom : s.find (s.flen + 8) = none := by
    cases hfd : s.find (s.flen + 8) with
    | none => rfl
    | some b =>
      have := hdb _ _ hfd
      omega
  have hfresh_not_fl : s.flen + 8 ∉ fl := by
    intro hmem
    obtain ⟨-, w, tw, hfind⟩ := helems _ hmem
    rw [hfresh_not_dom] at hfind
    cases hfind
  cases hfit : firstFit s size fl with
  | none =>
    have hwalk := allocWalk_extend size hsz fl s none s.firstFree (s.blocks.length + 1)
      (by omega) hfl (firstFit_none_nofit s size fl hfit)
    rw [Store.allocate, hwalk] at hok
    injection hok with hok
    injection hok with hh hs'
    subst hh
    subst hs'
    set sG : Store := { s with flen := s.flen + 8 + size,
                               blocks := setBlockL s.blocks (s.flen + 8) (.raw size) } with hsG
    have hfind_self : sG.find (s.flen + 8) = some (Block.raw size) :=
      findBlock_setBlockL_self _ _ _
    have hfind_ne : ∀ x, x ≠ s.flen + 8 → sG.find x = s.find x :=
      fun x hx => findBlock_setBlockL_ne _ _ _ _ hx
    refine ⟨hfind_self, rfl, by simp [hsG]; omega, by omega, hsz, ?_, ?_,
      fl, ?_, hnd, fun x hx => hx, hfresh_not_fl, ?_, ?_⟩
    · intro x b hxb
      by_cases hx : x = s.flen + 8
      · subst hx
        rw [hfind_self] at hxb
        injection hxb with hxb
        subst hxb
        show s.flen + 8 + (Block.raw size).size ≤ sG.flen
        simp [Block.size, hsG]
      · rw [hfind_ne x hx] at hxb
        have := hdb x b hxb
        show x + b.size ≤ sG.flen
        simp only [hsG]
        omega
    · intro x hx
      by_cases hxe : x = s.flen + 8
      · subst hxe
        rw [hfind_self]; rfl
      · rw [hfind_ne x hxe]; exact hx
    · show freeChainB sG sG.firstFree fl 0 = true
      have hff : sG.firstFree = s.firstFree := rfl
      rw [hff, freeChainB_frame fl s sG s.firstFree 0 ?_]
      · exact hfl
      · intro g hg
        refine hfind_ne g ?_
        intro hge
        exact hfresh_not_fl (hge ▸ hg)
    · intro x hx hxe
      exact hfind_ne x hxe
    · exact Or.inr ⟨hfresh_not_dom, rfl⟩
  | some f =>
    obtain ⟨pre, post, heq, hpre, hfit2⟩ := firstFit_some_split s size fl f hfit
    obtain ⟨s'', hok'', hsize'', hflen'', hroot'', hchain'', hframe''⟩ :=
      (c4_allocate_first_fit s size fl (by unfold freeListFromB; exact hfl) hnd hsz).2 f hfit
    rw [hok] at hok''
    injection hok'' with hok''
    injection hok'' with hhf hs''
    subst hhf
    subst hs''
    -- explicit result state via the walk lemma
    have hflchain : freeChainB s s.firstFree (pre ++ h :: post) 0 = true := heq ▸ hfl
    have hprelen : pre.length ≤ s.blocks.length := by
      have hp2 : pre.length ≤ (pre ++ h :: post).length := by simp [List.length_append]
      rw [← heq] at hp2
      omega
    obtain ⟨next, tail, hffind, hnlt, hpost, hwalk⟩ :=
      allocWalk_found size hsz pre s h post none s.firstFree (s.blocks.length + 1)
        (by omega) hflchain hpre hfit2 (Or.inl rfl)
    have hok2 := hok
    rw [Store.allocate, hwalk] at hok2
    injection hok2 with hok2
    injection hok2 with hh2 hsE
    have hmemfl : h ∈ fl := by
      rw [heq]
      exact List.mem_append_right pre (List.mem_cons_self h post)
    have h0 : h ≠ 0 := (helems h hmemfl).1
    refine ⟨?_, hroot'', by omega, h0, hsz, ?_, ?_,
      fl.erase h, ?_, hnd.erase h, fun x hx => List.mem_of_mem_erase hx, ?_, ?_, ?_⟩
    · rw [← hsE]
      exact Store.find_set_self _ _ _
    · -- DomBound via the explicit state
      intro x b hxb
      rw [← hsE] at hxb
      by_cases hxh : x = h
      · subst hxh
        rw [Store.find_set_self] at hxb
        injection hxb with hxb
        subst hxb
        have hold := hdb x _ hffind
        have hsizes : size < (Block.nums (next :: tail)).size := by
          have := hfit2
          unfold sizeAt at this
          rw [hffind] at this
          exact this
        show x + (Block.raw size).size ≤ s'.flen
        simp only [Block.size] at *
        omega
      · rw [Store.find_set_ne _ _ _ _ hxh] at hxb
        obtain ⟨bOld, hbOld, hbsz⟩ := unlinkAt_find_size s _ next x b hxb
        have := hdb x bOld hbOld
        omega
    · intro x hx
      rw [← hsE]
      exact Store.find_set_isSome _ _ _ _ (unlinkAt_find_isSome _ _ _ _ hx)
    · exact hchain''
    · exact hnd.not_mem_erase
    · intro x hx _
      exact hframe'' x hx
    · exact Or.inl ⟨hmemfl, hflen''⟩

/-- Characterization of a successful `store_numbers`. -/
theorem store_numbers_ok {s : Store} {l : List Nat} {h : Nat} {s' : Store} {fl : List Nat}
    (hfl : freeChainB s s.firstFree fl 0 = true) (hnd : fl.Nodup) (hdb : DomBound s)
    (hok : s.store_numbers l = .ok (h, s')) :
    s'.find h = some (Block.nums l) ∧ (∀ x ∈ l, x < U64) ∧ h ≠ 0 ∧ s'.root = s.root ∧
    s.flen ≤ s'.flen ∧ DomBound s' ∧
    (∀ x, (s.find x).isSome → (s'.find x).isSome) ∧
    (∃ fl', freeChainB s' s'.firstFree fl' 0 = true ∧ fl'.Nodup ∧
      (∀ x ∈ fl', x ∈ fl) ∧ h ∉ fl' ∧
      (∀ x, x ∉ fl → x ≠ h → s'.find x = s.find x) ∧
      (h ∈ fl ∨ s.find h = none)) := by
  unfold Store.store_numbers at hok
  obtain ⟨⟨h1, s₁⟩, ha, hok⟩ := bind_ok hok
  dsimp only at hok
  by_cases hall : l.all (· < U64)
  · rw [if_pos hall] at hok
    simp only [Except.ok.injEq, Prod.mk.injEq] at hok
    obtain ⟨hh, hs'⟩ := hok
    have hh' : h = h1 := hh.symm
    subst hh'
    subst hs'
    obtain ⟨hfind, hroot, hflen, h0, hsz, hdb₁, hsome₁, fl₁, hchain₁, hnd₁, hsubl₁, hnot₁,
      hframe₁, hcases₁⟩ := allocate_ok_cases hfl hnd hdb ha
    have hsize_eq : (Block.nums l).size = (Block.raw (8 * l.length)).size := by
      simp [Block.size]
    refine ⟨Store.find_set_self _ _ _, ?_, h0, hroot, hflen, ?_, ?_,
      fl₁, ?_, hnd₁, hsubl₁, hnot₁, ?_, ?_⟩
    · intro x hx
      have := List.all_eq_true.mp hall x hx
      exact of_decide_eq_true this
    · intro x b hxb
      by_cases hxh : x = h
      · subst hxh
        rw [Store.find_set_self] at hxb
        injection hxb with hxb
        subst hxb
        have := hdb₁ x _ hfind
        show x + (Block.nums l).size ≤ (s₁.set x (Block.nums l)).flen
        rw [hsize_eq]
        exact this
      · rw [Store.find_set_ne _ _ _ _ hxh] at hxb
        exact hdb₁ x b hxb
    · intro x hx
      exact Store.find_set_isSome _ _ _ _ (hsome₁ x hx)
    · show freeChainB _ s₁.firstFree fl₁ 0 = true
      rw [freeChainB_frame fl₁ s₁ _ s₁.firstFree 0 ?_]
      · exact hchain₁
      · intro g hg
        refine Store.find_set_ne _ _ _ _ ?_
        intro hge
        exact hnot₁ (hge ▸ hg)
    · intro x hx hxh
      rw [Store.find_set_ne _ _ _ _ hxh]
      exact hframe₁ x hx hxh
    · rcases hcases₁ with ⟨hm, -⟩ | ⟨hm, -⟩
      · exact Or.inl hm
      · exact Or.inr hm
  · rw [if_neg hall] at hok
    cases hok

/-- Characterization of a successful `store_text`. -/
theorem store_text_ok {s : Store} {t : String} {h : Nat} {s' : Store} {fl : List Nat}
    (hfl : freeChainB s s.firstFree fl 0 = true) (hnd : fl.Nodup) (hdb : DomBound s)
    (hok : s.store_text t = .ok (h, s')) :
    s'.find h = some (Block.str t) ∧ h ≠ 0 ∧ s'.root = s.root ∧
    s.flen ≤ s'.flen ∧ DomBound s' ∧
    (∀ x, (s.find x).isSome → (s'.find x).isSome) ∧
    (∃ fl', freeChainB s' s'.firstFree fl' 0 = true ∧ fl'.Nodup ∧
      (∀ x ∈ fl', x ∈ fl) ∧ h ∉ fl' ∧
      (∀ x, x ∉ fl → x ≠ h → s'.find x = s.find x) ∧
      (h ∈ fl ∨ s.find h = none)) := by
  unfold Store.store_text at hok
  obtain ⟨⟨h1, s₁⟩, ha, hok⟩ := bind_ok hok
  dsimp only at hok
  simp only [Except.ok.injEq, Prod.mk.injEq] at hok
  obtain ⟨hh, hs'⟩ := hok
  have hh' : h = h1 := hh.symm
  subst hh'
  subst hs'
  obtain ⟨hfind, hroot, hflen, h0, hsz, hdb₁, hsome₁, fl₁, hchain₁, hnd₁, hsubl₁, hnot₁,
    hframe₁, hcases₁⟩ := allocate_ok_cases hfl hnd hdb ha
  refine ⟨Store.find_set_self _ _ _, h0, hroot, hflen, ?_, ?_,
    fl₁, ?_, hnd₁, hsubl₁, hnot₁, ?_, ?_⟩
  · intro x b hxb
    by_cases hxh : x = h
    · subst hxh
      rw [Store.find_set_self] at hxb
      injection hxb with hxb
      subst hxb
      have := hdb₁ x _ hfind
      show x + (Block.str t).size ≤ (s₁.set x (Block.str t)).flen
      simpa [Block.size] using this
    · rw [Store.find_set_ne _ _ _ _ hxh] at hxb
      exact hdb₁ x b hxb
  · intro x hx
    exact Store.find_set_isSome _ _ _ _ (hsome₁ x hx)
  · show freeChainB _ s₁.firstFree fl₁ 0 = true
    rw [freeChainB_frame fl₁ s₁ _ s₁.firstFree 0 ?_]
    · exact hchain₁
    · intro g hg
      refine Store.find_set_ne _ _ _ _ ?_
      intro hge
      exact hnot₁ (hge ▸ hg)
  · intro x hx hxh
    rw [Store.find_set_ne _ _ _ _ hxh]
    exact hframe₁ x hx hxh
  · rcases hcases₁ with ⟨hm, -⟩ | ⟨hm, -⟩
    · exact Or.inl hm
    · exact Or.inr hm

/-- Characterization of a successful `update_numbers`. -/
theorem update_numbers_ok {s : Store} {h : Nat} {l : List Nat} {s' : Store}
    (hok : s.update_numbers h l = .ok ((), s')) :
    s' = s.set h (Block.nums l) ∧ (∀ x ∈ l, x < U64) ∧
    ∃ b, s.find h = some b ∧ 8 * l.length = b.size := by
  unfold Store.update_numbers at hok
  obtain ⟨sz, hsz, hok⟩ := bind_ok hok
  unfold Store.handleSize at hsz
  cases hfind : s.find h with
  | none => rw [hfind] at hsz; cases hsz
  | some b =>
    rw [hfind] at hsz
    injection hsz with hsz
    subst hsz
    by_cases hlen : 8 * l.length = b.size
    · rw [if_pos hlen] at hok
      by_cases hall : l.all (· < U64)
      · rw [if_pos hall] at hok
        simp only [Except.ok.injEq, Prod.mk.injEq] at hok
        exact ⟨hok.2.symm, fun x hx => of_decide_eq_true (List.all_eq_true.mp hall x hx),
          b, rfl, hlen⟩
      · rw [if_neg hall] at hok
        cases hok
    · rw [if_neg hlen] at hok
      cases hok

/-- Characterization of a successful `free(h)`: `h` is pushed on the free
list, a junk text block is allocated (leaked), and nothing else changes. -/
theorem free_ok {s : Store} {h : Nat} {s' : Store} {fl : List Nat}
    (hfl : freeChainB s s.firstFree fl 0 = true) (hnd : fl.Nodup) (hdb : DomBound s)
    (hnotfl : h ∉ fl) (h0 : h ≠ 0)
    (hok : s.free h = .ok ((), s')) :
    ∃ fl', freeChainB s' s'.firstFree (h :: fl') 0 = true ∧ (h :: fl').Nodup ∧
      (∀ x ∈ fl', x ∈ fl) ∧
      DomBound s' ∧ s'.root = s.root ∧ s.flen ≤ s'.flen ∧
      (∀ x, (s.find x).isSome → (s'.find x).isSome) ∧
      (∀ x, x ∉ fl → x ≠ h → (s.find x).isSome → s'.find x = s.find x) := by
  unfold Store.free at hok
  obtain ⟨sz, hsz, hok⟩ := bind_ok hok
  unfold Store.handleSize at hsz
  cases hfind : s.find h with
  | none => rw [hfind] at hsz; cases hsz
  | some b =>
    rw [hfind] at hsz
    injection hsz with hsz
    subst hsz
    obtain ⟨⟨junk, s₁⟩, hjunk, hok⟩ := bind_ok hok
    dsimp only at hok
    obtain ⟨s₂, hptr, hok⟩ := bind_ok hok
    by_cases hU : h < U64
    · rw [if_pos hU] at hok
      simp only [Except.ok.injEq, Prod.mk.injEq] at hok
      obtain ⟨-, hs'⟩ := hok
      subst hs'
      obtain ⟨hjfind, hj0, hjroot, hjflen, hjdb, hjsome, fl₁, hjchain, hjnd, hjsub, hjnot,
        hjframe, hjcase⟩ := store_text_ok hfl hnd hdb hjunk
      have hjh : junk ≠ h := by
        rcases hjcase with hm | hm
        · intro he; exact hnotfl (he ▸ hm)
        · intro he
          rw [he, hfind] at hm
          cases hm
      have hfind₁ : s₁.find h = some b := by
        rw [hjframe h hnotfl (Ne.symm hjh)]
        exact hfind
      unfold Store.storePtr at hptr
      by_cases hffU : s₁.firstFree < U64
      · rw [if_pos hffU] at hptr
        rw [hfind₁] at hptr
        cases b with
        | nums lb =>
          cases lb with
          | nil => cases hptr
          | cons w tws =>
            injection hptr with hptr
            subst hptr
            have hh_fl₁ : h ∉ fl₁ := fun hm => hnotfl (hjsub h hm)
            have hfindh : (({ s₁.set h (Block.nums (s₁.firstFree :: tws)) with
                firstFree := h } : Store)).find h = some (Block.nums (s₁.firstFree :: tws)) :=
              Store.find_set_self s₁ h (Block.nums (s₁.firstFree :: tws))
            refine ⟨fl₁, ?_, ?_, hjsub, ?_, ?_, hjflen, ?_, ?_⟩
            · show freeChainB _ h (h :: fl₁) 0 = true
              refine freeChainB_cons_intro h0 hfindh hffU ?_
              · rw [freeChainB_frame fl₁ s₁ _ s₁.firstFree 0 ?_]
                · exact hjchain
                · intro g hg
                  exact Store.find_set_ne _ _ _ _ (fun hge => hh_fl₁ (hge ▸ hg))
            · exact List.nodup_cons.mpr ⟨hh_fl₁, hjnd⟩
            · intro x bx hxb
              by_cases hxh : x = h
              · subst hxh
                rw [show (({ s₁.set x (Block.nums (s₁.firstFree :: tws)) with firstFree := x } : Store)).find x = (s₁.set x (Block.nums (s₁.firstFree :: tws))).find x from rfl,
                  Store.find_set_self] at hxb
                injection hxb with hxb
                subst hxb
                have := hjdb x _ hfind₁
                simpa [Block.size] using this
              · rw [show (({ s₁.set h (Block.nums (s₁.firstFree :: tws)) with firstFree := h } : Store)).find x = (s₁.set h (Block.nums (s₁.firstFree :: tws))).find x from rfl,
                  Store.find_set_ne _ _ _ _ hxh] at hxb
                exact hjdb x bx hxb
            · exact hjroot
            · intro x hx
              exact Store.find_set_isSome _ _ _ _ (hjsome x hx)
            · intro x hx hxh hxs
              show (s₁.set h (Block.nums (s₁.firstFree :: tws))).find x = s.find x
              rw [Store.find_set_ne _ _ _ _ hxh]
              exact hjframe x hx (fun hxj => by
                rcases hjcase with hm | hm
                · exact hx (hxj ▸ hm)
                · rw [hxj, hm] at hxs
                  cases hxs)
        | str tb => cases hptr
        | raw nb => cases hptr
      · rw [if_neg hffU] at hptr
        cases hptr
    · rw [if_neg hU] at hok
      cases hok

/-! ## Claim C8: `search` is read-only -/

theorem load_numbers_preserves {s : Store} {h : Nat} {l : List Nat} {s' : Store}
    (hok : s.load_numbers h = .ok (l, s')) : s' = s := by
  unfold Store.load_numbers at hok
  split at hok
  · simp only [Except.ok.injEq, Prod.mk.injEq] at hok
    exact hok.2.symm
  · cases hok

theorem load_text_preserves {s : Store} {h : Nat} {t : String} {s' : Store}
    (hok : s.load_text h = .ok (t, s')) : s' = s := by
  unfold Store.load_text at hok
  split at hok
  · simp only [Except.ok.injEq, Prod.mk.injEq] at hok
    exact hok.2.symm
  · cases hok

theorem load2_preserves {s : Store} {h : Nat} {mc : Nat × Nat} {s' : Store}
    (hok : load2 s h = .ok (mc, s')) : s' = s := by
  unfold load2 at hok
  obtain ⟨⟨l, s₁⟩, h1, h2⟩ := bind_ok hok
  have hs₁ := load_numbers_preserves h1
  subst hs₁
  cases l with
  | nil => cases h2
  | cons a t =>
    cases t with
    | nil => cases h2
    | cons b t2 =>
      cases t2 with
      | nil =>
        simp only [Except.ok.injEq, Prod.mk.injEq] at h2
        exact h2.2.symm
      | cons c t3 => cases h2

theorem nodeMatches_preserves {s : Store} {h : Nat} {ms : List Nat} {s' : Store}
    (hok : nodeMatches s h = .ok (ms, s')) : s' = s := by
  unfold nodeMatches at hok
  obtain ⟨⟨⟨m, c⟩, s₁⟩, h1, h2⟩ := bind_ok hok
  have hs₁ := load2_preserves h1
  subst hs₁
  dsimp only at h2
  by_cases hm : m = 0
  · rw [if_pos hm] at h2
    simp only [Except.ok.injEq, Prod.mk.injEq] at h2
    exact h2.2.symm
  · rw [if_neg hm] at h2
    exact load_numbers_preserves h2

theorem nodeChildren_preserves {s : Store} {h : Nat} {cs : List (Nat × Nat)} {s' : Store}
    (hok : nodeChildren s h = .ok (cs, s')) : s' = s := by
  unfold nodeChildren at hok
  obtain ⟨⟨⟨m, c⟩, s₁⟩, h1, h2⟩ := bind_ok hok
  have hs₁ := load2_preserves h1
  subst hs₁
  dsimp only at h2
  by_cases hc : c = 0
  · rw [if_pos hc] at h2
    simp only [Except.ok.injEq, Prod.mk.injEq] at h2
    exact h2.2.symm
  · rw [if_neg hc] at h2
    obtain ⟨⟨l, s₂⟩, h3, h4⟩ := bind_ok h2
    have hs₂ := load_numbers_preserves h3
    subst hs₂
    simp only [Except.ok.injEq, Prod.mk.injEq] at h4
    exact h4.2.symm

theorem findChild_preserves {s : Store} {h key : Nat} {r : Option Nat} {s' : Store}
    (hok : findChild s h key = .ok (r, s')) : s' = s := by
  unfold findChild at hok
  obtain ⟨⟨cs, s₁⟩, h1, h2⟩ := bind_ok hok
  have hs₁ := nodeChildren_preserves h1
  subst hs₁
  simp only [Except.ok.injEq, Prod.mk.injEq] at h2
  exact h2.2.symm

theorem loadInstance_preserves {s : Store} {h : Nat} {i : Inst} {s' : Store}
    (hok : loadInstance s h = .ok (i, s')) : s' = s := by
  unfold loadInstance at hok
  obtain ⟨⟨l, s₁⟩, h1, h2⟩ := bind_ok hok
  have hs₁ := load_numbers_preserves h1
  subst hs₁
  cases l with
  | nil => cases h2
  | cons d t1 =>
  cases t1 with
  | nil => cases h2
  | cons o t2 =>
  cases t2 with
  | nil => cases h2
  | cons r t3 =>
  cases t3 with
  | nil => cases h2
  | cons n t4 =>
  cases t4 with
  | cons x t5 => cases h2
  | nil =>
    dsimp only at h2
    obtain ⟨⟨raw, s₂⟩, h3, h4⟩ := bind_ok h2
    have hs₂ := load_text_preserves h3
    subst hs₂
    simp only [Except.ok.injEq, Prod.mk.injEq] at h4
    exact h4.2.symm

theorem loadInstances_preserves {hs : List Nat} :
    ∀ {s : Store} {is : List Inst} {s' : Store},
      loadInstances s hs = .ok (is, s') → s' = s := by
  induction hs with
  | nil =>
    intro s is s' hok
    unfold loadInstances at hok
    simp only [Except.ok.injEq, Prod.mk.injEq] at hok
    exact hok.2.symm
  | cons h t ih =>
    intro s is s' hok
    unfold loadInstances at hok
    obtain ⟨⟨i, s₁⟩, h1, h2⟩ := bind_ok hok
    have hs₁ := loadInstance_preserves h1
    subst hs₁
    dsimp only at h2
    obtain ⟨⟨is2, s₂⟩, h3, h4⟩ := bind_ok h2
    have hs₂ := ih h3
    subst hs₂
    simp only [Except.ok.injEq, Prod.mk.injEq] at h4
    exact h4.2.symm

theorem nodeSearch_preserves {term : List Char} :
    ∀ {s : Store} {h : Nat} {is : List Inst} {s' : Store},
      nodeSearch s h term = .ok (is, s') → s' = s := by
  induction term with
  | nil =>
    intro s h is s' hok
    unfold nodeSearch at hok
    obtain ⟨⟨ms, s₁⟩, h1, h2⟩ := bind_ok hok
    have hs₁ := nodeMatches_preserves h1
    subst hs₁
    exact loadInstances_preserves h2
  | cons c rest ih =>
    intro s h is s' hok
    unfold nodeSearch at hok
    obtain ⟨⟨r, s₁⟩, h1, h2⟩ := bind_ok hok
    have hs₁ := findChild_preserves h1
    subst hs₁
    cases r with
    | some child => exact ih h2
    | none =>
      simp only [Except.ok.injEq, Prod.mk.injEq] at h2
      exact h2.2.symm

theorem instNext_preserves {s : Store} {i : Inst} {r : Option Inst} {s' : Store}
    (hok : instNext s i = .ok (r, s')) : s' = s := by
  unfold instNext at hok
  by_cases hn : i.nextH ≠ 0
  · rw [if_pos hn] at hok
    obtain ⟨⟨j, s₁⟩, h1, h2⟩ := bind_ok hok
    have hs₁ := loadInstance_preserves h1
    subst hs₁
    simp only [Except.ok.injEq, Prod.mk.injEq] at h2
    exact h2.2.symm
  · rw [if_neg hn] at hok
    simp only [Except.ok.injEq, Prod.mk.injEq] at hok
    exact hok.2.symm

theorem matchesPhraseLoop_preserves {exact : Bool} {phrase : List Tok} :
    ∀ {s : Store} {cur : Option Inst} {b : Bool} {s' : Store},
      matchesPhraseLoop exact s cur phrase = .ok (b, s') → s' = s := by
  induction phrase with
  | nil =>
    intro s cur b s' hok
    unfold matchesPhraseLoop at hok
    simp only [Except.ok.injEq, Prod.mk.injEq] at hok
    exact hok.2.symm
  | cons t rest ih =>
    intro s cur b s' hok
    unfold matchesPhraseLoop at hok
    cases cur with
    | none =>
      simp only [Except.ok.injEq, Prod.mk.injEq] at hok
      exact hok.2.symm
    | some inst =>
      dsimp only at hok
      split at hok
      · split at hok
        · simp only [Except.ok.injEq, Prod.mk.injEq] at hok
          exact hok.2.symm
        · obtain ⟨⟨nx, s₁⟩, h1, h2⟩ := bind_ok hok
          have hs₁ := instNext_preserves h1
          subst hs₁
          exact ih h2
      · split at hok
        · simp only [Except.ok.injEq, Prod.mk.injEq] at hok
          exact hok.2.symm
        · obtain ⟨⟨nx, s₁⟩, h1, h2⟩ := bind_ok hok
          have hs₁ := instNext_preserves h1
          subst hs₁
          exact ih h2

theorem matches_phrase_preserves {s : Store} {i : Inst} {phrase : List Tok} {exact : Bool}
    {b : Bool} {s' : Store} (hok : matches_phrase s i phrase exact = .ok (b, s')) : s' = s := by
  unfold matches_phrase at hok
  obtain ⟨⟨cur, s₁⟩, h1, h2⟩ := bind_ok hok
  have hs₁ := instNext_preserves h1
  subst hs₁
  exact matchesPhraseLoop_preserves h2

theorem filterPhrase_preserves {phrase : List Tok} {exact : Bool} {is : List Inst} :
    ∀ {s : Store} {r : List Inst} {s' : Store},
      filterPhrase phrase exact s is = .ok (r, s') → s' = s := by
  induction is with
  | nil =>
    intro s r s' hok
    unfold filterPhrase at hok
    simp only [Except.ok.injEq, Prod.mk.injEq] at hok
    exact hok.2.symm
  | cons i t ih =>
    intro s r s' hok
    unfold filterPhrase at hok
    obtain ⟨⟨b, s₁⟩, h1, h2⟩ := bind_ok hok
    have hs₁ := matches_phrase_preserves h1
    subst hs₁
    obtain ⟨⟨r2, s₂⟩, h3, h4⟩ := bind_ok h2
    have hs₂ := ih h3
    subst hs₂
    simp only [Except.ok.injEq, Prod.mk.injEq] at h4
    exact h4.2.symm

/-- C8: `search` is read-only — whatever it returns, the store (header slots
and every block) is byte-for-byte the one it was given. -/
theorem c8_search_readonly (s : Store) (rootH : Nat) (phrase : String) (exact : Bool)
    (res : List Inst) (s' : Store)
    (hok : search s rootH phrase exact = .ok (res, s')) : s' = s := by
  unfold search at hok
  cases htk : tokenize phrase with
  | nil => rw [htk] at hok; cases hok
  | cons t0 rest =>
    rw [htk] at hok
    dsimp only at hok
    obtain ⟨⟨is, s₁⟩, h1, h2⟩ := bind_ok hok
    have hs₁ := nodeSearch_preserves h1
    subst hs₁
    exact filterPhrase_preserves h2

theorem c8_search_readonly_witness :
    search oneNodeStore 136 "tripe" false = .ok ([], oneNodeStore) ∧
    (∀ s', search oneNodeStore 136 "tripe" false = .ok ([], s') → s' = oneNodeStore) :=
  ⟨by decide, fun s' h => c8_search_readonly oneNodeStore 136 "tripe" false [] s' h⟩

/-! ## Claim C6: searching a prefix of a phrase yields a superset -/

/-- If the chain walk succeeds on `l₁ ++ l₂`, it succeeds on `l₁`, and a full
match of the longer phrase implies a full match of the prefix. -/
theorem matchesPhraseLoop_append {exact : Bool} {l₂ : List Tok} :
    ∀ (l₁ : List Tok) {s : Store} {cur : Option Inst} {b : Bool} {s' : Store},
      matchesPhraseLoop exact s cur (l₁ ++ l₂) = .ok (b, s') →
      ∃ b₁, matchesPhraseLoop exact s cur l₁ = .ok (b₁, s) ∧ (b = true → b₁ = true) := by
  intro l₁
  induction l₁ with
  | nil =>
    intro s cur b s' _
    exact ⟨true, rfl, fun _ => rfl⟩
  | cons t rest ih =>
    intro s cur b s' hok
    rw [List.cons_append] at hok
    unfold matchesPhraseLoop at hok ⊢
    cases cur with
    | none =>
      simp only [Except.ok.injEq, Prod.mk.injEq] at hok
      exact ⟨false, rfl, fun hb => absurd (hok.1.trans hb) (by simp)⟩
    | some inst =>
      dsimp only at hok ⊢
      split at hok
      · rename_i hex
        rw [if_pos hex]
        split at hok
        · simp only [Except.ok.injEq, Prod.mk.injEq] at hok
          rename_i hraw
          rw [if_pos hraw]
          exact ⟨false, rfl, fun hb => absurd (hok.1.trans hb) (by simp)⟩
        · rename_i hraw
          rw [if_neg hraw]
          obtain ⟨⟨nx, s₁⟩, h1, h2⟩ := bind_ok hok
          have hs₁ := instNext_preserves h1
          subst hs₁
          obtain ⟨b₁, hb₁, himp⟩ := ih h2
          rw [h1, ok_bind]
          exact ⟨b₁, hb₁, himp⟩
      · rename_i hex
        rw [if_neg hex]
        split at hok
        · simp only [Except.ok.injEq, Prod.mk.injEq] at hok
          rename_i hst
          rw [if_pos hst]
          exact ⟨false, rfl, fun hb => absurd (hok.1.trans hb) (by simp)⟩
        · rename_i hst
          rw [if_neg hst]
          obtain ⟨⟨nx, s₁⟩, h1, h2⟩ := bind_ok hok
          have hs₁ := instNext_preserves h1
          subst hs₁
          obtain ⟨b₁, hb₁, himp⟩ := ih h2
          rw [h1, ok_bind]
          exact ⟨b₁, hb₁, himp⟩

theorem matches_phrase_append {exact : Bool} {l₁ l₂ : List Tok} {s : Store} {i : Inst}
    {b : Bool} {s' : Store} (hok : matches_phrase s i (l₁ ++ l₂) exact = .ok (b, s')) :
    ∃ b₁, matches_phrase s i l₁ exact = .ok (b₁, s) ∧ (b = true → b₁ = true) := by
  unfold matches_phrase at hok ⊢
  obtain ⟨⟨cur, s₁⟩, h1, h2⟩ := bind_ok hok
  have hs₁ := instNext_preserves h1
  subst hs₁
  obtain ⟨b₁, hb₁, himp⟩ := matchesPhraseLoop_append l₁ h2
  rw [h1, ok_bind]
  exact ⟨b₁, hb₁, himp⟩

/-- Filtering by the longer phrase keeps a sub-collection of what filtering by
its prefix keeps. -/
theorem filterPhrase_append {exact : Bool} {l₁ l₂ : List Tok} :
    ∀ (is : List Inst) {s : Store} {rq : List Inst} {s' : Store},
      filterPhrase (l₁ ++ l₂) exact s is = .ok (rq, s') →
      ∃ rp, filterPhrase l₁ exact s is = .ok (rp, s) ∧ ∀ i ∈ rq, i ∈ rp := by
  intro is
  induction is with
  | nil =>
    intro s rq s' hok
    unfold filterPhrase at hok ⊢
    simp only [Except.ok.injEq, Prod.mk.injEq] at hok
    exact ⟨[], rfl, fun i hi => by rw [← hok.1] at hi; cases hi⟩
  | cons i t ih =>
    intro s rq s' hok
    unfold filterPhrase at hok ⊢
    obtain ⟨⟨bq, s₁⟩, h1, h2⟩ := bind_ok hok
    have hs₁ := matches_phrase_preserves h1
    subst hs₁
    obtain ⟨⟨rq', s₂⟩, h3, h4⟩ := bind_ok h2
    have hs₂ := filterPhrase_preserves h3
    subst hs₂
    simp only [Except.ok.injEq, Prod.mk.injEq] at h4
    obtain ⟨bp, hbp, himp⟩ := matches_phrase_append h1
    obtain ⟨rp', hrp', hsub⟩ := ih h3
    rw [hbp, ok_bind]
    dsimp only
    rw [hrp', ok_bind]
    dsimp only
    refine ⟨if bp then i :: rp' else rp', rfl, ?_⟩
    intro j hj
    rw [← h4.1] at hj
    by_cases hbq : bq = true
    · rw [hbq] at hj
      simp only [if_true] at hj
      rw [himp hbq]
      simp only [if_true]
      rcases List.mem_cons.mp hj with hj1 | hj2
      · exact hj1 ▸ List.mem_cons_self j rp'
      · exact List.mem_cons_of_mem i (hsub j hj2)
    · have hbq' : bq = false := by
        cases bq
        · rfl
        · exact absurd rfl hbq
      rw [hbq'] at hj
      simp only [Bool.false_eq_true, if_false] at hj
      by_cases hbp2 : bp = true
      · rw [hbp2]
        simp only [if_true]
        exact List.mem_cons_of_mem i (hsub j hj)
      · have hbp' : bp = false := by
          cases bp
          · rfl
          · exact absurd rfl hbp2
        rw [hbp']
        simp only [Bool.false_eq_true, if_false]
        exact hsub j hj

/-- C6: if the tokenization of `p` is a (proper) nonempty prefix of that of
`q`, then whenever `search(q, exact)` succeeds, `search(p, exact)` succeeds on
the same store, and every instance (hence every `(doc, offset)` pair) returned
for `q` is also returned for `p`. -/
theorem c6_search_prefix_superset (s : Store) (rootH : Nat) (p q : String) (exact : Bool)
    (ext : List Tok) (hne : tokenize p ≠ []) (_hext : ext ≠ [])
    (hpre : tokenize q = tokenize p ++ ext)
    (rq : List Inst) (s' : Store)
    (hq : search s rootH q exact = .ok (rq, s')) :
    ∃ rp, search s rootH p exact = .ok (rp, s) ∧ (∀ i ∈ rq, i ∈ rp) ∧
      ∀ d o, (∃ i ∈ rq, i.doc = d ∧ i.offset = o) → ∃ i ∈ rp, i.doc = d ∧ i.offset = o := by
  cases htp : tokenize p with
  | nil => exact absurd htp hne
  | cons t0 restp =>
    have htq : tokenize q = t0 :: (restp ++ ext) := by
      rw [hpre, htp, List.cons_append]
    unfold search at hq ⊢
    rw [htq] at hq
    rw [htp]
    dsimp only at hq ⊢
    obtain ⟨⟨is, s₁⟩, h1, h2⟩ := bind_ok hq
    have hs₁ := nodeSearch_preserves h1
    subst hs₁
    rw [h1, ok_bind]
    obtain ⟨rp, hrp, hsub⟩ := @filterPhrase_append exact restp ext
      (if exact = true then filterExact t0.raw is else is) _ _ _ h2
    refine ⟨rp, ?_, fun i hi => hsub i hi, ?_⟩
    · cases exact with
      | true => simpa using hrp
      | false => simpa using hrp
    · intro d o ⟨i, hi, hd, ho⟩
      exact ⟨i, hsub i hi, hd, ho⟩

/-! ## Structural lemmas for the trie abstraction -/

theorem pairUp_flattenPairs : ∀ (l : List (Nat × Nat)), pairUp (flattenPairs l) = l := by
  intro l
  induction l with
  | nil => rfl
  | cons p t ih =>
    obtain ⟨k, v⟩ := p
    simp only [flattenPairs, pairUp, ih]

theorem findFirst_map_nodeH (key : Nat) :
    ∀ (cs : List (Nat × TAbs)),
      findFirst (cs.map fun p => (p.1, p.2.nodeH)) key = (lookupChildA cs key).map TAbs.nodeH := by
  intro cs
  induction cs with
  | nil => rfl
  | cons p t ih =>
    obtain ⟨k, c⟩ := p
    simp only [List.map_cons, findFirst, lookupChildA]
    by_cases hk : k = key
    · rw [if_pos hk, if_pos hk]
      rfl
    · rw [if_neg hk, if_neg hk, ih]

theorem findFirst_none_keys (key : Nat) :
    ∀ (l : List (Nat × Nat)), findFirst l key = none → ∀ p ∈ l, p.1 ≠ key := by
  intro l
  induction l with
  | nil => intro _ p hp; cases hp
  | cons q t ih =>
    obtain ⟨k, v⟩ := q
    intro hf p hp
    unfold findFirst at hf
    by_cases hk : k = key
    · rw [if_pos hk] at hf; cases hf
    · rw [if_neg hk] at hf
      rcases List.mem_cons.mp hp with h1 | h2
      · subst h1; exact hk
      · exact ih hf p h2

theorem lookupChildA_mem (key : Nat) :
    ∀ (cs : List (Nat × TAbs)) (c : TAbs), lookupChildA cs key = some c → (key, c) ∈ cs := by
  intro cs
  induction cs with
  | nil => intro c h; cases h
  | cons p t ih =>
    obtain ⟨k, c0⟩ := p
    intro c h
    unfold lookupChildA at h
    by_cases hk : k = key
    · rw [if_pos hk] at h
      injection h with h
      subst h; subst hk
      exact List.mem_cons_self _ _
    · rw [if_neg hk] at h
      exact List.mem_cons_of_mem _ (ih c h)

theorem ChildrenRep_mem {s : Store} :
    ∀ {cs : List (Nat × TAbs)}, ChildrenRep s cs → ∀ p ∈ cs, NodeRep s p.2 := by
  intro cs
  induction cs with
  | nil => intro _ p hp; cases hp
  | cons q t ih =>
    obtain ⟨k, c⟩ := q
    intro hrep p hp
    rw [ChildrenRep] at hrep
    rcases List.mem_cons.mp hp with h1 | h2
    · subst h1; exact hrep.1
    · exact ih hrep.2 p h2

theorem foot_node (n mH cH : Nat) (ms : List Nat) (cs : List (Nat × TAbs)) :
    foot (.node n mH cH ms cs) =
      n :: ((if mH = 0 then [] else [mH]) ++ (if cH = 0 then [] else [cH]) ++ footChildren cs) := by
  rw [foot]

theorem foot_sublist_footChildren :
    ∀ (cs : List (Nat × TAbs)) (k : Nat) (c : TAbs), (k, c) ∈ cs →
      (foot c).Sublist (footChildren cs) := by
  intro cs
  induction cs with
  | nil => intro k c h; cases h
  | cons q t ih =>
    obtain ⟨k0, c0⟩ := q
    intro k c h
    rw [footChildren]
    rcases List.mem_cons.mp h with h1 | h2
    · injection h1 with h1a h1b
      subst h1b
      exact List.sublist_append_left _ _
    · exact (ih k c h2).trans (List.sublist_append_right _ _)

theorem foot_child_sublist {n mH cH : Nat} {ms : List Nat} {cs : List (Nat × TAbs)}
    {k : Nat} {c : TAbs} (h : (k, c) ∈ cs) :
    (foot c).Sublist (foot (.node n mH cH ms cs)) := by
  rw [foot_node]
  exact ((foot_sublist_footChildren cs k c h).trans (List.sublist_append_right _ _)).cons _

theorem nodeH_mem_foot (t : TAbs) : t.nodeH ∈ foot t := by
  cases t with
  | node n mH cH ms cs =>
    rw [foot_node]
    exact List.mem_cons_self _ _

theorem mH_mem_foot {n mH cH : Nat} {ms : List Nat} {cs : List (Nat × TAbs)} (h : mH ≠ 0) :
    mH ∈ foot (.node n mH cH ms cs) := by
  rw [foot_node]
  simp [h]

theorem cH_mem_foot {n mH cH : Nat} {ms : List Nat} {cs : List (Nat × TAbs)} (h : cH ≠ 0) :
    cH ∈ foot (.node n mH cH ms cs) := by
  rw [foot_node]
  by_cases hm : mH = 0 <;> simp [h, hm]

theorem footChildren_mem_foot {n mH cH : Nat} {ms : List Nat} {cs : List (Nat × TAbs)}
    {x : Nat} (h : x ∈ footChildren cs) : x ∈ foot (.node n mH cH ms cs) := by
  rw [foot_node]
  refine List.mem_cons_of_mem _ ?_
  exact List.mem_append_right _ h

/-! ## Frame lemmas -/

mutual
theorem NodeRep_frame : ∀ (t : TAbs) (s s' : Store),
    (∀ x ∈ foot t, s'.find x = s.find x) → NodeRep s t → NodeRep s' t
  | .node n mH cH ms cs, s, s', hagree, hrep => by
    rw [NodeRep] at hrep ⊢
    obtain ⟨h1, h2, h3, h4, h5⟩ := hrep
    refine ⟨?_, ?_, ?_, h4, ChildrenRep_frame cs s s'
      (fun x hx => hagree x (footChildren_mem_foot hx)) h5⟩
    · rw [hagree n (nodeH_mem_foot _), h1]
    · by_cases hm : mH = 0
      · rw [if_pos hm] at h2 ⊢
        exact h2
      · rw [if_neg hm] at h2 ⊢
        rw [hagree mH (mH_mem_foot hm), h2]
    · by_cases hc : cH = 0
      · rw [if_pos hc] at h3 ⊢
        exact h3
      · rw [if_neg hc] at h3 ⊢
        rw [hagree cH (cH_mem_foot hc), h3]

theorem ChildrenRep_frame : ∀ (cs : List (Nat × TAbs)) (s s' : Store),
    (∀ x ∈ footChildren cs, s'.find x = s.find x) → ChildrenRep s cs → ChildrenRep s' cs
  | [], _, _, _, _ => by rw [ChildrenRep]; trivial
  | (k, c) :: t, s, s', hagree, hrep => by
    rw [ChildrenRep] at hrep ⊢
    refine ⟨NodeRep_frame c s s' (fun x hx => hagree x ?_) hrep.1,
      ChildrenRep_frame t s s' (fun x hx => hagree x ?_) hrep.2⟩
    · rw [footChildren]
      exact List.mem_append_left _ hx
    · rw [footChildren]
      exact List.mem_append_right _ hx
end

theorem ChainRep_frame {live : List Nat} {d : Nat} {s s' : Store}
    (hagree : ∀ x b, x ∈ live → s.find x = some b → s'.find x = some b) :
    ∀ (toks : List Tok) (h : Nat), ChainRep s live d h toks → ChainRep s' live d h toks := by
  intro toks
  induction toks with
  | nil => intro h _; rw [ChainRep]; trivial
  | cons t rest ih =>
    intro h hc
    rw [ChainRep] at hc ⊢
    obtain ⟨hmem, rawH, nextH, hfind, hrmem, hrfind, htail⟩ := hc
    refine ⟨hmem, rawH, nextH, hagree h _ hmem hfind, hrmem, hagree rawH _ hrmem hrfind, ?_⟩
    cases rest with
    | nil => exact htail
    | cons t2 r2 => exact ⟨htail.1, ih nextH htail.2⟩

theorem ChainRep_mono {live live' : List Nat} {d : Nat} {s : Store}
    (hsub : ∀ x ∈ live, x ∈ live') :
    ∀ (toks : List Tok) (h : Nat), ChainRep s live d h toks → ChainRep s live' d h toks := by
  intro toks
  induction toks with
  | nil => intro h _; rw [ChainRep]; trivial
  | cons t rest ih =>
    intro h hc
    rw [ChainRep] at hc ⊢
    obtain ⟨hmem, rawH, nextH, hfind, hrmem, hrfind, htail⟩ := hc
    refine ⟨hsub h hmem, rawH, nextH, hfind, hsub rawH hrmem, hrfind, ?_⟩
    cases rest with
    | nil => exact htail
    | cons t2 r2 => exact ⟨htail.1, ih nextH htail.2⟩

/-! ## Tokenizer facts -/

theorem tokenizeAux_stemmed :
    ∀ (fuel off : Nat) (cs : List Char) (tok : Tok),
      tok ∈ tokenizeAux fuel off cs → tok.stemmed = stem tok.raw := by
  intro fuel
  induction fuel with
  | zero => intro off cs tok h; cases cs <;> cases h
  | succ n ih =>
    intro off cs tok h
    cases cs with
    | nil => cases h
    | cons c cs' =>
      unfold tokenizeAux at h
      by_cases hsp : pySpace c
      · rw [if_pos hsp] at h
        exact ih _ _ _ h
      · rw [if_neg hsp] at h
        rcases List.mem_cons.mp h with h1 | h2
        · subst h1; rfl
        · exact ih _ _ _ h2

theorem tokenize_stemmed {text : String} {tok : Tok} (h : tok ∈ tokenize text) :
    tok.stemmed = stem tok.raw := tokenizeAux_stemmed _ _ _ _ h

theorem tokenizeAux_off_lb :
    ∀ (fuel off : Nat) (cs : List Char) (tok : Tok),
      tok ∈ tokenizeAux fuel off cs → off ≤ tok.off := by
  intro fuel
  induction fuel with
  | zero => intro off cs tok h; cases cs <;> cases h
  | succ n ih =>
    intro off cs tok h
    cases cs with
    | nil => cases h
    | cons c cs' =>
      unfold tokenizeAux at h
      by_cases hsp : pySpace c
      · rw [if_pos hsp] at h
        exact (Nat.le_succ off).trans (ih _ _ _ h)
      · rw [if_neg hsp] at h
        rcases List.mem_cons.mp h with h1 | h2
        · subst h1; exact Nat.le_refl _
        · exact le_trans (Nat.le_add_right _ _) (ih _ _ _ h2)

theorem tokenizeAux_pairwise :
    ∀ (fuel off : Nat) (cs : List Char),
      (tokenizeAux fuel off cs).Pairwise (fun a b : Tok => a.off < b.off) := by
  intro fuel
  induction fuel with
  | zero => intro off cs; cases cs <;> exact List.Pairwise.nil
  | succ n ih =>
    intro off cs
    cases cs with
    | nil => exact List.Pairwise.nil
    | cons c cs' =>
      unfold tokenizeAux
      by_cases hsp : pySpace c
      · rw [if_pos hsp]
        exact ih _ _
      · rw [if_neg hsp]
        refine List.Pairwise.cons ?_ (ih _ _)
        intro tok htok
        have hlb := tokenizeAux_off_lb n (off + (c :: cs'.takeWhile (fun d => !pySpace d)).length)
          (cs'.dropWhile (fun d => !pySpace d)) tok htok
        have hpos : 0 < (c :: cs'.takeWhile (fun d => !pySpace d)).length := Nat.succ_pos _
        show off < tok.off
        omega

theorem tokenize_pairwise (text : String) :
    (tokenize text).Pairwise (fun a b : Tok => a.off < b.off) := tokenizeAux_pairwise _ _ _

/-! ## List helpers -/

theorem drop_getD_cons :
    ∀ (l : List Tok) (i : Nat), i < l.length → l.drop i = l.getD i default :: l.drop (i + 1) := by
  intro l
  induction l with
  | nil => intro i h; cases h
  | cons x t ih =>
    intro i h
    cases i with
    | zero => rfl
    | succ k =>
      have hk : k < t.length := Nat.lt_of_succ_lt_succ h
      simpa [List.drop, List.getD] using ih k hk

theorem take_succ_reverse :
    ∀ (l : List Tok) (k : Nat), k < l.length →
      (l.take (k + 1)).reverse = l.getD k default :: (l.take k).reverse := by
  intro l k hk
  have h1 : l.take (k + 1) = l.take k ++ [l.getD k default] := by
    induction l generalizing k with
    | nil => cases hk
    | cons x t ih =>
      cases k with
      | zero => rfl
      | succ m =>
        have hm : m < t.length := Nat.lt_of_succ_lt_succ hk
        show x :: t.take (m + 1) = (x :: t.take m) ++ [(x :: t).getD (m + 1) default]
        rw [ih m hm]
        rfl
  rw [h1, List.reverse_append]
  rfl

theorem getD_mem {l : List Tok} {i : Nat} (h : i < l.length) : l.getD i default ∈ l := by
  induction l generalizing i with
  | nil => cases h
  | cons x t ih =>
    cases i with
    | zero => exact List.mem_cons_self _ _
    | succ k => exact List.mem_cons_of_mem _ (ih (Nat.lt_of_succ_lt_succ h))

theorem string_toList_inj {a b : String} (h : a.toList = b.toList) : a = b := by
  cases a
  cases b
  exact congrArg String.mk (by simpa [String.toList] using h)

theorem c6_search_prefix_superset_witness :
    tokenize "tripe" ≠ [] ∧ ([⟨6, "index", "index"⟩] : List Tok) ≠ [] ∧
    tokenize "tripe index" = tokenize "tripe" ++ [⟨6, "index", "index"⟩] ∧
    search oneNodeStore 136 "tripe index" false = .ok ([], oneNodeStore) ∧
    (∃ rp, search oneNodeStore 136 "tripe" false = .ok (rp, oneNodeStore) ∧
      (∀ i ∈ ([] : List Inst), i ∈ rp) ∧
      ∀ d o, (∃ i ∈ ([] : List Inst), i.doc = d ∧ i.offset = o) →
        ∃ i ∈ rp, i.doc = d ∧ i.offset = o) :=
  ⟨by decide, by decide, by decide, by decide,
   c6_search_prefix_superset oneNodeStore 136 "tripe" "tripe index" false
     [⟨6, "index", "index"⟩] (by decide) (by decide) (by decide) [] oneNodeStore (by decide)⟩

/-! ## Reading a represented node -/

mutual
theorem NodeRep_find_foot : ∀ (t : TAbs) (s : Store),
    NodeRep s t → ∀ x ∈ foot t, (s.find x).isSome
  | .node n mH cH ms cs, s, hrep, x, hx => by
    rw [NodeRep] at hrep
    obtain ⟨h1, h2, h3, h4, h5⟩ := hrep
    rw [foot_node] at hx
    rcases List.mem_cons.mp hx with hxn | hx2
    · subst hxn; rw [h1]; rfl
    · rcases List.mem_append.mp hx2 with hx3 | hx4
      · rcases List.mem_append.mp hx3 with hx5 | hx6
        · by_cases hm : mH = 0
          · rw [if_pos hm] at hx5; cases hx5
          · rw [if_neg hm] at hx5
            have hxm := List.mem_singleton.mp hx5
            subst hxm
            rw [if_neg hm] at h2
            rw [h2]; rfl
        · by_cases hc : cH = 0
          · rw [if_pos hc] at hx6; cases hx6
          · rw [if_neg hc] at hx6
            have hxc := List.mem_singleton.mp hx6
            subst hxc
            rw [if_neg hc] at h3
            rw [h3]; rfl
      · exact ChildrenRep_find_foot cs s h5 x hx4

theorem ChildrenRep_find_foot : ∀ (cs : List (Nat × TAbs)) (s : Store),
    ChildrenRep s cs → ∀ x ∈ footChildren cs, (s.find x).isSome
  | [], _, _, _, hx => by cases hx
  | (k, c) :: t, s, hrep, x, hx => by
    rw [ChildrenRep] at hrep
    rw [footChildren] at hx
    rcases List.mem_append.mp hx with h1 | h2
    · exact NodeRep_find_foot c s hrep.1 x h1
    · exact ChildrenRep_find_foot t s hrep.2 x h2
end

theorem nodeMatches_abs {s : Store} {n mH cH : Nat} {ms : List Nat} {cs : List (Nat × TAbs)}
    (hrep : NodeRep s (.node n mH cH ms cs)) :
    nodeMatches s n = .ok (ms, s) := by
  rw [NodeRep] at hrep
  obtain ⟨h1, h2, h3, h4, h5⟩ := hrep
  have hln : s.load_numbers n = .ok ([mH, cH], s) := by
    unfold Store.load_numbers
    rw [h1]
  have hl2 : load2 s n = .ok ((mH, cH), s) := by
    unfold load2
    rw [hln, ok_bind]
  unfold nodeMatches
  rw [hl2, ok_bind]
  dsimp only
  by_cases hm : mH = 0
  · rw [if_pos hm]
    rw [if_pos hm] at h2
    rw [h2]
  · rw [if_neg hm]
    rw [if_neg hm] at h2
    unfold Store.load_numbers
    rw [h2]

theorem nodeChildren_abs {s : Store} {n mH cH : Nat} {ms : List Nat} {cs : List (Nat × TAbs)}
    (hrep : NodeRep s (.node n mH cH ms cs)) :
    nodeChildren s n = .ok (cs.map fun p => (p.1, p.2.nodeH), s) := by
  rw [NodeRep] at hrep
  obtain ⟨h1, h2, h3, h4, h5⟩ := hrep
  have hln : s.load_numbers n = .ok ([mH, cH], s) := by
    unfold Store.load_numbers
    rw [h1]
  have hl2 : load2 s n = .ok ((mH, cH), s) := by
    unfold load2
    rw [hln, ok_bind]
  unfold nodeChildren
  rw [hl2, ok_bind]
  dsimp only
  by_cases hc : cH = 0
  · rw [if_pos hc]
    rw [if_pos hc] at h3
    rw [h3]
    rfl
  · rw [if_neg hc]
    rw [if_neg hc] at h3
    have hln2 : s.load_numbers cH =
        .ok (flattenPairs (cs.map fun p => (p.1, p.2.nodeH)), s) := by
      unfold Store.load_numbers
      rw [h3]
    rw [hln2, ok_bind]
    dsimp only
    rw [pairUp_flattenPairs]

theorem findChild_abs {s : Store} {n mH cH : Nat} {ms : List Nat} {cs : List (Nat × TAbs)}
    {key : Nat} (hrep : NodeRep s (.node n mH cH ms cs)) :
    findChild s n key = .ok ((lookupChildA cs key).map TAbs.nodeH, s) := by
  unfold findChild
  rw [nodeChildren_abs hrep, ok_bind]
  dsimp only
  rw [findFirst_map_nodeH]

theorem loadInstances_mem : ∀ {hs : List Nat} {s : Store} {is : List Inst} {s' : Store},
    loadInstances s hs = .ok (is, s') →
    s' = s ∧ ∀ i ∈ is, ∃ h ∈ hs, loadInstance s h = .ok (i, s) := by
  intro hs
  induction hs with
  | nil =>
    intro s is s' hok
    unfold loadInstances at hok
    simp only [Except.ok.injEq, Prod.mk.injEq] at hok
    refine ⟨hok.2.symm, ?_⟩
    rw [← hok.1]
    intro i hi
    cases hi
  | cons h t ih =>
    intro s is s' hok
    unfold loadInstances at hok
    obtain ⟨⟨i, s₁⟩, h1, h2⟩ := bind_ok hok
    have hs₁ := loadInstance_preserves h1
    subst hs₁
    dsimp only at h2
    obtain ⟨⟨is2, s₂⟩, h3, h4⟩ := bind_ok h2
    obtain ⟨hs₂, hmem⟩ := ih h3
    subst hs₂
    simp only [Except.ok.injEq, Prod.mk.injEq] at h4
    refine ⟨h4.2.symm, ?_⟩
    rw [← h4.1]
    intro j hj
    rcases List.mem_cons.mp hj with hj1 | hj2
    · subst hj1
      exact ⟨h, List.mem_cons_self _ _, h1⟩
    · obtain ⟨v, hv, hload⟩ := hmem j hj2
      exact ⟨v, List.mem_cons_of_mem _ hv, hload⟩

theorem nodeSearch_abs : ∀ (σ : List Char) (t : TAbs) {s : Store} {is : List Inst} {s' : Store},
    NodeRep s t → nodeSearch s t.nodeH σ = .ok (is, s') →
    s' = s ∧ ∀ i ∈ is, ∃ v ∈ absSearch t σ, loadInstance s v = .ok (i, s) := by
  intro σ
  induction σ with
  | nil =>
    intro t s is s' hrep hok
    cases t with
    | node n mH cH ms cs =>
      dsimp only [TAbs.nodeH] at hok
      unfold nodeSearch at hok
      obtain ⟨⟨ms', s₁⟩, h1, h2⟩ := bind_ok hok
      rw [nodeMatches_abs hrep] at h1
      simp only [Except.ok.injEq, Prod.mk.injEq] at h1
      obtain ⟨hms, hs₁⟩ := h1
      subst hms
      have hs₁' : s₁ = s := hs₁.symm
      subst hs₁'
      obtain ⟨hs', hmem⟩ := loadInstances_mem h2
      exact ⟨hs', fun i hi => hmem i hi⟩
  | cons c rest ih =>
    intro t s is s' hrep hok
    cases t with
    | node n mH cH ms cs =>
      dsimp only [TAbs.nodeH] at hok
      unfold nodeSearch at hok
      obtain ⟨⟨och, s₁⟩, h1, h2⟩ := bind_ok hok
      rw [findChild_abs hrep] at h1
      simp only [Except.ok.injEq, Prod.mk.injEq] at h1
      obtain ⟨hoch, hs₁⟩ := h1
      subst hs₁
      cases hch : lookupChildA cs c.toNat with
      | none =>
        rw [hch] at hoch
        rw [← hoch] at h2
        dsimp only [Option.map] at h2
        simp only [Except.ok.injEq, Prod.mk.injEq] at h2
        refine ⟨h2.2.symm, ?_⟩
        rw [← h2.1]
        intro i hi
        cases hi
      | some child =>
        rw [hch] at hoch
        rw [← hoch] at h2
        dsimp only [Option.map] at h2
        have hrepc : NodeRep s child := by
          rw [NodeRep] at hrep
          exact ChildrenRep_mem hrep.2.2.2.2 (c.toNat, child) (lookupChildA_mem _ _ _ hch)
        obtain ⟨hs', hmem⟩ := ih child hrepc h2
        refine ⟨hs', ?_⟩
        intro i hi
        obtain ⟨v, hv, hload⟩ := hmem i hi
        refine ⟨v, ?_, hload⟩
        show v ∈ absSearch (.node n mH cH ms cs) (c :: rest)
        rw [absSearch]
        dsimp only [TAbs.children]
        rw [hch]
        exact hv

theorem getD_drop :
    ∀ (l : List Tok) (k j : Nat), (l.drop k).getD j default = l.getD (k + j) default := by
  intro l
  induction l with
  | nil => intro k j; cases k <;> rfl
  | cons x t ih =>
    intro k j
    cases k with
    | zero => rw [Nat.zero_add, List.drop_zero]
    | succ k2 =>
      show (t.drop k2).getD j default = (x :: t).getD (k2 + 1 + j) default
      rw [ih k2 j]
      have : k2 + 1 + j = (k2 + j) + 1 := by omega
      rw [this]
      rfl

/-- A chain head loads exactly as `TermInstance.__init__` reads it: the
document, the token's offset and raw text, and a next pointer that continues
the chain. -/
theorem ChainRep_loadInstance {s : Store} {live : List Nat} {d v : Nat} {tok : Tok}
    {rest : List Tok} (hc : ChainRep s live d v (tok :: rest)) :
    ∃ rawH nextH,
      loadInstance s v = .ok (⟨v, d, tok.off, rawH, nextH, tok.raw⟩, s) ∧
      TailRep s live d nextH rest := by
  rw [ChainRep] at hc
  obtain ⟨hmem, rawH, nextH, hfind, hrmem, hrfind, htail⟩ := hc
  refine ⟨rawH, nextH, ?_, ?_⟩
  · unfold loadInstance
    have hln : s.load_numbers v = .ok ([d, tok.off, rawH, nextH], s) := by
      unfold Store.load_numbers
      rw [hfind]
    rw [hln, ok_bind]
    dsimp only
    have hlt : s.load_text rawH = .ok (tok.raw, s) := by
      unfold Store.load_text
      rw [hrfind]
    rw [hlt, ok_bind]
  · cases rest with
    | nil => exact htail
    | cons a b =>
      rw [TailRep]
      exact htail

theorem filterExact_mem {raw : String} {l : List Inst} {i : Inst}
    (h : i ∈ filterExact raw l) : i ∈ l ∧ i.raw = raw := by
  unfold filterExact at h
  obtain ⟨hm, hf⟩ := List.mem_filter.mp h
  refine ⟨hm, ?_⟩
  unfold matches_exact at hf
  exact eq_of_beq hf

theorem filterPhrase_mem {phrase : List Tok} {exact : Bool} :
    ∀ {l : List Inst} {s : Store} {is : List Inst} {s' : Store},
      filterPhrase phrase exact s l = .ok (is, s') →
      ∀ i ∈ is, i ∈ l ∧ matches_phrase s i phrase exact = .ok (true, s) := by
  intro l
  induction l with
  | nil =>
    intro s is s' hok i hi
    unfold filterPhrase at hok
    simp only [Except.ok.injEq, Prod.mk.injEq] at hok
    rw [← hok.1] at hi
    cases hi
  | cons j t ih =>
    intro s is s' hok i hi
    unfold filterPhrase at hok
    obtain ⟨⟨b, s₁⟩, h1, h2⟩ := bind_ok hok
    have hs₁ := matches_phrase_preserves h1
    subst hs₁
    dsimp only at h2
    obtain ⟨⟨rest2, s₂⟩, h3, h4⟩ := bind_ok h2
    have hs₂ := filterPhrase_preserves h3
    subst hs₂
    simp only [Except.ok.injEq, Prod.mk.injEq] at h4
    rw [← h4.1] at hi
    cases b with
    | false =>
      rw [if_neg (by simp)] at hi
      obtain ⟨hm, hmp⟩ := ih h3 i hi
      exact ⟨List.mem_cons_of_mem _ hm, hmp⟩
    | true =>
      rw [if_pos rfl] at hi
      rcases List.mem_cons.mp hi with h5 | h6
      · subst h5
        exact ⟨List.mem_cons_self _ _, h1⟩
      · obtain ⟨hm, hmp⟩ := ih h3 i h6
        exact ⟨List.mem_cons_of_mem _ hm, hmp⟩

/-- Stepping to the next instance from a chain element yields the head of the
remaining chain (or `none` exactly at the end). -/
theorem instNext_chain {s : Store} {live : List Nat} {d : Nat} {inst : Inst}
    {drest : List Tok} {nx : Option Inst} {s' : Store}
    (hnext : TailRep s live d inst.nextH drest)
    (hok : instNext s inst = .ok (nx, s')) :
    s' = s ∧ CurRep s live d nx drest := by
  cases drest with
  | nil =>
    rw [TailRep] at hnext
    unfold instNext at hok
    rw [if_neg (fun hcon => hcon hnext)] at hok
    simp only [Except.ok.injEq, Prod.mk.injEq] at hok
    obtain ⟨h1, h2⟩ := hok
    subst h1
    exact ⟨h2.symm, rfl⟩
  | cons dt2 dr2 =>
    rw [TailRep] at hnext
    obtain ⟨hnz, hchain⟩ := hnext
    unfold instNext at hok
    rw [if_pos hnz] at hok
    obtain ⟨rawH2, nextH2, hload, htail2⟩ := ChainRep_loadInstance hchain
    obtain ⟨⟨j, s₁⟩, h1, h2⟩ := bind_ok hok
    rw [hload] at h1
    simp only [Except.ok.injEq, Prod.mk.injEq] at h1
    obtain ⟨hj, hs₁⟩ := h1
    subst hs₁
    have hj2 := hj.symm
    subst hj2
    dsimp only at h2
    simp only [Except.ok.injEq, Prod.mk.injEq] at h2
    obtain ⟨hnx, hs'⟩ := h2
    subst hnx
    exact ⟨hs'.symm, dt2, dr2, rfl, rfl, htail2⟩

/-- Soundness of the `matches_phrase` loop: if it answers `true` while the
cursor tracks a stored chain spelling `dtoks`, then the phrase tokens match
the document tokens position by position, in the chosen mode. -/
theorem matchesPhraseLoop_sound {exact : Bool} {live : List Nat} {d : Nat} :
    ∀ (ph : List Tok) (dtoks : List Tok) (cur : Option Inst) {s : Store} {b : Bool} {s'' : Store},
      CurRep s live d cur dtoks →
      matchesPhraseLoop exact s cur ph = .ok (b, s'') → b = true →
      ph.length ≤ dtoks.length ∧
      ∀ j, j < ph.length → tokMatch exact (ph.getD j default) (dtoks.getD j default) := by
  intro ph
  induction ph with
  | nil =>
    intro dtoks cur s b s'' hcur hok hb
    exact ⟨Nat.zero_le _, fun j hj => absurd hj (Nat.not_lt_zero j)⟩
  | cons p pr ih =>
    intro dtoks cur s b s'' hcur hok hb
    subst hb
    unfold matchesPhraseLoop at hok
    cases cur with
    | none =>
      simp only [Except.ok.injEq, Prod.mk.injEq] at hok
      cases hok.1
    | some inst =>
      rw [CurRep] at hcur
      obtain ⟨dt, drest, hdt, hraw, hnext⟩ := hcur
      subst hdt
      dsimp only at hok
      cases exact with
      | true =>
        rw [if_pos rfl] at hok
        by_cases hne : p.raw ≠ inst.raw
        · rw [if_pos hne] at hok
          simp only [Except.ok.injEq, Prod.mk.injEq] at hok
          cases hok.1
        · rw [if_neg hne] at hok
          have hpr : p.raw = dt.raw := by
            rw [not_not.mp hne, hraw]
          obtain ⟨⟨nx, s₁⟩, h1, h2⟩ := bind_ok hok
          obtain ⟨hs₁, hnx⟩ := instNext_chain hnext h1
          subst hs₁
          obtain ⟨hlen, hmat⟩ := ih drest nx hnx h2 rfl
          refine ⟨by simpa using Nat.succ_le_succ hlen, ?_⟩
          intro j hj
          cases j with
          | zero =>
            show tokMatch true p dt
            unfold tokMatch
            rw [if_pos rfl]
            exact hpr
          | succ j2 =>
            exact hmat j2 (Nat.lt_of_succ_lt_succ hj)
      | false =>
        rw [if_neg (by simp)] at hok
        by_cases hne : p.stemmed ≠ stem inst.raw
        · rw [if_pos hne] at hok
          simp only [Except.ok.injEq, Prod.mk.injEq] at hok
          cases hok.1
        · rw [if_neg hne] at hok
          have hpr : p.stemmed = stem dt.raw := by
            rw [not_not.mp hne, hraw]
          obtain ⟨⟨nx, s₁⟩, h1, h2⟩ := bind_ok hok
          obtain ⟨hs₁, hnx⟩ := instNext_chain hnext h1
          subst hs₁
          obtain ⟨hlen, hmat⟩ := ih drest nx hnx h2 rfl
          refine ⟨by simpa using Nat.succ_le_succ hlen, ?_⟩
          intro j hj
          cases j with
          | zero =>
            show tokMatch false p dt
            unfold tokMatch
            rw [if_neg (by simp)]
            exact hpr
          | succ j2 =>
            exact hmat j2 (Nat.lt_of_succ_lt_succ hj)

/-! ## Children-list surgery: `replaceChild`, `pySortA`, and footprints -/

theorem char_toNat_inj {a b : Char} (h : a.toNat = b.toNat) : a = b := by
  apply Char.ext
  exact UInt32.ext h

theorem lookupChildA_none_keys {key : Nat} :
    ∀ {cs : List (Nat × TAbs)}, lookupChildA cs key = none → ∀ p ∈ cs, p.1 ≠ key := by
  intro cs
  induction cs with
  | nil => intro _ p hp; cases hp
  | cons q t ih =>
    obtain ⟨k, c⟩ := q
    intro hl p hp
    unfold lookupChildA at hl
    by_cases hk : k = key
    · rw [if_pos hk] at hl; cases hl
    · rw [if_neg hk] at hl
      rcases List.mem_cons.mp hp with h1 | h2
      · subst h1; exact hk
      · exact ih hl p h2

theorem lookupChildA_of_mem_nodup {key : Nat} {c : TAbs} :
    ∀ {cs : List (Nat × TAbs)}, (cs.map Prod.fst).Nodup → (key, c) ∈ cs →
      lookupChildA cs key = some c := by
  intro cs
  induction cs with
  | nil => intro _ hm; cases hm
  | cons q t ih =>
    obtain ⟨k, c0⟩ := q
    intro hnd hm
    rw [List.map_cons, List.nodup_cons] at hnd
    rcases List.mem_cons.mp hm with h1 | h2
    · injection h1 with h1a h1b
      subst h1a; subst h1b
      unfold lookupChildA
      rw [if_pos rfl]
    · unfold lookupChildA
      by_cases hk : k = key
      · exfalso
        subst hk
        exact hnd.1 (List.mem_map.mpr ⟨(k, c), h2, rfl⟩)
      · rw [if_neg hk]
        exact ih hnd.2 h2

theorem lookupChildA_perm {cs cs' : List (Nat × TAbs)} (hperm : cs.Perm cs')
    (hnd : (cs.map Prod.fst).Nodup) (key : Nat) :
    lookupChildA cs key = lookupChildA cs' key := by
  have hnd' : (cs'.map Prod.fst).Nodup := ((hperm.map Prod.fst).nodup_iff).mp hnd
  cases hl : lookupChildA cs key with
  | some c =>
    have hm := lookupChildA_mem key cs c hl
    exact (lookupChildA_of_mem_nodup hnd' (hperm.mem_iff.mp hm)).symm
  | none =>
    cases hl' : lookupChildA cs' key with
    | none => rfl
    | some c =>
      exfalso
      have hm := lookupChildA_mem key cs' c hl'
      exact lookupChildA_none_keys hl (key, c) (hperm.mem_iff.mpr hm) rfl

theorem lookupChildA_append_right {key : Nat} {c' : TAbs} :
    ∀ (cs : List (Nat × TAbs)),
      lookupChildA (cs ++ [(key, c')]) key = some ((lookupChildA cs key).getD c') := by
  intro cs
  induction cs with
  | nil =>
    show lookupChildA [(key, c')] key = _
    unfold lookupChildA
    rw [if_pos rfl]
    rfl
  | cons q t ih =>
    obtain ⟨k, c0⟩ := q
    show lookupChildA ((k, c0) :: (t ++ [(key, c')])) key = _
    unfold lookupChildA
    by_cases hk : k = key
    · rw [if_pos hk, if_pos hk]
      rfl
    · rw [if_neg hk, if_neg hk]
      exact ih

theorem lookupChildA_append_ne {key k : Nat} {c' : TAbs} (hk : k ≠ key) :
    ∀ (cs : List (Nat × TAbs)),
      lookupChildA (cs ++ [(key, c')]) k = lookupChildA cs k := by
  intro cs
  induction cs with
  | nil =>
    show lookupChildA [(key, c')] k = none
    unfold lookupChildA
    rw [if_neg (fun h => hk h.symm)]
    rfl
  | cons q t ih =>
    obtain ⟨k0, c0⟩ := q
    show lookupChildA ((k0, c0) :: (t ++ [(key, c')])) k = _
    unfold lookupChildA
    by_cases hk0 : k0 = k
    · rw [if_pos hk0, if_pos hk0]
    · rw [if_neg hk0, if_neg hk0]
      exact ih

theorem lookupChildA_replaceChild_self {key : Nat} {c c' : TAbs} :
    ∀ {cs : List (Nat × TAbs)}, lookupChildA cs key = some c →
      lookupChildA (replaceChild cs key c') key = some c' := by
  intro cs
  induction cs with
  | nil => intro h; cases h
  | cons q t ih =>
    obtain ⟨k, c0⟩ := q
    intro hl
    unfold lookupChildA at hl
    unfold replaceChild
    by_cases hk : k = key
    · rw [if_pos hk]
      unfold lookupChildA
      rw [if_pos rfl]
    · rw [if_neg hk] at hl
      rw [if_neg hk]
      unfold lookupChildA
      rw [if_neg hk]
      exact ih hl

theorem lookupChildA_replaceChild_ne {key k : Nat} {c' : TAbs} (hk : k ≠ key) :
    ∀ (cs : List (Nat × TAbs)),
      lookupChildA (replaceChild cs key c') k = lookupChildA cs k := by
  intro cs
  induction cs with
  | nil => rfl
  | cons q t ih =>
    obtain ⟨k0, c0⟩ := q
    unfold replaceChild
    by_cases hk0 : k0 = key
    · rw [if_pos hk0]
      subst hk0
      unfold lookupChildA
      rw [if_neg (fun h => hk h.symm), if_neg (fun h => hk h.symm)]
    · rw [if_neg hk0]
      unfold lookupChildA
      by_cases hk0' : k0 = k
      · rw [if_pos hk0', if_pos hk0']
      · rw [if_neg hk0', if_neg hk0']
        exact ih

theorem map_nodeH_replaceChild {key : Nat} {c c' : TAbs} (hn : c'.nodeH = c.nodeH) :
    ∀ {cs : List (Nat × TAbs)}, lookupChildA cs key = some c →
      (replaceChild cs key c').map (fun p => (p.1, p.2.nodeH)) =
        cs.map (fun p => (p.1, p.2.nodeH)) := by
  intro cs
  induction cs with
  | nil => intro h; cases h
  | cons q t ih =>
    obtain ⟨k, c0⟩ := q
    intro hl
    unfold lookupChildA at hl
    unfold replaceChild
    by_cases hk : k = key
    · rw [if_pos hk] at hl
      injection hl with hl
      subst hl
      rw [if_pos hk]
      subst hk
      simp only [List.map_cons, hn]
    · rw [if_neg hk] at hl
      rw [if_neg hk]
      simp only [List.map_cons, ih hl]

theorem map_fst_replaceChild {key : Nat} {c' : TAbs} :
    ∀ (cs : List (Nat × TAbs)),
      (replaceChild cs key c').map Prod.fst = cs.map Prod.fst := by
  intro cs
  induction cs with
  | nil => rfl
  | cons q t ih =>
    obtain ⟨k, c0⟩ := q
    unfold replaceChild
    by_cases hk : k = key
    · rw [if_pos hk]
      simp only [List.map_cons, hk]
    · rw [if_neg hk]
      simp only [List.map_cons, ih]

theorem footChildren_append :
    ∀ (l₁ l₂ : List (Nat × TAbs)),
      footChildren (l₁ ++ l₂) = footChildren l₁ ++ footChildren l₂ := by
  intro l₁ l₂
  induction l₁ with
  | nil => rfl
  | cons q t ih =>
    obtain ⟨k, c⟩ := q
    show footChildren ((k, c) :: (t ++ l₂)) = _
    rw [footChildren, ih, footChildren]
    rw [List.append_assoc]

theorem footChildren_decomp {key : Nat} {c : TAbs} :
    ∀ {cs : List (Nat × TAbs)}, lookupChildA cs key = some c →
      ∃ L R, footChildren cs = L ++ (foot c ++ R) ∧
        ∀ c', footChildren (replaceChild cs key c') = L ++ (foot c' ++ R) := by
  intro cs
  induction cs with
  | nil => intro h; cases h
  | cons q t ih =>
    obtain ⟨k, c0⟩ := q
    intro hl
    unfold lookupChildA at hl
    by_cases hk : k = key
    · rw [if_pos hk] at hl
      injection hl with hl
      subst hl
      refine ⟨[], footChildren t, by rw [footChildren]; rfl, ?_⟩
      intro c'
      unfold replaceChild
      rw [if_pos hk, footChildren]
      rfl
    · rw [if_neg hk] at hl
      obtain ⟨L, R, hLR, hrep⟩ := ih hl
      refine ⟨foot c0 ++ L, R, ?_, ?_⟩
      · rw [footChildren, hLR, List.append_assoc]
      · intro c'
        unfold replaceChild
        rw [if_neg hk, footChildren, hrep c', List.append_assoc]

theorem ChildrenRep_of_forall {s : Store} :
    ∀ {cs : List (Nat × TAbs)}, (∀ p ∈ cs, NodeRep s p.2) → ChildrenRep s cs := by
  intro cs
  induction cs with
  | nil => intro _; rw [ChildrenRep]; trivial
  | cons q t ih =>
    obtain ⟨k, c⟩ := q
    intro hall
    rw [ChildrenRep]
    exact ⟨hall (k, c) (List.mem_cons_self _ _),
      ih fun p hp => hall p (List.mem_cons_of_mem _ hp)⟩

theorem replaceChild_mem {key : Nat} {c' : TAbs} :
    ∀ {cs : List (Nat × TAbs)} {p : Nat × TAbs}, p ∈ replaceChild cs key c' →
      p = (key, c') ∨ p ∈ cs := by
  intro cs
  induction cs with
  | nil => intro p hp; cases hp
  | cons q t ih =>
    obtain ⟨k, c0⟩ := q
    intro p hp
    unfold replaceChild at hp
    by_cases hk : k = key
    · rw [if_pos hk] at hp
      rcases List.mem_cons.mp hp with h1 | h2
      · exact Or.inl h1
      · exact Or.inr (List.mem_cons_of_mem _ h2)
    · rw [if_neg hk] at hp
      rcases List.mem_cons.mp hp with h1 | h2
      · exact Or.inr (h1 ▸ List.mem_cons_self _ _)
      · rcases ih h2 with h3 | h4
        · exact Or.inl h3
        · exact Or.inr (List.mem_cons_of_mem _ h4)

/-- Replacing the (unique, by `Nodup` keys) child found for `key` by a newly
represented subtree keeps the whole children list represented, provided the
other subtrees' blocks are untouched. -/
theorem ChildrenRep_replace {key : Nat} {c c' : TAbs} {s s' : Store} :
    ∀ {cs : List (Nat × TAbs)}, ChildrenRep s cs → (footChildren cs).Nodup →
      lookupChildA cs key = some c →
      (∀ x, x ∈ footChildren cs → x ∉ foot c → s'.find x = s.find x) →
      NodeRep s' c' → ChildrenRep s' (replaceChild cs key c') := by
  intro cs
  induction cs with
  | nil => intro _ _ h; cases h
  | cons q t ih =>
    obtain ⟨k, c0⟩ := q
    intro hrep hnd hl hframe hrep'
    rw [ChildrenRep] at hrep
    rw [footChildren] at hnd hframe
    rw [List.nodup_append] at hnd
    unfold lookupChildA at hl
    unfold replaceChild
    by_cases hk : k = key
    · rw [if_pos hk] at hl
      injection hl with hl
      subst hl
      rw [if_pos hk]
      rw [ChildrenRep]
      refine ⟨hrep', ?_⟩
      refine ChildrenRep_frame t s s' ?_ hrep.2
      intro x hx
      exact hframe x (List.mem_append_right _ hx) (fun hxc => hnd.2.2 hxc hx)
    · rw [if_neg hk] at hl
      rw [if_neg hk]
      rw [ChildrenRep]
      have hcsub : (foot c).Sublist (footChildren t) :=
        foot_sublist_footChildren t key c (lookupChildA_mem key t c hl)
      refine ⟨?_, ?_⟩
      · refine NodeRep_frame c0 s s' ?_ hrep.1
        intro x hx
        exact hframe x (List.mem_append_left _ hx)
          (fun hxc => hnd.2.2 hx (hcsub.mem hxc))
      · refine ih hrep.2 hnd.2.1 hl ?_ hrep'
        intro x hx hxc
        exact hframe x (List.mem_append_right _ hx) hxc

theorem footChildren_mem_iff :
    ∀ (cs : List (Nat × TAbs)) (x : Nat),
      x ∈ footChildren cs ↔ ∃ p ∈ cs, x ∈ foot p.2 := by
  intro cs
  induction cs with
  | nil =>
    intro x
    constructor
    · intro h; cases h
    · rintro ⟨p, hp, -⟩; cases hp
  | cons q t ih =>
    obtain ⟨k, c⟩ := q
    intro x
    rw [footChildren, List.mem_append, ih]
    constructor
    · rintro (h1 | ⟨p, hp, hx⟩)
      · exact ⟨(k, c), List.mem_cons_self _ _, h1⟩
      · exact ⟨p, List.mem_cons_of_mem _ hp, hx⟩
    · rintro ⟨p, hp, hx⟩
      rcases List.mem_cons.mp hp with h1 | h2
      · subst h1; exact Or.inl hx
      · exact Or.inr ⟨p, h2, hx⟩

theorem footChildren_perm {cs cs' : List (Nat × TAbs)} (hperm : cs.Perm cs') :
    (footChildren cs).Perm (footChildren cs') := by
  induction hperm with
  | nil => exact List.Perm.refl _
  | cons p hrest ih =>
    obtain ⟨k, c⟩ := p
    rw [footChildren, footChildren]
    exact ih.append_left _
  | swap p q l =>
    obtain ⟨k1, c1⟩ := p
    obtain ⟨k2, c2⟩ := q
    rw [footChildren, footChildren, footChildren, footChildren]
    rw [← List.append_assoc, ← List.append_assoc]
    exact (List.perm_append_comm.append_right _)
  | trans h1 h2 ih1 ih2 => exact ih1.trans ih2

theorem insertPairA_perm (x : Nat × TAbs) :
    ∀ (l : List (Nat × TAbs)), (insertPairA x l).Perm (x :: l) := by
  intro l
  induction l with
  | nil => exact List.Perm.refl _
  | cons y t ih =>
    unfold insertPairA
    by_cases hlt : pairLt (y.1, y.2.nodeH) (x.1, x.2.nodeH)
    · rw [if_pos hlt]
      exact (ih.cons y).trans (List.Perm.swap x y t)
    · rw [if_neg hlt]

theorem pySortA_perm : ∀ (l : List (Nat × TAbs)), (pySortA l).Perm l := by
  intro l
  induction l with
  | nil => exact List.Perm.refl _
  | cons x t ih =>
    unfold pySortA
    exact (insertPairA_perm x (pySortA t)).trans (ih.cons x)

theorem insertPairA_map (x : Nat × TAbs) :
    ∀ (l : List (Nat × TAbs)),
      (insertPairA x l).map (fun p => (p.1, p.2.nodeH)) =
        insertPair (x.1, x.2.nodeH) (l.map (fun p => (p.1, p.2.nodeH))) := by
  intro l
  induction l with
  | nil => rfl
  | cons y t ih =>
    unfold insertPairA insertPair
    by_cases hlt : pairLt (y.1, y.2.nodeH) (x.1, x.2.nodeH)
    · rw [if_pos hlt]
      simp only [List.map_cons]
      rw [if_pos hlt, ih]
    · rw [if_neg hlt]
      simp only [List.map_cons]
      rw [if_neg hlt]

theorem pySortA_map :
    ∀ (l : List (Nat × TAbs)),
      (pySortA l).map (fun p => (p.1, p.2.nodeH)) =
        pySort (l.map (fun p => (p.1, p.2.nodeH))) := by
  intro l
  induction l with
  | nil => rfl
  | cons x t ih =>
    unfold pySortA pySort
    rw [insertPairA_map]
    simp only [List.map_cons]
    rw [ih]

theorem nodup_replace_middle {A B M M' : List Nat}
    (h : (A ++ (M ++ B)).Nodup) (hM' : M'.Nodup)
    (hdisj : ∀ x ∈ M', x ∉ A ∧ x ∉ B) : (A ++ (M' ++ B)).Nodup := by
  rw [List.nodup_append, List.nodup_append] at h ⊢
  obtain ⟨hA, ⟨hM, hB, hMB⟩, hArest⟩ := h
  refine ⟨hA, ⟨hM', hB, fun a ha hb => (hdisj a ha).2 hb⟩, ?_⟩
  intro a ha hb
  rcases List.mem_append.mp hb with h1 | h2
  · exact (hdisj a h1).1 ha
  · exact hArest ha (List.mem_append_right _ h2)

theorem DomBound_set {s : Store} {h : Nat} {b b' : Block} (hdb : DomBound s)
    (hfind : s.find h = some b) (hsz : b'.size = b.size) : DomBound (s.set h b') := by
  intro x c hx
  by_cases hxh : x = h
  · subst hxh
    rw [Store.find_set_self] at hx
    injection hx with hx
    have h1 := hdb x b hfind
    show x + c.size ≤ s.flen
    rw [← hx, hsz]
    omega
  · rw [Store.find_set_ne _ _ _ _ hxh] at hx
    exact hdb x c hx

theorem load2_of_find {s : Store} {n a b : Nat}
    (hfind : s.find n = some (.nums [a, b])) : load2 s n = .ok ((a, b), s) := by
  unfold load2
  have hln : s.load_numbers n = .ok ([a, b], s) := by
    unfold Store.load_numbers
    rw [hfind]
  rw [hln, ok_bind]

theorem absSearch_leaf (n : Nat) (σ : List Char) :
    absSearch (.node n 0 0 [] []) σ = [] := by
  cases σ with
  | nil => rfl
  | cons c r => rfl

theorem NodeRep_mono {t : TAbs} {s s' : Store} (hrep : NodeRep s t)
    (hpres : ∀ x b, x ∈ foot t → s.find x = some b → s'.find x = some b) :
    NodeRep s' t := by
  refine NodeRep_frame t s s' (fun x hx => ?_) hrep
  cases hfx : s.find x with
  | some b => rw [hpres x b hx hfx]
  | none =>
    exfalso
    have := NodeRep_find_foot t s hrep x hx
    rw [hfx] at this
    cases this

theorem ChainRep_pres {live : List Nat} {d : Nat} {s s' : Store}
    (hpres : ∀ x b, x ∈ live → s.find x = some b → s'.find x = some b)
    {toks : List Tok} {h : Nat} (hc : ChainRep s live d h toks) :
    ChainRep s' live d h toks :=
  ChainRep_frame (fun x b hx hf => hpres x b hx hf) toks h hc

theorem foot_node_nodup_facts {n mH cH : Nat} {ms : List Nat} {cs : List (Nat × TAbs)}
    (h : (foot (.node n mH cH ms cs)).Nodup) :
    (footChildren cs).Nodup ∧
    n ∉ footChildren cs ∧ (mH ≠ 0 → n ≠ mH) ∧ (cH ≠ 0 → n ≠ cH) ∧
    (mH ≠ 0 → cH ≠ 0 → mH ≠ cH) ∧
    (mH ≠ 0 → mH ∉ footChildren cs) ∧ (cH ≠ 0 → cH ∉ footChildren cs) := by
  rw [foot_node] at h
  obtain ⟨hn, hrest⟩ := List.nodup_cons.mp h
  rw [List.nodup_append, List.nodup_append] at hrest
  obtain ⟨⟨hM, hC, hMC⟩, hFC, hdisj⟩ := hrest
  refine ⟨hFC, ?_, ?_, ?_, ?_, ?_, ?_⟩
  · intro hx
    exact hn (List.mem_append_right _ hx)
  · intro hm he
    refine hn (List.mem_append_left _ (List.mem_append_left _ ?_))
    rw [if_neg hm]
    exact he ▸ List.mem_singleton.mpr rfl
  · intro hc he
    refine hn (List.mem_append_left _ (List.mem_append_right _ ?_))
    rw [if_neg hc]
    exact he ▸ List.mem_singleton.mpr rfl
  · intro hm hc he
    have h1 : mH ∈ (if mH = 0 then [] else [mH]) := by
      rw [if_neg hm]; exact List.mem_singleton.mpr rfl
    have h2 : mH ∈ (if cH = 0 then [] else [cH]) := by
      rw [if_neg hc]; exact he ▸ List.mem_singleton.mpr rfl
    exact hMC h1 h2
  · intro hm hx
    have h1 : mH ∈ (if mH = 0 then [] else [mH]) := by
      rw [if_neg hm]; exact List.mem_singleton.mpr rfl
    exact hdisj (List.mem_append_left _ h1) hx
  · intro hc hx
    have h1 : cH ∈ (if cH = 0 then [] else [cH]) := by
      rw [if_neg hc]; exact List.mem_singleton.mpr rfl
    exact hdisj (List.mem_append_right _ h1) hx

theorem foot_node_nodup_intro {n mH cH : Nat} {ms : List Nat} {cs : List (Nat × TAbs)}
    (hFC : (footChildren cs).Nodup)
    (hn1 : mH ≠ 0 → n ≠ mH) (hn2 : cH ≠ 0 → n ≠ cH) (hn3 : n ∉ footChildren cs)
    (hm1 : mH ≠ 0 → cH ≠ 0 → mH ≠ cH) (hm2 : mH ≠ 0 → mH ∉ footChildren cs)
    (hc2 : cH ≠ 0 → cH ∉ footChildren cs) :
    (foot (.node n mH cH ms cs)).Nodup := by
  rw [foot_node]
  refine List.nodup_cons.mpr ⟨?_, ?_⟩
  · intro hmem
    rcases List.mem_append.mp hmem with h1 | h2
    · rcases List.mem_append.mp h1 with h3 | h4
      · by_cases hm : mH = 0
        · rw [if_pos hm] at h3; cases h3
        · rw [if_neg hm] at h3
          exact hn1 hm (List.mem_singleton.mp h3)
      · by_cases hc : cH = 0
        · rw [if_pos hc] at h4; cases h4
        · rw [if_neg hc] at h4
          exact hn2 hc (List.mem_singleton.mp h4)
    · exact hn3 h2
  · rw [List.nodup_append, List.nodup_append]
    refine ⟨⟨?_, ?_, ?_⟩, hFC, ?_⟩
    · by_cases hm : mH = 0
      · rw [if_pos hm]; exact List.nodup_nil
      · rw [if_neg hm]; exact List.nodup_singleton _
    · by_cases hc : cH = 0
      · rw [if_pos hc]; exact List.nodup_nil
      · rw [if_neg hc]; exact List.nodup_singleton _
    · intro a ha hb
      by_cases hm : mH = 0
      · rw [if_pos hm] at ha; cases ha
      · by_cases hc : cH = 0
        · rw [if_pos hc] at hb; cases hb
        · rw [if_neg hm] at ha
          rw [if_neg hc] at hb
          exact hm1 hm hc ((List.mem_singleton.mp ha) ▸ List.mem_singleton.mp hb)
    · intro a ha hb
      rcases List.mem_append.mp ha with h1 | h2
      · by_cases hm : mH = 0
        · rw [if_pos hm] at h1; cases h1
        · rw [if_neg hm] at h1
          exact hm2 hm ((List.mem_singleton.mp h1) ▸ hb)
      · by_cases hc : cH = 0
        · rw [if_pos hc] at h2; cases h2
        · rw [if_neg hc] at h2
          exact hc2 hc ((List.mem_singleton.mp h2) ▸ hb)

theorem foot_mem_node {n mH cH : Nat} {ms : List Nat} {cs : List (Nat × TAbs)} {x : Nat}
    (hx : x ∈ foot (.node n mH cH ms cs)) :
    x = n ∨ (mH ≠ 0 ∧ x = mH) ∨ (cH ≠ 0 ∧ x = cH) ∨ x ∈ footChildren cs := by
  rw [foot_node] at hx
  rcases List.mem_cons.mp hx with h1 | h2
  · exact Or.inl h1
  · rcases List.mem_append.mp h2 with h3 | h4
    · rcases List.mem_append.mp h3 with h5 | h6
      · by_cases hm : mH = 0
        · rw [if_pos hm] at h5; cases h5
        · rw [if_neg hm] at h5
          exact Or.inr (Or.inl ⟨hm, List.mem_singleton.mp h5⟩)
      · by_cases hc : cH = 0
        · rw [if_pos hc] at h6; cases h6
        · rw [if_neg hc] at h6
          exact Or.inr (Or.inr (Or.inl ⟨hc, List.mem_singleton.mp h6⟩))
    · exact Or.inr (Or.inr (Or.inr h4))

theorem nodeAdd_spec : ∀ (σ : List Char) (t : TAbs) {s : Store} {fl live : List Nat}
    {v : Nat} {s' : Store},
    NodeRep s t → (foot t).Nodup →
    freeChainB s s.firstFree fl 0 = true → fl.Nodup → DomBound s →
    (∀ x ∈ foot t, x ∉ fl) →
    (∀ x ∈ live, x ∉ fl) → (∀ x ∈ live, x ∉ foot t) →
    (∀ x ∈ live, (s.find x).isSome) →
    nodeAdd s t.nodeH σ v = .ok ((), s') →
    ∃ t' fl', AddPost s t fl live v σ s' t' fl' := by
  intro σ
  induction σ with
  | nil =>
    intro t s fl live v s' hrep hndt hfl hnd hdb hfoot_fl hlive_fl hlive_foot hlive_dom hok
    cases t with
    | node n mH cH ms cs =>
    dsimp only [TAbs.nodeH] at hok
    have hrepN := hrep
    rw [NodeRep] at hrepN
    obtain ⟨hfind_n, hms, hcs, hkeys, hchrep⟩ := hrepN
    obtain ⟨hndFC, hnFC, hnm, hncH, hmcH, hmFC, hcFC⟩ := foot_node_nodup_facts hndt
    have hfoot_dom : ∀ x ∈ foot (TAbs.node n mH cH ms cs), (s.find x).isSome :=
      NodeRep_find_foot _ s hrep
    have hn_foot : n ∈ foot (TAbs.node n mH cH ms cs) := nodeH_mem_foot _
    unfold nodeAdd at hok
    obtain ⟨⟨ms₀, s₁⟩, h1, hok⟩ := bind_ok hok
    rw [nodeMatches_abs hrep] at h1
    simp only [Except.ok.injEq, Prod.mk.injEq] at h1
    obtain ⟨hms₀, hs₁⟩ := h1
    subst hms₀
    subst hs₁
    dsimp only at hok
    obtain ⟨⟨newM, s₂⟩, h2, hok⟩ := bind_ok hok
    obtain ⟨hfindM, hvals, hM0, hroot₂, hflen₂, hdb₂, hsome₂, fl₂, hchain₂, hnd₂, hsub₂,
      hMnotfl₂, hframe₂, hMcase⟩ := store_numbers_ok hfl hnd hdb h2
    dsimp only at hok
    have hMnotfoot : newM ∉ foot (TAbs.node n mH cH ms cs) := by
      intro hmem
      rcases hMcase with hmf | hnone
      · exact hfoot_fl newM hmem hmf
      · have hdm := hfoot_dom newM hmem
        rw [hnone] at hdm
        cases hdm
    have hpres₂ : ∀ x ∈ foot (TAbs.node n mH cH ms cs), s₂.find x = s.find x := by
      intro x hx
      exact hframe₂ x (hfoot_fl x hx) (fun he => hMnotfoot (he ▸ hx))
    obtain ⟨⟨⟨oldM, c⟩, s₃⟩, h3, hok⟩ := bind_ok hok
    have hfind_n₂ : s₂.find n = some (.nums [mH, cH]) := by
      rw [hpres₂ n hn_foot, hfind_n]
    rw [load2_of_find hfind_n₂] at h3
    simp only [Except.ok.injEq, Prod.mk.injEq] at h3
    obtain ⟨⟨hOldM, hc⟩, hs₃⟩ := h3
    subst hOldM
    subst hc
    subst hs₃
    dsimp only at hok
    obtain ⟨⟨u, s₄⟩, h4, hok⟩ := bind_ok hok
    obtain ⟨hs₄, hvals₄, b₄, hfind_b₄, hsz₄⟩ := update_numbers_ok h4
    subst hs₄
    dsimp only at hok
    have hn_notfl₂ : n ∉ fl₂ := fun hmem => hfoot_fl n hn_foot (hsub₂ n hmem)
    have hfind_n₄ : (s₂.set n (Block.nums [newM, cH])).find n =
        some (Block.nums [newM, cH]) := Store.find_set_self _ _ _
    have hdb₄ : DomBound (s₂.set n (Block.nums [newM, cH])) :=
      DomBound_set hdb₂ hfind_n₂ rfl
    have hchain₄ : freeChainB (s₂.set n (Block.nums [newM, cH]))
        (s₂.set n (Block.nums [newM, cH])).firstFree fl₂ 0 = true := by
      show freeChainB _ s₂.firstFree fl₂ 0 = true
      rw [freeChainB_frame fl₂ s₂ _ s₂.firstFree 0 ?_]
      · exact hchain₂
      · intro g hg
        refine Store.find_set_ne _ _ _ _ ?_
        intro hge
        exact hn_notfl₂ (hge ▸ hg)
    have habs : ∀ σ2, absSearch (TAbs.node n newM cH (ms ++ [v]) cs) σ2 =
        if σ2 = [] then absSearch (TAbs.node n mH cH ms cs) σ2 ++ [v]
        else absSearch (TAbs.node n mH cH ms cs) σ2 := by
      intro σ2
      cases σ2 with
      | nil => rw [if_pos rfl]; rfl
      | cons c2 r2 => rw [if_neg (by simp)]; rfl
    by_cases hm0 : mH ≠ 0
    · rw [if_pos hm0] at hok
      have hmfoot : mH ∈ foot (TAbs.node n mH cH ms cs) := mH_mem_foot hm0
      have hMnotfl₄ : mH ∉ fl₂ := fun hmem => hfoot_fl mH hmfoot (hsub₂ mH hmem)
      obtain ⟨fl₃, hchain', hnd', hsub₃, hdb', hroot', hflen', hsome', hframe'⟩ :=
        free_ok hchain₄ hnd₂ hdb₄ hMnotfl₄ hm0 hok
      have hMnotmH : newM ≠ mH := fun he => hMnotfoot (he ▸ hmfoot)
      have hkeepFoot : ∀ x ∈ foot (TAbs.node n mH cH ms cs), x ≠ n → x ≠ mH →
          s'.find x = s.find x := by
        intro x hx hxn hxm
        have h4x : (s₂.set n (Block.nums [newM, cH])).find x = s.find x := by
          rw [Store.find_set_ne _ _ _ _ hxn]
          exact hpres₂ x hx
        rw [hframe' x (fun hmem => hfoot_fl x hx (hsub₂ x hmem)) hxm
          (by rw [h4x]; exact hfoot_dom x hx), h4x]
      refine ⟨.node n newM cH (ms ++ [v]) cs, mH :: fl₃, ?_, rfl, ?_, hchain', hnd', hdb',
        ?_, ?_, ?_, hroot'.trans hroot₂, ?_, ?_, habs⟩
      · -- NodeRep s' t'
        rw [NodeRep]
        refine ⟨?_, ?_, ?_, hkeys, ?_⟩
        · have hp : s'.find n = (s₂.set n (Block.nums [newM, cH])).find n :=
            hframe' n hn_notfl₂ (hnm hm0) (by rw [hfind_n₄]; rfl)
          rw [hp, hfind_n₄]
        · rw [if_neg hM0]
          have h2f : (s₂.set n (Block.nums [newM, cH])).find newM =
              some (Block.nums (ms ++ [v])) := by
            rw [Store.find_set_ne _ _ _ _ (fun he => hMnotfoot (by rw [he]; exact hn_foot))]
            exact hfindM
          rw [hframe' newM hMnotfl₂ hMnotmH (by rw [h2f]; rfl), h2f]
        · by_cases hc0 : cH = 0
          · rw [if_pos hc0]
            rw [if_pos hc0] at hcs
            exact hcs
          · rw [if_neg hc0]
            rw [if_neg hc0] at hcs
            have hcfoot : cH ∈ foot (TAbs.node n mH cH ms cs) := cH_mem_foot hc0
            rw [hkeepFoot cH hcfoot (fun he => hncH hc0 he.symm)
              (fun he => hmcH hm0 hc0 he.symm), hcs]
        · refine ChildrenRep_frame cs s s' ?_ hchrep
          intro x hx
          have hxfoot : x ∈ foot (TAbs.node n mH cH ms cs) := footChildren_mem_foot hx
          exact hkeepFoot x hxfoot (fun he => hnFC (he ▸ hx)) (fun he => hmFC hm0 (he ▸ hx))
      · -- foot Nodup
        refine foot_node_nodup_intro hndFC ?_ hncH hnFC ?_ ?_ hcFC
        · intro _ he
          refine hMnotfoot ?_
          rw [← he]
          exact hn_foot
        · intro _ hc he
          refine hMnotfoot ?_
          rw [he]
          exact @cH_mem_foot n mH cH ms cs hc
        · intro _ hmem
          exact hMnotfoot (footChildren_mem_foot hmem)
      · -- foot ∩ fl' = ∅
        intro x hx hxf
        rcases List.mem_cons.mp hxf with hxm | hxfl₃
        · subst hxm
          rcases foot_mem_node hx with h1 | ⟨hM2, h2⟩ | ⟨hC2, h3⟩ | h4
          · exact hnm hm0 h1.symm
          · exact hMnotmH h2.symm
          · exact hmcH hm0 hC2 h3
          · exact hmFC hm0 h4
        · have hxfl : x ∈ fl₂ := hsub₃ x hxfl₃
          rcases foot_mem_node hx with h1 | ⟨hM2, h2⟩ | ⟨hC2, h3⟩ | h4
          · exact hn_notfl₂ (h1 ▸ hxfl)
          · exact hMnotfl₂ (h2 ▸ hxfl)
          · refine hfoot_fl cH (@cH_mem_foot n mH cH ms cs hC2) ?_
            rw [← h3]
            exact hsub₂ x hxfl
          · exact hfoot_fl x (footChildren_mem_foot h4) (hsub₂ x hxfl)
      · -- foot provenance
        intro x hx
        rcases foot_mem_node hx with h1 | ⟨hM2, h2⟩ | ⟨hC2, h3⟩ | h4
        · exact Or.inl (h1 ▸ hn_foot)
        · subst h2
          rcases hMcase with hmf | hnone
          · exact Or.inr (Or.inl hmf)
          · exact Or.inr (Or.inr hnone)
        · refine Or.inl ?_
          rw [h3]
          exact @cH_mem_foot n mH cH ms cs hC2
        · exact Or.inl (footChildren_mem_foot h4)
      · -- fl' provenance
        intro x hx
        rcases List.mem_cons.mp hx with hxm | hxfl₃
        · exact Or.inr (Or.inl (hxm ▸ hmfoot))
        · exact Or.inl (hsub₂ x (hsub₃ x hxfl₃))
      · -- isSome mono
        intro x hx
        exact hsome' x (Store.find_set_isSome _ _ _ _ (hsome₂ x hx))
      · -- live frame
        intro x b hxl hxf
        have hx_fl : x ∉ fl := hlive_fl x hxl
        have hx_foot : x ∉ foot (TAbs.node n mH cH ms cs) := hlive_foot x hxl
        have hxM : x ≠ newM := by
          intro he
          rcases hMcase with hmf | hnone
          · exact hx_fl (he ▸ hmf)
          · rw [he, hnone] at hxf
            cases hxf
        have h2' : s₂.find x = some b := by
          rw [hframe₂ x hx_fl hxM]
          exact hxf
        have h4' : (s₂.set n (Block.nums [newM, cH])).find x = some b := by
          rw [Store.find_set_ne _ _ _ _ (fun he => hx_foot (by rw [he]; exact hn_foot))]
          exact h2'
        rw [hframe' x (fun hmem => hx_fl (hsub₂ x hmem)) (fun he => hx_foot (by rw [he]; exact hmfoot))
          (by rw [h4']; rfl)]
        exact h4'
    · -- mH = 0 : no free
      rw [if_neg hm0] at hok
      push_neg at hm0
      simp only [Except.ok.injEq, Prod.mk.injEq] at hok
      have hs' : s' = s₂.set n (Block.nums [newM, cH]) := hok.2.symm
      subst hs'
      have hkeepFoot : ∀ x ∈ foot (TAbs.node n mH cH ms cs), x ≠ n →
          (s₂.set n (Block.nums [newM, cH])).find x = s.find x := by
        intro x hx hxn
        rw [Store.find_set_ne _ _ _ _ hxn]
        exact hpres₂ x hx
      refine ⟨.node n newM cH (ms ++ [v]) cs, fl₂, ?_, rfl, ?_, hchain₄, hnd₂, hdb₄,
        ?_, ?_, ?_, hroot₂, ?_, ?_, habs⟩
      · rw [NodeRep]
        refine ⟨hfind_n₄, ?_, ?_, hkeys, ?_⟩
        · rw [if_neg hM0]
          rw [Store.find_set_ne _ _ _ _ (fun he => hMnotfoot (by rw [he]; exact hn_foot))]
          exact hfindM
        · by_cases hc0 : cH = 0
          · rw [if_pos hc0]
            rw [if_pos hc0] at hcs
            exact hcs
          · rw [if_neg hc0]
            rw [if_neg hc0] at hcs
            rw [hkeepFoot cH (cH_mem_foot hc0) (fun he => hncH hc0 he.symm), hcs]
        · refine ChildrenRep_frame cs s _ ?_ hchrep
          intro x hx
          exact hkeepFoot x (footChildren_mem_foot hx) (fun he => hnFC (he ▸ hx))
      · refine foot_node_nodup_intro hndFC ?_ hncH hnFC ?_ ?_ hcFC
        · intro _ he
          refine hMnotfoot ?_
          rw [← he]
          exact hn_foot
        · intro _ hc he
          refine hMnotfoot ?_
          rw [he]
          exact @cH_mem_foot n mH cH ms cs hc
        · intro _ hmem
          exact hMnotfoot (footChildren_mem_foot hmem)
      · intro x hx hxf
        have hxfl : x ∈ fl := hsub₂ x hxf
        rcases foot_mem_node hx with h1 | ⟨hM2, h2⟩ | ⟨hC2, h3⟩ | h4
        · exact hfoot_fl n hn_foot (h1 ▸ hxfl)
        · exact hMnotfl₂ (h2 ▸ hxf)
        · exact hfoot_fl cH (cH_mem_foot hC2) (h3 ▸ hxfl)
        · exact hfoot_fl x (footChildren_mem_foot h4) hxfl
      · intro x hx
        rcases foot_mem_node hx with h1 | ⟨hM2, h2⟩ | ⟨hC2, h3⟩ | h4
        · exact Or.inl (h1 ▸ hn_foot)
        · subst h2
          rcases hMcase with hmf | hnone
          · exact Or.inr (Or.inl hmf)
          · exact Or.inr (Or.inr hnone)
        · refine Or.inl ?_
          rw [h3]
          exact @cH_mem_foot n mH cH ms cs hC2
        · exact Or.inl (footChildren_mem_foot h4)
      · intro x hx
        exact Or.inl (hsub₂ x hx)
      · intro x hx
        exact Store.find_set_isSome _ _ _ _ (hsome₂ x hx)
      · intro x b hxl hxf
        have hx_fl : x ∉ fl := hlive_fl x hxl
        have hx_foot : x ∉ foot (TAbs.node n mH cH ms cs) := hlive_foot x hxl
        have hxM : x ≠ newM := by
          intro he
          rcases hMcase with hmf | hnone
          · exact hx_fl (he ▸ hmf)
          · rw [he, hnone] at hxf
            cases hxf
        rw [Store.find_set_ne _ _ _ _ (fun he => hx_foot (by rw [he]; exact hn_foot))]
        rw [hframe₂ x hx_fl hxM]
        exact hxf
  | cons ch rest ih =>
    intro t s fl live v s' hrep hndt hfl hnd hdb hfoot_fl hlive_fl hlive_foot hlive_dom hok
    cases t with
    | node n mH cH ms cs =>
    dsimp only [TAbs.nodeH] at hok
    have hrepN := hrep
    rw [NodeRep] at hrepN
    obtain ⟨hfind_n, hms, hcs, hkeys, hchrep⟩ := hrepN
    obtain ⟨hndFC, hnFC, hnm, hncH, hmcH, hmFC, hcFC⟩ := foot_node_nodup_facts hndt
    have hfoot_dom : ∀ x ∈ foot (TAbs.node n mH cH ms cs), (s.find x).isSome :=
      NodeRep_find_foot _ s hrep
    have hn_foot : n ∈ foot (TAbs.node n mH cH ms cs) := nodeH_mem_foot _
    unfold nodeAdd at hok
    obtain ⟨⟨found, s₁⟩, h1, hok⟩ := bind_ok hok
    rw [findChild_abs hrep] at h1
    simp only [Except.ok.injEq, Prod.mk.injEq] at h1
    obtain ⟨hfound, hs₁⟩ := h1
    subst hs₁
    cases hch : lookupChildA cs ch.toNat with
    | some c =>
      rw [hch] at hfound
      rw [← hfound] at hok
      dsimp only [Option.map] at hok
      have hmemc : (ch.toNat, c) ∈ cs := lookupChildA_mem _ _ _ hch
      have hrepc : NodeRep s c := ChildrenRep_mem hchrep _ hmemc
      have hsubc : (foot c).Sublist (foot (TAbs.node n mH cH ms cs)) :=
        foot_child_sublist hmemc
      have hsubcFC : (foot c).Sublist (footChildren cs) :=
        foot_sublist_footChildren cs ch.toNat c hmemc
      have hndc : (foot c).Nodup := hndt.sublist hsubc
      have hnc : n ∉ foot c := fun hm => hnFC (hsubcFC.subset hm)
      have hlv2_fl : ∀ x ∈ live ++ (foot (TAbs.node n mH cH ms cs)).filter
          (fun y => decide (y ∉ foot c)), x ∉ fl := by
        intro x hx
        rcases List.mem_append.mp hx with h1 | h2
        · exact hlive_fl x h1
        · rw [List.mem_filter] at h2
          exact hfoot_fl x h2.1
      have hlv2_foot : ∀ x ∈ live ++ (foot (TAbs.node n mH cH ms cs)).filter
          (fun y => decide (y ∉ foot c)), x ∉ foot c := by
        intro x hx
        rcases List.mem_append.mp hx with h1 | h2
        · exact fun hm => hlive_foot x h1 (hsubc.subset hm)
        · rw [List.mem_filter] at h2
          exact of_decide_eq_true h2.2
      have hlv2_dom : ∀ x ∈ live ++ (foot (TAbs.node n mH cH ms cs)).filter
          (fun y => decide (y ∉ foot c)), (s.find x).isSome := by
        intro x hx
        rcases List.mem_append.mp hx with h1 | h2
        · exact hlive_dom x h1
        · rw [List.mem_filter] at h2
          exact hfoot_dom x h2.1
      have hfc_fl : ∀ x ∈ foot c, x ∉ fl := fun x hx => hfoot_fl x (hsubc.subset hx)
      obtain ⟨t'', fl'', hP⟩ :=
        ih c hrepc hndc hfl hnd hdb hfc_fl hlv2_fl hlv2_foot hlv2_dom hok
      obtain ⟨hrep'', hnodeH'', hnd'', hchain'', hndfl'', hdb'', hfootfl'', hfootprov'',
        hflprov'', hroot'', hsome'', hlframe'', habs''⟩ := hP
      obtain ⟨L, R, hLR, hrepl⟩ := footChildren_decomp hch
      have hndLR : (L ++ (foot c ++ R)).Nodup := by rw [← hLR]; exact hndFC
      have hLRfacts := List.nodup_append.mp hndLR
      have hcRdisj := (List.nodup_append.mp hLRfacts.2.1).2.2
      have hLdisj := hLRfacts.2.2
      have hLRmem : ∀ x, (x ∈ L ∨ x ∈ R) → x ∈ footChildren cs ∧ x ∉ foot c := by
        intro x hx
        rcases hx with h1 | h2
        · exact ⟨by rw [hLR]; exact List.mem_append_left _ h1,
            fun hc2 => hLdisj h1 (List.mem_append_left _ hc2)⟩
        · exact ⟨by rw [hLR]; exact List.mem_append_right _ (List.mem_append_right _ h2),
            fun hc2 => hcRdisj hc2 h2⟩
      have hlive_in_lv2 : ∀ x ∈ live, x ∈ live ++ (foot (TAbs.node n mH cH ms cs)).filter
          (fun y => decide (y ∉ foot c)) := fun x hx => List.mem_append_left _ hx
      have hfoot_in_lv2 : ∀ x, x ∈ foot (TAbs.node n mH cH ms cs) → x ∉ foot c →
          x ∈ live ++ (foot (TAbs.node n mH cH ms cs)).filter
            (fun y => decide (y ∉ foot c)) := by
        intro x h2 h3
        refine List.mem_append_right _ ?_
        rw [List.mem_filter]
        exact ⟨h2, decide_eq_true h3⟩
      have hkeep : ∀ x, x ∈ foot (TAbs.node n mH cH ms cs) → x ∉ foot c →
          s'.find x = s.find x := by
        intro x hx hxc
        cases hfx : s.find x with
        | some b => exact hlframe'' x b (hfoot_in_lv2 x hx hxc) hfx
        | none =>
          exfalso
          have hd := hfoot_dom x hx
          rw [hfx] at hd
          cases hd
      have hFC'mem : ∀ x ∈ footChildren (replaceChild cs ch.toNat t''),
          x ∈ footChildren cs ∨ x ∈ fl ∨ s.find x = none := by
        intro x hx
        rw [hrepl t''] at hx
        rcases List.mem_append.mp hx with h1 | h23
        · exact Or.inl (hLRmem x (Or.inl h1)).1
        · rcases List.mem_append.mp h23 with h2 | h3
          · rcases hfootprov'' x h2 with ha | hb | hc2
            · exact Or.inl (hsubcFC.subset ha)
            · exact Or.inr (Or.inl hb)
            · exact Or.inr (Or.inr hc2)
          · exact Or.inl (hLRmem x (Or.inr h3)).1
      have hnotFC' : ∀ y, y ∈ foot (TAbs.node n mH cH ms cs) → y ∉ footChildren cs →
          y ∉ footChildren (replaceChild cs ch.toNat t'') := by
        intro y hyfoot hyFC hy
        rcases hFC'mem y hy with h1 | h2 | h3
        · exact hyFC h1
        · exact hfoot_fl y hyfoot h2
        · have hd := hfoot_dom y hyfoot
          rw [h3] at hd
          cases hd
      refine ⟨.node n mH cH ms (replaceChild cs ch.toNat t''), fl'', ?_, rfl, ?_,
        hchain'', hndfl'', hdb'', ?_, ?_, ?_, hroot'', hsome'', ?_, ?_⟩
      · -- NodeRep s' t'
        rw [NodeRep]
        refine ⟨?_, ?_, ?_, ?_, ?_⟩
        · rw [hkeep n hn_foot hnc, hfind_n]
        · by_cases hm0 : mH = 0
          · rw [if_pos hm0]
            rw [if_pos hm0] at hms
            exact hms
          · rw [if_neg hm0]
            rw [if_neg hm0] at hms
            have hmc : mH ∉ foot c := fun hm => hmFC hm0 (hsubcFC.subset hm)
            rw [hkeep mH (mH_mem_foot hm0) hmc, hms]
        · have hc0 : cH ≠ 0 := by
            intro h0
            rw [if_pos h0] at hcs
            rw [hcs] at hch
            cases hch
          rw [if_neg hc0]
          rw [if_neg hc0] at hcs
          have hcc : cH ∉ foot c := fun hm => hcFC hc0 (hsubcFC.subset hm)
          rw [hkeep cH (@cH_mem_foot n mH cH ms cs hc0) hcc, hcs,
            map_nodeH_replaceChild hnodeH'' hch]
        · rw [map_fst_replaceChild]
          exact hkeys
        · refine ChildrenRep_replace hchrep hndFC hch ?_ hrep''
          intro x hx hxc
          exact hkeep x (footChildren_mem_foot hx) hxc
      · -- foot Nodup
        have hndFC' : (footChildren (replaceChild cs ch.toNat t'')).Nodup := by
          rw [hrepl t'']
          refine nodup_replace_middle hndLR hnd'' ?_
          intro x hx
          rcases hfootprov'' x hx with ha | hb | hc2
          · exact ⟨fun hL => hLdisj hL (List.mem_append_left _ ha),
              fun hR => hcRdisj ha hR⟩
          · refine ⟨fun hL => ?_, fun hR => ?_⟩
            · exact hfoot_fl x (footChildren_mem_foot (hLRmem x (Or.inl hL)).1) hb
            · exact hfoot_fl x (footChildren_mem_foot (hLRmem x (Or.inr hR)).1) hb
          · refine ⟨fun hL => ?_, fun hR => ?_⟩
            · have hd := hfoot_dom x (footChildren_mem_foot (hLRmem x (Or.inl hL)).1)
              rw [hc2] at hd
              cases hd
            · have hd := hfoot_dom x (footChildren_mem_foot (hLRmem x (Or.inr hR)).1)
              rw [hc2] at hd
              cases hd
        refine foot_node_nodup_intro hndFC' hnm hncH ?_ hmcH ?_ ?_
        · exact hnotFC' n hn_foot hnFC
        · intro hm0
          exact hnotFC' mH (mH_mem_foot hm0) (hmFC hm0)
        · intro hc0
          exact hnotFC' cH (@cH_mem_foot n mH cH ms cs hc0) (hcFC hc0)
      · -- foot ∩ fl'' = ∅
        have hnotfl : ∀ y, y ∈ foot (TAbs.node n mH cH ms cs) → y ∉ foot c → y ∉ fl'' := by
          intro y hyfoot hyc hy
          rcases hflprov'' y hy with h1 | h2 | h3
          · exact hfoot_fl y hyfoot h1
          · exact hyc h2
          · have hd := hfoot_dom y hyfoot
            rw [h3] at hd
            cases hd
        intro x hx
        rcases foot_mem_node hx with h1 | ⟨hM2, h2⟩ | ⟨hC2, h3⟩ | h4
        · subst h1
          exact hnotfl x hn_foot hnc
        · subst h2
          exact hnotfl x (mH_mem_foot hM2) (fun hm => hmFC hM2 (hsubcFC.subset hm))
        · subst h3
          exact hnotfl x (@cH_mem_foot n mH x ms cs hC2)
            (fun hm => hcFC hC2 (hsubcFC.subset hm))
        · rw [hrepl t''] at h4
          rcases List.mem_append.mp h4 with h5 | h67
          · exact hnotfl x (footChildren_mem_foot (hLRmem x (Or.inl h5)).1)
              (hLRmem x (Or.inl h5)).2
          · rcases List.mem_append.mp h67 with h6 | h7
            · exact hfootfl'' x h6
            · exact hnotfl x (footChildren_mem_foot (hLRmem x (Or.inr h7)).1)
                (hLRmem x (Or.inr h7)).2
      · -- foot provenance
        intro x hx
        rcases foot_mem_node hx with h1 | ⟨hM2, h2⟩ | ⟨hC2, h3⟩ | h4
        · exact Or.inl (h1 ▸ hn_foot)
        · subst h2
          exact Or.inl (mH_mem_foot hM2)
        · subst h3
          exact Or.inl (@cH_mem_foot n mH x ms cs hC2)
        · rcases hFC'mem x h4 with h5 | h6 | h7
          · exact Or.inl (footChildren_mem_foot h5)
          · exact Or.inr (Or.inl h6)
          · exact Or.inr (Or.inr h7)
      · -- fl'' provenance
        intro x hx
        rcases hflprov'' x hx with h1 | h2 | h3
        · exact Or.inl h1
        · exact Or.inr (Or.inl (hsubc.subset h2))
        · exact Or.inr (Or.inr h3)
      · -- live frame
        intro x b hxl hxf
        exact hlframe'' x b (hlive_in_lv2 x hxl) hxf
      · -- absSearch
        intro σ2
        cases σ2 with
        | nil =>
          rw [if_neg (by simp)]
          rfl
        | cons c2 r2 =>
          by_cases hc2 : c2 = ch
          · subst hc2
            have hlook : lookupChildA (replaceChild cs c2.toNat t'') c2.toNat = some t'' :=
              lookupChildA_replaceChild_self hch
            by_cases hr : r2 = rest
            · subst hr
              rw [if_pos rfl]
              show absSearch (TAbs.node n mH cH ms (replaceChild cs c2.toNat t'')) (c2 :: r2) = _
              rw [absSearch]
              dsimp only [TAbs.children]
              rw [hlook]
              have h2 : absSearch (TAbs.node n mH cH ms cs) (c2 :: r2) = absSearch c r2 := by
                rw [absSearch]
                dsimp only [TAbs.children]
                rw [hch]
              rw [h2]
              have h3 := habs'' r2
              rw [if_pos rfl] at h3
              exact h3
            · rw [if_neg (fun hcon => hr (by injection hcon))]
              show absSearch (TAbs.node n mH cH ms (replaceChild cs c2.toNat t'')) (c2 :: r2) = _
              rw [absSearch]
              dsimp only [TAbs.children]
              rw [hlook]
              have h2 : absSearch (TAbs.node n mH cH ms cs) (c2 :: r2) = absSearch c r2 := by
                rw [absSearch]
                dsimp only [TAbs.children]
                rw [hch]
              rw [h2]
              have h3 := habs'' r2
              rw [if_neg hr] at h3
              exact h3
          · have hkey2 : c2.toNat ≠ ch.toNat := fun he => hc2 (char_toNat_inj he)
            rw [if_neg (fun hcon => hc2 (by cases hcon; rfl))]
            show absSearch (TAbs.node n mH cH ms (replaceChild cs ch.toNat t'')) (c2 :: r2) = _
            rw [absSearch, absSearch]
            dsimp only [TAbs.children]
            rw [lookupChildA_replaceChild_ne hkey2]
    | none =>
      rw [hch] at hfound
      rw [← hfound] at hok
      dsimp only [Option.map] at hok
      have hkeynotin : ∀ p ∈ cs, p.1 ≠ ch.toNat := lookupChildA_none_keys hch
      obtain ⟨⟨child, s₂⟩, h2, hok⟩ := bind_ok hok
      obtain ⟨hfindC, hvalsC, hC0, hroot₂, hflen₂, hdb₂, hsome₂, fl₂, hchain₂, hnd₂, hsub₂,
        hCnotfl₂, hframe₂, hCcase⟩ := store_numbers_ok hfl hnd hdb h2
      dsimp only at hok
      have hCnotfoot : child ∉ foot (TAbs.node n mH cH ms cs) := by
        intro hmem
        rcases hCcase with hmf | hnone
        · exact hfoot_fl child hmem hmf
        · have hd := hfoot_dom child hmem
          rw [hnone] at hd
          cases hd
      have hpres₂ : ∀ x ∈ foot (TAbs.node n mH cH ms cs), s₂.find x = s.find x := by
        intro x hx
        exact hframe₂ x (hfoot_fl x hx) (fun he => hCnotfoot (by rw [← he]; exact hx))
      obtain ⟨⟨children, s₃⟩, h3, hok⟩ := bind_ok hok
      have hrep₂ : NodeRep s₂ (TAbs.node n mH cH ms cs) :=
        NodeRep_mono hrep (fun x b hx hf => by rw [hpres₂ x hx]; exact hf)
      rw [nodeChildren_abs hrep₂] at h3
      simp only [Except.ok.injEq, Prod.mk.injEq] at h3
      obtain ⟨hchildren, hs₃⟩ := h3
      subst hchildren
      subst hs₃
      dsimp only at hok
      obtain ⟨⟨newC, s₄⟩, h4, hok⟩ := bind_ok hok
      obtain ⟨hfindNC, hvalsNC, hNC0, hroot₄, hflen₄, hdb₄, hsome₄, fl₃, hchain₃, hnd₃, hsub₃,
        hNCnotfl₃, hframe₄, hNCcase⟩ := store_numbers_ok hchain₂ hnd₂ hdb₂ h4
      dsimp only at hok
      have hChild_ne_newC : child ≠ newC := by
        intro he
        rcases hNCcase with hmf | hnone
        · exact hCnotfl₂ (he ▸ hmf)
        · rw [← he, hfindC] at hnone
          cases hnone
      have hNCnotfoot : newC ∉ foot (TAbs.node n mH cH ms cs) := by
        intro hmem
        rcases hNCcase with hmf | hnone
        · exact hfoot_fl newC hmem (hsub₂ newC hmf)
        · have hd : (s₂.find newC).isSome := by
            rw [hpres₂ newC hmem]
            exact hfoot_dom newC hmem
          rw [hnone] at hd
          cases hd
      have hfoot_nofl₂ : ∀ x ∈ foot (TAbs.node n mH cH ms cs), x ∉ fl₂ :=
        fun x hx hm => hfoot_fl x hx (hsub₂ x hm)
      have hfoot_nofl₃ : ∀ x ∈ foot (TAbs.node n mH cH ms cs), x ∉ fl₃ :=
        fun x hx hm => hfoot_nofl₂ x hx (hsub₃ x hm)
      have hpres₄ : ∀ x ∈ foot (TAbs.node n mH cH ms cs), s₄.find x = s.find x := by
        intro x hx
        rw [hframe₄ x (hfoot_nofl₂ x hx) (fun he => hNCnotfoot (by rw [← he]; exact hx))]
        exact hpres₂ x hx
      have hfindC₄ : s₄.find child = some (.nums [0, 0]) := by
        rw [hframe₄ child hCnotfl₂ hChild_ne_newC]
        exact hfindC
      obtain ⟨⟨⟨m0, oldC⟩, s₅⟩, h5, hok⟩ := bind_ok hok
      have hfind_n₄ : s₄.find n = some (.nums [mH, cH]) := by
        rw [hpres₄ n hn_foot]
        exact hfind_n
      rw [load2_of_find hfind_n₄] at h5
      simp only [Except.ok.injEq, Prod.mk.injEq] at h5
      obtain ⟨⟨hm0e, hoc⟩, hs₅⟩ := h5
      subst hm0e
      subst hoc
      subst hs₅
      dsimp only at hok
      obtain ⟨⟨u, s₆⟩, h6, hok⟩ := bind_ok hok
      obtain ⟨hs₆, hvals₆, b₆, hfind_b₆, hsz₆⟩ := update_numbers_ok h6
      subst hs₆
      dsimp only at hok
      have hn_notfl₃ : n ∉ fl₃ := hfoot_nofl₃ n hn_foot
      have hchain₆ : freeChainB (s₄.set n (Block.nums [mH, newC]))
          (s₄.set n (Block.nums [mH, newC])).firstFree fl₃ 0 = true := by
        show freeChainB _ s₄.firstFree fl₃ 0 = true
        rw [freeChainB_frame fl₃ s₄ _ s₄.firstFree 0 ?_]
        · exact hchain₃
        · intro g hg
          refine Store.find_set_ne _ _ _ _ ?_
          intro hge
          exact hn_notfl₃ (hge ▸ hg)
      have hdb₆ : DomBound (s₄.set n (Block.nums [mH, newC])) :=
        DomBound_set hdb₄ hfind_n₄ rfl
      have hfind_n₆ : (s₄.set n (Block.nums [mH, newC])).find n =
          some (Block.nums [mH, newC]) := Store.find_set_self _ _ _
      obtain ⟨⟨u2, s₇⟩, h7, hok⟩ := bind_ok hok
      dsimp only at hok
      have hpkg : ∃ flM, freeChainB s₇ s₇.firstFree flM 0 = true ∧ flM.Nodup ∧
          (∀ x ∈ flM, x ∈ fl₃ ∨ (cH ≠ 0 ∧ x = cH)) ∧ DomBound s₇ ∧
          s₇.root = s₄.root ∧
          (∀ x, ((s₄.set n (Block.nums [mH, newC])).find x).isSome → (s₇.find x).isSome) ∧
          (∀ x, x ∉ fl₃ → (cH ≠ 0 → x ≠ cH) →
            ((s₄.set n (Block.nums [mH, newC])).find x).isSome →
            s₇.find x = (s₄.set n (Block.nums [mH, newC])).find x) := by
        cases u2
        by_cases hc0 : cH ≠ 0
        · rw [if_pos hc0] at h7
          have hcfoot : cH ∈ foot (TAbs.node n mH cH ms cs) :=
            @cH_mem_foot n mH cH ms cs hc0
          have hcnotfl₃ : cH ∉ fl₃ := hfoot_nofl₃ cH hcfoot
          obtain ⟨fl₄, hch', hnd', hsub₄, hdb', hroot', hflen', hsome', hframe'⟩ :=
            free_ok hchain₆ hnd₃ hdb₆ hcnotfl₃ hc0 h7
          refine ⟨cH :: fl₄, hch', hnd', ?_, hdb', hroot', hsome', ?_⟩
          · intro x hx
            rcases List.mem_cons.mp hx with h1 | h2
            · exact Or.inr ⟨hc0, h1⟩
            · exact Or.inl (hsub₄ x h2)
          · intro x hx1 hx2 hx3
            exact hframe' x hx1 (hx2 hc0) hx3
        · rw [if_neg hc0] at h7
          simp only [Except.ok.injEq, Prod.mk.injEq] at h7
          have hs₇ : s₇ = s₄.set n (Block.nums [mH, newC]) := h7.2.symm
          subst hs₇
          exact ⟨fl₃, hchain₆, hnd₃, fun x hx => Or.inl hx, hdb₆, rfl, fun x h => h,
            fun x _ _ _ => rfl⟩
      obtain ⟨flM, hchM, hndM, hprovM, hdbM, hrootM, hsomeM, hframeM⟩ := hpkg
      have hsomeS7 : ∀ x, (s.find x).isSome → (s₇.find x).isSome := fun x hx =>
        hsomeM x (Store.find_set_isSome _ _ _ _ (hsome₄ x (hsome₂ x hx)))
      have hchild_ne_n : child ≠ n := fun he => hCnotfoot (by rw [he]; exact hn_foot)
      have hchild_ne_cH : cH ≠ 0 → child ≠ cH :=
        fun hc0 he => hCnotfoot (by rw [he]; exact @cH_mem_foot n mH cH ms cs hc0)
      have hchild_notflM : child ∉ flM := by
        intro hm
        rcases hprovM child hm with h1 | ⟨hc0, h1⟩
        · exact hCnotfl₂ (hsub₃ child h1)
        · exact hchild_ne_cH hc0 h1
      have hfindC₇ : s₇.find child = some (.nums [0, 0]) := by
        rw [hframeM child (fun hm => hCnotfl₂ (hsub₃ child hm)) hchild_ne_cH ?_]
        · rw [Store.find_set_ne _ _ _ _ hchild_ne_n]
          exact hfindC₄
        · rw [Store.find_set_ne _ _ _ _ hchild_ne_n, hfindC₄]
          rfl
      have hnewC_ne_n : newC ≠ n := fun he => hNCnotfoot (by rw [he]; exact hn_foot)
      have hnewC_ne_cH : cH ≠ 0 → newC ≠ cH :=
        fun hc0 he => hNCnotfoot (by rw [he]; exact @cH_mem_foot n mH cH ms cs hc0)
      have hfind_n₇ : s₇.find n = some (.nums [mH, newC]) := by
        rw [hframeM n hn_notfl₃ (fun hc0 => hncH hc0) (by rw [hfind_n₆]; rfl)]
        exact hfind_n₆
      have hfindNC₇ : s₇.find newC =
          some (.nums (flattenPairs (pySort ((cs.map fun p => (p.1, p.2.nodeH)) ++
            [(ch.toNat, child)])))) := by
        rw [hframeM newC hNCnotfl₃ hnewC_ne_cH ?_]
        · rw [Store.find_set_ne _ _ _ _ hnewC_ne_n]
          exact hfindNC
        · rw [Store.find_set_ne _ _ _ _ hnewC_ne_n, hfindNC]
          rfl
      have hkeep₇ : ∀ x, x ∈ foot (TAbs.node n mH cH ms cs) → (cH ≠ 0 → x ≠ cH) → x ≠ n →
          s₇.find x = s.find x := by
        intro x hx hxc hxn
        rw [hframeM x (hfoot_nofl₃ x hx) hxc ?_]
        · rw [Store.find_set_ne _ _ _ _ hxn]
          exact hpres₄ x hx
        · rw [Store.find_set_ne _ _ _ _ hxn, hpres₄ x hx]
          exact hfoot_dom x hx
      have hrepChild : NodeRep s₇ (TAbs.node child 0 0 [] []) := by
        rw [NodeRep]
        refine ⟨hfindC₇, ?_, ?_, List.nodup_nil, ?_⟩
        · rw [if_pos rfl]
        · rw [if_pos rfl]
        · rw [ChildrenRep]
          trivial
      have hfootChild : foot (TAbs.node child 0 0 [] []) = [child] := rfl
      have hndChild : (foot (TAbs.node child 0 0 [] [])).Nodup := by
        rw [hfootChild]
        exact List.nodup_singleton _
      have hfcChild : ∀ x ∈ foot (TAbs.node child 0 0 [] []), x ∉ flM := by
        intro x hx
        rw [hfootChild] at hx
        rw [List.mem_singleton.mp hx]
        exact hchild_notflM
      have hlv3_fl : ∀ x ∈ (live ++ (foot (TAbs.node n mH cH ms cs)).filter
          (fun y => decide (cH = 0 ∨ y ≠ cH))) ++ [newC], x ∉ flM := by
        intro x hx hm
        rcases List.mem_append.mp hx with h1 | h2
        · rcases List.mem_append.mp h1 with h3 | h4
          · rcases hprovM x hm with h5 | ⟨hc0, h5⟩
            · exact hlive_fl x h3 (hsub₂ x (hsub₃ x h5))
            · exact hlive_foot x h3 (by rw [h5]; exact @cH_mem_foot n mH cH ms cs hc0)
          · rw [List.mem_filter] at h4
            rcases hprovM x hm with h5 | ⟨hc0, h5⟩
            · exact hfoot_nofl₃ x h4.1 h5
            · rcases of_decide_eq_true h4.2 with h6 | h6
              · exact hc0 h6
              · exact h6 h5
        · rw [List.mem_singleton.mp h2] at hm
          rcases hprovM newC hm with h5 | ⟨hc0, h5⟩
          · exact hNCnotfl₃ h5
          · exact hnewC_ne_cH hc0 h5
      have hlv3_foot : ∀ x ∈ (live ++ (foot (TAbs.node n mH cH ms cs)).filter
          (fun y => decide (cH = 0 ∨ y ≠ cH))) ++ [newC],
          x ∉ foot (TAbs.node child 0 0 [] []) := by
        intro x hx hm
        rw [hfootChild] at hm
        rw [List.mem_singleton.mp hm] at hx
        rcases List.mem_append.mp hx with h1 | h2
        · rcases List.mem_append.mp h1 with h3 | h4
          · rcases hCcase with h5 | h5
            · exact hlive_fl child h3 h5
            · have hd := hlive_dom child h3
              rw [h5] at hd
              cases hd
          · rw [List.mem_filter] at h4
            exact hCnotfoot h4.1
        · exact hChild_ne_newC (List.mem_singleton.mp h2)
      have hlv3_dom : ∀ x ∈ (live ++ (foot (TAbs.node n mH cH ms cs)).filter
          (fun y => decide (cH = 0 ∨ y ≠ cH))) ++ [newC], (s₇.find x).isSome := by
        intro x hx
        rcases List.mem_append.mp hx with h1 | h2
        · rcases List.mem_append.mp h1 with h3 | h4
          · exact hsomeS7 x (hlive_dom x h3)
          · rw [List.mem_filter] at h4
            exact hsomeS7 x (hfoot_dom x h4.1)
        · rw [List.mem_singleton.mp h2, hfindNC₇]
          rfl
      obtain ⟨t'', fl'', hP⟩ :=
        ih (TAbs.node child 0 0 [] []) hrepChild hndChild hchM hndM hdbM hfcChild
          hlv3_fl hlv3_foot hlv3_dom hok
      obtain ⟨hrep'', hnodeH'', hnd'', hchain'', hndfl'', hdb'', hfootfl'', hfootprov'',
        hflprov'', hroot'', hsome'', hlframe'', habs''⟩ := hP
      have hnodeH2 : t''.nodeH = child := hnodeH''
      have hlive_in_lv3 : ∀ x ∈ live, x ∈ (live ++ (foot (TAbs.node n mH cH ms cs)).filter
          (fun y => decide (cH = 0 ∨ y ≠ cH))) ++ [newC] :=
        fun x hx => List.mem_append_left _ (List.mem_append_left _ hx)
      have hfoot_in_lv3 : ∀ x, x ∈ foot (TAbs.node n mH cH ms cs) → (cH ≠ 0 → x ≠ cH) →
          x ∈ (live ++ (foot (TAbs.node n mH cH ms cs)).filter
            (fun y => decide (cH = 0 ∨ y ≠ cH))) ++ [newC] := by
        intro x hx hxc
        refine List.mem_append_left _ (List.mem_append_right _ ?_)
        rw [List.mem_filter]
        refine ⟨hx, decide_eq_true ?_⟩
        by_cases hc0 : cH = 0
        · exact Or.inl hc0
        · exact Or.inr (hxc hc0)
      have hnewC_in_lv3 : newC ∈ (live ++ (foot (TAbs.node n mH cH ms cs)).filter
          (fun y => decide (cH = 0 ∨ y ≠ cH))) ++ [newC] :=
        List.mem_append_right _ (List.mem_singleton.mpr rfl)
      have hkeepS' : ∀ x, x ∈ foot (TAbs.node n mH cH ms cs) → (cH ≠ 0 → x ≠ cH) → x ≠ n →
          s'.find x = s.find x := by
        intro x hx hxc hxn
        cases hfx : s.find x with
        | some b =>
          refine hlframe'' x b (hfoot_in_lv3 x hx hxc) ?_
          rw [hkeep₇ x hx hxc hxn]
          exact hfx
        | none =>
          exfalso
          have hd := hfoot_dom x hx
          rw [hfx] at hd
          cases hd
      have hfind_n' : s'.find n = some (.nums [mH, newC]) :=
        hlframe'' n _ (hfoot_in_lv3 n hn_foot (fun hc0 => hncH hc0)) hfind_n₇
      have hfindNC' : s'.find newC =
          some (.nums (flattenPairs (pySort ((cs.map fun p => (p.1, p.2.nodeH)) ++
            [(ch.toNat, child)])))) :=
        hlframe'' newC _ hnewC_in_lv3 hfindNC₇
      have hkeysX : ((cs ++ [(ch.toNat, t'')]).map Prod.fst).Nodup := by
        rw [List.map_append]
        refine List.nodup_append.mpr ⟨hkeys, List.nodup_singleton _, ?_⟩
        intro a ha hb
        rw [List.map_singleton] at hb
        obtain ⟨p, hp, hpa⟩ := List.mem_map.mp ha
        exact hkeynotin p hp (hpa.trans (List.mem_singleton.mp hb))
      have hkeysNew : ((pySortA (cs ++ [(ch.toNat, t'')])).map Prod.fst).Nodup :=
        (((pySortA_perm _).map Prod.fst).nodup_iff).mpr hkeysX
      have hmapX : (pySortA (cs ++ [(ch.toNat, t'')])).map (fun p => (p.1, p.2.nodeH)) =
          pySort ((cs.map fun p => (p.1, p.2.nodeH)) ++ [(ch.toNat, child)]) := by
        rw [pySortA_map, List.map_append, List.map_singleton]
        dsimp only
        rw [hnodeH2]
      have hFCX : footChildren (cs ++ [(ch.toNat, t'')]) =
          footChildren cs ++ foot t'' := by
        rw [footChildren_append]
        show _ ++ footChildren [(ch.toNat, t'')] = _
        rw [footChildren, footChildren, List.append_nil]
      have hpermFC : (footChildren (pySortA (cs ++ [(ch.toNat, t'')]))).Perm
          (footChildren cs ++ foot t'') := by
        have h1 := footChildren_perm (pySortA_perm (cs ++ [(ch.toNat, t'')]))
        rw [hFCX] at h1
        exact h1
      have hFC'mem : ∀ x ∈ footChildren (pySortA (cs ++ [(ch.toNat, t'')])),
          x ∈ footChildren cs ∨ x ∈ foot t'' := by
        intro x hx
        exact List.mem_append.mp (hpermFC.mem_iff.mp hx)
      have hT''prov : ∀ x ∈ foot t'',
          x = child ∨ x ∈ fl ∨ (cH ≠ 0 ∧ x = cH) ∨ s.find x = none := by
        intro x hx
        rcases hfootprov'' x hx with h1 | h2 | h3
        · rw [hfootChild] at h1
          exact Or.inl (List.mem_singleton.mp h1)
        · rcases hprovM x h2 with h4 | h5
          · exact Or.inr (Or.inl (hsub₂ x (hsub₃ x h4)))
          · exact Or.inr (Or.inr (Or.inl h5))
        · right; right; right
          cases hsx : s.find x with
          | none => rfl
          | some b =>
            exfalso
            have hd := hsomeS7 x (by rw [hsx]; rfl)
            rw [h3] at hd
            cases hd
      have hfootT_keep : ∀ y, y ∈ foot (TAbs.node n mH cH ms cs) →
          y ∉ footChildren cs → (cH ≠ 0 → y ≠ cH) → y ∉ foot t'' := by
        intro y hy hyFC hyc hmem
        rcases hT''prov y hmem with h1 | h2 | ⟨hc0, h3⟩ | h4
        · exact hCnotfoot (h1 ▸ hy)
        · exact hfoot_fl y hy h2
        · exact hyc hc0 h3
        · have hd := hfoot_dom y hy
          rw [h4] at hd
          cases hd
      have hnewC_not_t'' : newC ∉ foot t'' := by
        intro hmem
        rcases hfootprov'' newC hmem with h1 | h2 | h3
        · rw [hfootChild] at h1
          exact hChild_ne_newC (List.mem_singleton.mp h1).symm
        · rcases hprovM newC h2 with h4 | ⟨hc0, h4⟩
          · exact hNCnotfl₃ h4
          · exact hnewC_ne_cH hc0 h4
        · rw [hfindNC₇] at h3
          cases h3
      have hFCdisj : ∀ a, a ∈ footChildren cs → a ∈ foot t'' → False := by
        intro a ha hb
        rcases hT''prov a hb with h1 | h2 | ⟨hc0, h3⟩ | h4
        · exact hCnotfoot (by rw [← h1]; exact footChildren_mem_foot ha)
        · exact hfoot_fl a (footChildren_mem_foot ha) h2
        · exact hcFC hc0 (h3 ▸ ha)
        · have hd := hfoot_dom a (footChildren_mem_foot ha)
          rw [h4] at hd
          cases hd
      have hndFC' : (footChildren (pySortA (cs ++ [(ch.toNat, t'')]))).Nodup := by
        rw [hpermFC.nodup_iff]
        exact List.nodup_append.mpr ⟨hndFC, hnd'', hFCdisj⟩
      refine ⟨.node n mH newC ms (pySortA (cs ++ [(ch.toNat, t'')])), fl'', ?_, rfl, ?_,
        hchain'', hndfl'', hdb'', ?_, ?_, ?_, ?_, ?_, ?_, ?_⟩
      · -- NodeRep s' t'
        rw [NodeRep]
        refine ⟨hfind_n', ?_, ?_, hkeysNew, ?_⟩
        · by_cases hm0 : mH = 0
          · rw [if_pos hm0]
            rw [if_pos hm0] at hms
            exact hms
          · rw [if_neg hm0]
            rw [if_neg hm0] at hms
            rw [hkeepS' mH (mH_mem_foot hm0) (fun hc0 => hmcH hm0 hc0)
              (fun he => hnm hm0 he.symm), hms]
        · rw [if_neg hNC0, hmapX]
          exact hfindNC'
        · refine ChildrenRep_of_forall ?_
          intro p hp
          have hpX : p ∈ cs ++ [(ch.toNat, t'')] := (pySortA_perm _).mem_iff.mp hp
          rcases List.mem_append.mp hpX with h1 | h2
          · have hrepP : NodeRep s p.2 := ChildrenRep_mem hchrep p h1
            refine NodeRep_mono hrepP ?_
            intro x b hx hf
            have hxFC : x ∈ footChildren cs := by
              rw [footChildren_mem_iff]
              exact ⟨p, h1, hx⟩
            have hxfoot : x ∈ foot (TAbs.node n mH cH ms cs) := footChildren_mem_foot hxFC
            rw [hkeepS' x hxfoot (fun hc0 he => hcFC hc0 (he ▸ hxFC))
              (fun he => hnFC (he ▸ hxFC))]
            exact hf
          · rw [List.mem_singleton.mp h2]
            exact hrep''
      · -- foot Nodup
        refine foot_node_nodup_intro hndFC' hnm ?_ ?_ ?_ ?_ ?_
        · intro _ he
          exact hNCnotfoot (by rw [← he]; exact hn_foot)
        · intro hmem
          rcases hFC'mem n hmem with h1 | h2
          · exact hnFC h1
          · exact hfootT_keep n hn_foot hnFC (fun hc0 => hncH hc0) h2
        · intro hm0 _ he
          exact hNCnotfoot (by rw [← he]; exact mH_mem_foot hm0)
        · intro hm0 hmem
          rcases hFC'mem mH hmem with h1 | h2
          · exact hmFC hm0 h1
          · exact hfootT_keep mH (mH_mem_foot hm0) (hmFC hm0) (fun hc0 => hmcH hm0 hc0) h2
        · intro _ hmem
          rcases hFC'mem newC hmem with h1 | h2
          · exact hNCnotfoot (footChildren_mem_foot h1)
          · exact hnewC_not_t'' h2
      · -- foot ∩ fl'' = ∅
        have hnotfl'' : ∀ y, y ∈ foot (TAbs.node n mH cH ms cs) → (cH ≠ 0 → y ≠ cH) →
            (s₇.find y).isSome → y ∉ fl'' := by
          intro y hy hyc hysome hmem
          rcases hflprov'' y hmem with h1 | h2 | h3
          · rcases hprovM y h1 with h4 | ⟨hc0, h4⟩
            · exact hfoot_nofl₃ y hy h4
            · exact hyc hc0 h4
          · rw [hfootChild] at h2
            exact hCnotfoot ((List.mem_singleton.mp h2) ▸ hy)
          · rw [h3] at hysome
            cases hysome
        intro x hx
        rcases foot_mem_node hx with h1 | ⟨hM2, h2⟩ | ⟨hC2, h3⟩ | h4
        · subst h1
          refine hnotfl'' x hn_foot (fun hc0 => hncH hc0) (by rw [hfind_n₇]; rfl)
        · subst h2
          refine hnotfl'' x (mH_mem_foot hM2) (fun hc0 => hmcH hM2 hc0) ?_
          rw [hkeep₇ x (mH_mem_foot hM2) (fun hc0 => hmcH hM2 hc0) (fun he => hnm hM2 he.symm)]
          exact hfoot_dom x (mH_mem_foot hM2)
        · subst h3
          intro hmem
          rcases hflprov'' x hmem with h5 | h6 | h7
          · rcases hprovM x h5 with h8 | ⟨hc0, h8⟩
            · exact hNCnotfl₃ h8
            · exact hnewC_ne_cH hc0 h8
          · rw [hfootChild] at h6
            exact hChild_ne_newC (List.mem_singleton.mp h6).symm
          · rw [hfindNC₇] at h7
            cases h7
        · rcases hFC'mem x h4 with h5 | h6
          · refine hnotfl'' x (footChildren_mem_foot h5) (fun hc0 he => hcFC hc0 (he ▸ h5)) ?_
            rw [hkeep₇ x (footChildren_mem_foot h5) (fun hc0 he => hcFC hc0 (he ▸ h5))
              (fun he => hnFC (he ▸ h5))]
            exact hfoot_dom x (footChildren_mem_foot h5)
          · exact hfootfl'' x h6
      · -- foot provenance
        intro x hx
        rcases foot_mem_node hx with h1 | ⟨hM2, h2⟩ | ⟨hC2, h3⟩ | h4
        · exact Or.inl (h1 ▸ hn_foot)
        · subst h2
          exact Or.inl (mH_mem_foot hM2)
        · subst h3
          rcases hNCcase with h5 | h5
          · exact Or.inr (Or.inl (hsub₂ x h5))
          · right; right
            cases hsx : s.find x with
            | none => rfl
            | some b =>
              exfalso
              have hd := hsome₂ x (by rw [hsx]; rfl)
              rw [h5] at hd
              cases hd
        · rcases hFC'mem x h4 with h5 | h6
          · exact Or.inl (footChildren_mem_foot h5)
          · rcases hT''prov x h6 with h7 | h8 | ⟨hc0, h9⟩ | h10
            · subst h7
              rcases hCcase with h11 | h11
              · exact Or.inr (Or.inl h11)
              · exact Or.inr (Or.inr h11)
            · exact Or.inr (Or.inl h8)
            · exact Or.inl (by rw [h9]; exact @cH_mem_foot n mH cH ms cs hc0)
            · exact Or.inr (Or.inr h10)
      · -- fl'' provenance
        intro x hx
        rcases hflprov'' x hx with h1 | h2 | h3
        · rcases hprovM x h1 with h4 | ⟨hc0, h4⟩
          · exact Or.inl (hsub₂ x (hsub₃ x h4))
          · exact Or.inr (Or.inl (by rw [h4]; exact @cH_mem_foot n mH cH ms cs hc0))
        · rw [hfootChild] at h2
          rw [List.mem_singleton.mp h2]
          rcases hCcase with h5 | h5
          · exact Or.inl h5
          · exact Or.inr (Or.inr h5)
        · right; right
          cases hsx : s.find x with
          | none => rfl
          | some b =>
            exfalso
            have hd := hsomeS7 x (by rw [hsx]; rfl)
            rw [h3] at hd
            cases hd
      · -- root
        rw [hroot'', hrootM, hroot₄, hroot₂]
      · -- isSome mono
        intro x hx
        exact hsome'' x (hsomeS7 x hx)
      · -- live frame
        intro x b hxl hxf
        have hx_fl : x ∉ fl := hlive_fl x hxl
        have hx_foot : x ∉ foot (TAbs.node n mH cH ms cs) := hlive_foot x hxl
        have hx_child : x ≠ child := by
          intro he
          rcases hCcase with h5 | h5
          · exact hx_fl (he ▸ h5)
          · rw [he, h5] at hxf
            cases hxf
        have h2' : s₂.find x = some b := by
          rw [hframe₂ x hx_fl hx_child]
          exact hxf
        have hx_newC : x ≠ newC := by
          intro he
          rcases hNCcase with h5 | h5
          · exact hx_fl (hsub₂ x (he ▸ h5))
          · rw [he, h5] at h2'
            cases h2'
        have h4' : s₄.find x = some b := by
          rw [hframe₄ x (fun hm => hx_fl (hsub₂ x hm)) hx_newC]
          exact h2'
        have h6' : (s₄.set n (Block.nums [mH, newC])).find x = some b := by
          rw [Store.find_set_ne _ _ _ _ (fun he => hx_foot (by rw [he]; exact hn_foot))]
          exact h4'
        have h7' : s₇.find x = some b := by
          rw [hframeM x (fun hm => hx_fl (hsub₂ x (hsub₃ x hm)))
            (fun hc0 he => hx_foot (by rw [he]; exact @cH_mem_foot n mH cH ms cs hc0))
            (by rw [h6']; rfl)]
          exact h6'
        exact hlframe'' x b (hlive_in_lv3 x hxl) h7'
      · -- absSearch
        intro σ2
        have hlookX : ∀ k, lookupChildA (pySortA (cs ++ [(ch.toNat, t'')])) k =
            lookupChildA (cs ++ [(ch.toNat, t'')]) k :=
          fun k => lookupChildA_perm (pySortA_perm _) hkeysNew k
        cases σ2 with
        | nil =>
          rw [if_neg (by simp)]
          rfl
        | cons c2 r2 =>
          by_cases hc2 : c2 = ch
          · subst hc2
            by_cases hr : r2 = rest
            · subst hr
              rw [if_pos rfl]
              show absSearch (TAbs.node n mH newC ms
                (pySortA (cs ++ [(c2.toNat, t'')]))) (c2 :: r2) = _
              rw [absSearch]
              dsimp only [TAbs.children]
              rw [hlookX, lookupChildA_append_right, hch]
              show absSearch t'' r2 = _
              have h3 := habs'' r2
              rw [if_pos rfl] at h3
              rw [h3, absSearch_leaf]
              have h4 : absSearch (TAbs.node n mH cH ms cs) (c2 :: r2) = [] := by
                rw [absSearch]
                dsimp only [TAbs.children]
                rw [hch]
              rw [h4]
            · rw [if_neg (fun hcon => hr (by cases hcon; rfl))]
              show absSearch (TAbs.node n mH newC ms
                (pySortA (cs ++ [(c2.toNat, t'')]))) (c2 :: r2) = _
              rw [absSearch]
              dsimp only [TAbs.children]
              rw [hlookX, lookupChildA_append_right, hch]
              show absSearch t'' r2 = _
              have h3 := habs'' r2
              rw [if_neg hr] at h3
              rw [h3, absSearch_leaf]
              have h4 : absSearch (TAbs.node n mH cH ms cs) (c2 :: r2) = [] := by
                rw [absSearch]
                dsimp only [TAbs.children]
                rw [hch]
              rw [h4]
          · have hkey2 : c2.toNat ≠ ch.toNat := fun he => hc2 (char_toNat_inj he)
            rw [if_neg (fun hcon => hc2 (by cases hcon; rfl))]
            show absSearch (TAbs.node n mH newC ms
              (pySortA (cs ++ [(ch.toNat, t'')]))) (c2 :: r2) = _
            rw [absSearch, absSearch]
            dsimp only [TAbs.children]
            rw [hlookX, lookupChildA_append_ne hkey2]

/-! ## The `add` pipeline: instances, the token loop, and the invariant -/

theorem newInstance_ok {s : Store} {doc off : Nat} {raw : String} {nextH hI : Nat} {s' : Store}
    {fl : List Nat}
    (hfl : freeChainB s s.firstFree fl 0 = true) (hnd : fl.Nodup) (hdb : DomBound s)
    (hok : newInstance s doc off raw nextH = .ok (hI, s')) :
    ∃ rawH, s'.find hI = some (.nums [doc, off, rawH, nextH]) ∧
      s'.find rawH = some (.str raw) ∧ hI ≠ 0 ∧ rawH ≠ 0 ∧ hI ≠ rawH ∧
      s'.root = s.root ∧ DomBound s' ∧
      (∀ x, (s.find x).isSome → (s'.find x).isSome) ∧
      ∃ fl', freeChainB s' s'.firstFree fl' 0 = true ∧ fl'.Nodup ∧
        (∀ x ∈ fl', x ∈ fl) ∧ hI ∉ fl' ∧ rawH ∉ fl' ∧
        (∀ x, x ∉ fl → x ≠ hI → x ≠ rawH → s'.find x = s.find x) ∧
        (hI ∈ fl ∨ s.find hI = none) ∧ (rawH ∈ fl ∨ s.find rawH = none) := by
  unfold newInstance at hok
  obtain ⟨⟨rawH, s₁⟩, h1, hok⟩ := bind_ok hok
  obtain ⟨hfindR, hR0, hrootR, hflenR, hdbR, hsomeR, flR, chainR, ndR, subR, hRnotflR,
    frameR, hRcase⟩ := store_text_ok hfl hnd hdb h1
  dsimp only at hok
  obtain ⟨hfindI, hvalsI, hI0, hrootI, hflenI, hdbI, hsomeI, flI, chainI, ndI, subI,
    hInotflI, frameI, hIcase⟩ := store_numbers_ok chainR ndR hdbR hok
  have hIR : hI ≠ rawH := by
    intro he
    rcases hIcase with h2 | h2
    · exact hRnotflR (he ▸ h2)
    · rw [he, hfindR] at h2
      cases h2
  have hfindR' : s'.find rawH = some (.str raw) := by
    rw [frameI rawH hRnotflR (fun hx => hIR hx.symm)]
    exact hfindR
  refine ⟨rawH, hfindI, hfindR', hI0, hR0, hIR, hrootI.trans hrootR, hdbI,
    fun x hx => hsomeI x (hsomeR x hx), flI, chainI, ndI,
    fun x hx => subR x (subI x hx), hInotflI, fun hx => hRnotflR (subI rawH hx), ?_, ?_, hRcase⟩
  · intro x hx hxI hxR
    rw [frameI x (fun hm => hx (subR x hm)) hxI]
    exact frameR x hx hxR
  · rcases hIcase with h2 | h2
    · exact Or.inl (subR hI h2)
    · cases hsx : s.find hI with
      | none => exact Or.inr rfl
      | some b =>
        exfalso
        have hd := hsomeR hI (by rw [hsx]; rfl)
        rw [h2] at hd
        cases hd

theorem addLoop_spec : ∀ (m : Nat) (toks : List Tok) {docsT : List (List Tok × Nat)}
    {d rootH : Nat} {s : Store} {t : TAbs} {fl live : List Nat} {nextH : Nat} {s' : Store},
    m ≤ toks.length →
    Inv docsT s t fl live → t.nodeH = rootH →
    (toks, d) ∈ docsT →
    (m = toks.length → nextH = 0) →
    (m < toks.length → nextH ≠ 0 ∧ ChainRep s live d nextH (toks.drop m)) →
    addLoop rootH d s ((toks.take m).reverse) nextH = .ok ((), s') →
    ∃ t' fl' live', Inv docsT s' t' fl' live' ∧ t'.nodeH = rootH ∧
      (∀ x ∈ live, x ∈ live') ∧
      (∀ x b, x ∈ live → s.find x = some b → s'.find x = some b) := by
  intro m
  induction m with
  | zero =>
    intro toks docsT d rootH s t fl live nextH s' hlen hInv hrootH hmemD h0 hnext hok
    rw [List.take_zero, List.reverse_nil] at hok
    unfold addLoop at hok
    simp only [Except.ok.injEq, Prod.mk.injEq] at hok
    have hs' : s' = s := hok.2.symm
    subst hs'
    exact ⟨t, fl, live, hInv, hrootH, fun x hx => hx, fun x b _ hf => hf⟩
  | succ m ihm =>
    intro toks docsT d rootH s t fl live nextH s' hlen hInv hrootH hmemD h0 hnext hok
    have hm : m < toks.length := hlen
    rw [take_succ_reverse toks m hm] at hok
    unfold addLoop at hok
    obtain ⟨hrep, hndt, hfl, hnd, hdb, hfoot_fl, hlive_fl, hlive_foot, hlive_dom, habs2⟩ := hInv
    obtain ⟨⟨hI, s₁⟩, h1, hok⟩ := bind_ok hok
    obtain ⟨rawH, hfindI, hfindR, hI0, hR0, hIR, hroot₁, hdb₁, hsome₁, fl₁, hchain₁, hnd₁,
      hsub₁, hInotfl₁, hRnotfl₁, hframe₁, hIcase, hRcase⟩ :=
      newInstance_ok hfl hnd hdb h1
    dsimp only at hok
    obtain ⟨⟨u, s₂⟩, h2, hok⟩ := bind_ok hok
    cases u
    have hfoot_dom : ∀ x ∈ foot t, (s.find x).isSome := NodeRep_find_foot t s hrep
    have hInotfoot : hI ∉ foot t := by
      intro hmem
      rcases hIcase with h3 | h3
      · exact hfoot_fl hI hmem h3
      · have hd := hfoot_dom hI hmem
        rw [h3] at hd
        cases hd
    have hRnotfoot : rawH ∉ foot t := by
      intro hmem
      rcases hRcase with h3 | h3
      · exact hfoot_fl rawH hmem h3
      · have hd := hfoot_dom rawH hmem
        rw [h3] at hd
        cases hd
    have hInotlive : hI ∉ live := by
      intro hmem
      rcases hIcase with h3 | h3
      · exact hlive_fl hI hmem h3
      · have hd := hlive_dom hI hmem
        rw [h3] at hd
        cases hd
    have hRnotlive : rawH ∉ live := by
      intro hmem
      rcases hRcase with h3 | h3
      · exact hlive_fl rawH hmem h3
      · have hd := hlive_dom rawH hmem
        rw [h3] at hd
        cases hd
    have hkeep₁ : ∀ x b, x ∈ live → s.find x = some b → s₁.find x = some b := by
      intro x b hxl hxf
      rw [hframe₁ x (hlive_fl x hxl) (fun he => hInotlive (he ▸ hxl))
        (fun he => hRnotlive (he ▸ hxl))]
      exact hxf
    have hkeepFoot₁ : ∀ x ∈ foot t, s₁.find x = s.find x := by
      intro x hx
      exact hframe₁ x (hfoot_fl x hx) (fun he => hInotfoot (he ▸ hx))
        (fun he => hRnotfoot (he ▸ hx))
    have hrep₁ : NodeRep s₁ t :=
      NodeRep_mono hrep (fun x b hx hf => by rw [hkeepFoot₁ x hx]; exact hf)
    have hchainI : ChainRep s₁ (hI :: rawH :: live) d hI (toks.drop m) := by
      rw [drop_getD_cons toks m hm]
      rw [ChainRep]
      refine ⟨List.mem_cons_self _ _, rawH, nextH, hfindI,
        List.mem_cons_of_mem _ (List.mem_cons_self _ _), hfindR, ?_⟩
      cases hdm : toks.drop (m + 1) with
      | nil =>
        have hlen2 : toks.length ≤ m + 1 := List.drop_eq_nil_iff.mp hdm
        exact h0 (Nat.le_antisymm hlen hlen2)
      | cons t2 r2 =>
        have hm2 : m + 1 < toks.length := by
          by_contra hcon
          rw [List.drop_eq_nil_iff.mpr (by omega)] at hdm
          cases hdm
        obtain ⟨hnz, hcr⟩ := hnext hm2
        refine ⟨hnz, ?_⟩
        rw [← hdm]
        refine ChainRep_mono (fun x hx => List.mem_cons_of_mem _ (List.mem_cons_of_mem _ hx))
          _ _ ?_
        exact ChainRep_pres hkeep₁ hcr
    have hlv_fl₁ : ∀ x ∈ hI :: rawH :: live, x ∉ fl₁ := by
      intro x hx
      rcases List.mem_cons.mp hx with h3 | hx2
      · exact h3 ▸ hInotfl₁
      · rcases List.mem_cons.mp hx2 with h4 | h5
        · exact h4 ▸ hRnotfl₁
        · exact fun hm2 => hlive_fl x h5 (hsub₁ x hm2)
    have hlv_foot : ∀ x ∈ hI :: rawH :: live, x ∉ foot t := by
      intro x hx
      rcases List.mem_cons.mp hx with h3 | hx2
      · exact h3 ▸ hInotfoot
      · rcases List.mem_cons.mp hx2 with h4 | h5
        · exact h4 ▸ hRnotfoot
        · exact hlive_foot x h5
    have hlv_dom : ∀ x ∈ hI :: rawH :: live, (s₁.find x).isSome := by
      intro x hx
      rcases List.mem_cons.mp hx with h3 | hx2
      · rw [h3, hfindI]; rfl
      · rcases List.mem_cons.mp hx2 with h4 | h5
        · rw [h4, hfindR]; rfl
        · exact hsome₁ x (hlive_dom x h5)
    rw [← hrootH] at h2
    obtain ⟨t₂, fl₂, hpost⟩ := nodeAdd_spec (toks.getD m default).stemmed.toList t hrep₁ hndt
      hchain₁ hnd₁ hdb₁ (fun x hx hm2 => hfoot_fl x hx (hsub₁ x hm2)) hlv_fl₁ hlv_foot
      hlv_dom h2
    obtain ⟨hrep₂, hnodeH₂, hndt₂, hchain₂, hnd₂, hdb₂, hfootfl₂, hfootprov₂, hflprov₂,
      hroot₂, hsome₂, hlframe₂, habs₂⟩ := hpost
    have hkeep₂ : ∀ x b, x ∈ hI :: rawH :: live → s₁.find x = some b → s₂.find x = some b :=
      hlframe₂
    have hlv_fl₂ : ∀ x ∈ hI :: rawH :: live, x ∉ fl₂ := by
      intro x hx hm2
      rcases hflprov₂ x hm2 with h3 | h3 | h3
      · exact hlv_fl₁ x hx h3
      · exact hlv_foot x hx h3
      · have hd := hlv_dom x hx
        rw [h3] at hd
        cases hd
    have hlv_foot₂ : ∀ x ∈ hI :: rawH :: live, x ∉ foot t₂ := by
      intro x hx hm2
      rcases hfootprov₂ x hm2 with h3 | h3 | h3
      · exact hlv_foot x hx h3
      · exact hlv_fl₁ x hx h3
      · have hd := hlv_dom x hx
        rw [h3] at hd
        cases hd
    have hlv_dom₂ : ∀ x ∈ hI :: rawH :: live, (s₂.find x).isSome := by
      intro x hx
      cases hfx : s₁.find x with
      | some b =>
        rw [hkeep₂ x b hx hfx]
        rfl
      | none =>
        exfalso
        have hd := hlv_dom x hx
        rw [hfx] at hd
        cases hd
    have habs2₂ : Abs2 docsT t₂ s₂ (hI :: rawH :: live) := by
      intro σ2 v hv
      rw [habs₂ σ2] at hv
      by_cases hσ : σ2 = (toks.getD m default).stemmed.toList
      · rw [if_pos hσ] at hv
        rcases List.mem_append.mp hv with hold | hnew
        · obtain ⟨toks0, d0, i0, hm0, hi0, hst0, hcr0⟩ := habs2 σ2 v hold
          refine ⟨toks0, d0, i0, hm0, hi0, hst0, ?_⟩
          refine ChainRep_pres hkeep₂ ?_
          refine ChainRep_mono
            (fun x hx => List.mem_cons_of_mem _ (List.mem_cons_of_mem _ hx)) _ _ ?_
          exact ChainRep_pres hkeep₁ hcr0
        · rw [List.mem_singleton.mp hnew]
          refine ⟨toks, d, m, hmemD, hm, hσ.symm, ?_⟩
          exact ChainRep_pres hkeep₂ hchainI
      · rw [if_neg hσ] at hv
        obtain ⟨toks0, d0, i0, hm0, hi0, hst0, hcr0⟩ := habs2 σ2 v hv
        refine ⟨toks0, d0, i0, hm0, hi0, hst0, ?_⟩
        refine ChainRep_pres hkeep₂ ?_
        refine ChainRep_mono
          (fun x hx => List.mem_cons_of_mem _ (List.mem_cons_of_mem _ hx)) _ _ ?_
        exact ChainRep_pres hkeep₁ hcr0
    have hInv₂ : Inv docsT s₂ t₂ fl₂ (hI :: rawH :: live) :=
      ⟨hrep₂, hndt₂, hchain₂, hnd₂, hdb₂, hfootfl₂, hlv_fl₂, hlv_foot₂, hlv_dom₂, habs2₂⟩
    have hchainI₂ : ChainRep s₂ (hI :: rawH :: live) d hI (toks.drop m) :=
      ChainRep_pres hkeep₂ hchainI
    obtain ⟨t', fl', live', hInv', hrootH', hlsub', hlframe'⟩ :=
      ihm toks (Nat.le_of_lt hm) hInv₂ (hnodeH₂.trans hrootH) hmemD
        (fun hEq => absurd hEq (Nat.ne_of_lt hm)) (fun _ => ⟨hI0, hchainI₂⟩) hok
    refine ⟨t', fl', live', hInv', hrootH', ?_, ?_⟩
    · intro x hx
      exact hlsub' x (List.mem_cons_of_mem _ (List.mem_cons_of_mem _ hx))
    · intro x b hxl hxf
      have hxlv : x ∈ hI :: rawH :: live :=
        List.mem_cons_of_mem _ (List.mem_cons_of_mem _ hxl)
      exact hlframe' x b hxlv (hkeep₂ x b hxlv (hkeep₁ x b hxl hxf))

theorem add_spec {docsT : List (List Tok × Nat)} {text : String} {d rootH : Nat}
    {s : Store} {t : TAbs} {fl live : List Nat} {s' : Store}
    (hInv : Inv docsT s t fl live) (hrootH : t.nodeH = rootH)
    (hmemD : (tokenize text, d) ∈ docsT)
    (hok : add s rootH text d = .ok ((), s')) :
    ∃ t' fl' live', Inv docsT s' t' fl' live' ∧ t'.nodeH = rootH ∧
      (∀ x ∈ live, x ∈ live') ∧
      (∀ x b, x ∈ live → s.find x = some b → s'.find x = some b) := by
  unfold add at hok
  rw [← List.take_length (tokenize text)] at hok
  exact addLoop_spec (tokenize text).length (tokenize text) (Nat.le_refl _) hInv hrootH
    hmemD (fun _ => rfl) (fun hcon => absurd hcon (lt_irrefl _)) hok

/-- `Inv` only gets easier when more documents are on record. -/
theorem Inv_mono_docs {docsT docsT' : List (List Tok × Nat)} {s : Store} {t : TAbs}
    {fl live : List Nat} (hsub : ∀ p ∈ docsT, p ∈ docsT')
    (hInv : Inv docsT s t fl live) : Inv docsT' s t fl live := by
  obtain ⟨h1, h2, h3, h4, h5, h6, h7, h8, h9, habs⟩ := hInv
  refine ⟨h1, h2, h3, h4, h5, h6, h7, h8, h9, ?_⟩
  intro σ v hv
  obtain ⟨toks, d, i, hm, hi, hst, hcr⟩ := habs σ v hv
  exact ⟨toks, d, i, hsub _ hm, hi, hst, hcr⟩

theorem addAll_inv : ∀ (docs : List (String × Nat)) {docsT : List (List Tok × Nat)}
    {rootH : Nat} {s : Store} {t : TAbs} {fl live : List Nat} {s' : Store},
    Inv docsT s t fl live → t.nodeH = rootH →
    (∀ p ∈ docsTok docs, p ∈ docsT) →
    addAll rootH s docs = .ok s' →
    ∃ t' fl' live', Inv docsT s' t' fl' live' ∧ t'.nodeH = rootH := by
  intro docs
  induction docs with
  | nil =>
    intro docsT rootH s t fl live s' hInv hrootH hsub hok
    unfold addAll at hok
    injection hok with hok
    subst hok
    exact ⟨t, fl, live, hInv, hrootH⟩
  | cons p rest ihd =>
    intro docsT rootH s t fl live s' hInv hrootH hsub hok
    obtain ⟨text, dd⟩ := p
    unfold addAll at hok
    obtain ⟨⟨u, s₁⟩, h1, hok⟩ := bind_ok hok
    cases u
    have hmemD : (tokenize text, dd) ∈ docsT := by
      refine hsub _ ?_
      show (tokenize text, dd) ∈ docsTok ((text, dd) :: rest)
      unfold docsTok
      rw [List.map_cons]
      exact List.mem_cons_self _ _
    obtain ⟨t₁, fl₁, live₁, hInv₁, hrootH₁, hlsub₁, hframe₁⟩ :=
      add_spec hInv hrootH hmemD h1
    dsimp only at hok
    refine ihd hInv₁ hrootH₁ ?_ hok
    intro q hq
    refine hsub q ?_
    show q ∈ docsTok ((text, dd) :: rest)
    unfold docsTok at hq ⊢
    rw [List.map_cons]
    exact List.mem_cons_of_mem _ hq

/-- Opening the index on a fresh store creates the root node at handle 136. -/
theorem openIndex_empty : openIndex emptyStore = .ok (136, oneNodeStore) := by decide

/-- The invariant holds for the freshly created one-node index. -/
theorem Inv_oneNode (docsT : List (List Tok × Nat)) :
    Inv docsT oneNodeStore (TAbs.node 136 0 0 [] []) [] [] := by
  refine ⟨?_, ?_, ?_, List.nodup_nil, ?_, ?_, ?_, ?_, ?_, ?_⟩
  · rw [NodeRep]
    refine ⟨by decide, by rw [if_pos rfl], by rw [if_pos rfl], List.nodup_nil, ?_⟩
    rw [ChildrenRep]
    trivial
  · rw [foot_node]
    exact List.nodup_singleton _
  · decide
  · intro x b hx
    unfold Store.find findBlock oneNodeStore at hx
    dsimp only at hx
    by_cases h : (136 : Nat) = x
    · rw [if_pos h] at hx
      injection hx with hx
      subst hx
      show x + 16 ≤ 152
      omega
    · rw [if_neg h] at hx
      cases hx
  · intro x hx _
    rw [foot_node] at hx
    rcases List.mem_cons.mp hx with h1 | h2
    · trivial
    · cases h2
  · intro x hx
    cases hx
  · intro x hx
    cases hx
  · intro x hx
    cases hx
  · intro σ v hv
    rw [absSearch_leaf] at hv
    cases hv

/-- C1: every search hit after any sequence of `add` operations on an
initially empty store is a real phrase occurrence: its `(doc, offset)` names a
token of the text indexed under that document id, at which the phrase tokens
match the document tokens one by one, byte-equal raw forms under `exact` and
equal stemmed forms otherwise. -/
theorem c1_search_sound (docs : List (String × Nat)) (phrase : String) (exact : Bool)
    (rootH : Nat) (s₀ s₁ s₂ : Store) (is : List Inst)
    (hopen : openIndex emptyStore = .ok (rootH, s₀))
    (hadd : addAll rootH s₀ docs = .ok s₁)
    (hsearch : search s₁ rootH phrase exact = .ok (is, s₂)) :
    ∀ i ∈ is, ∃ toks d idx,
      (toks, d) ∈ docsTok docs ∧ idx < toks.length ∧
      i.doc = d ∧ i.offset = (toks.getD idx default).off ∧
      PhraseMatchAt (tokenize phrase) toks idx exact := by
  rw [openIndex_empty] at hopen
  injection hopen with hopen
  injection hopen with hr hs
  subst hr
  subst hs
  obtain ⟨t, fl, live, hInv, hrootH0⟩ :=
    addAll_inv docs (Inv_oneNode (docsTok docs)) rfl (fun p hp => hp) hadd
  have hrootH : t.nodeH = 136 := hrootH0
  obtain ⟨hrep, hndt, hfl, hnd, hdb, hfoot_fl, hlive_fl, hlive_foot, hlive_dom, habs2⟩ := hInv
  unfold search at hsearch
  cases htk : tokenize phrase with
  | nil =>
    rw [htk] at hsearch
    cases hsearch
  | cons t0 rest =>
    rw [htk] at hsearch
    dsimp only at hsearch
    obtain ⟨⟨is₀, sA⟩, h1, h2⟩ := bind_ok hsearch
    rw [← hrootH] at h1
    obtain ⟨hsA, hmem₀⟩ := nodeSearch_abs t0.stemmed.toList t hrep h1
    dsimp only at h2
    rw [hsA] at h2
    intro i hi
    obtain ⟨himem, hmatch⟩ := filterPhrase_mem h2 i hi
    have hvx : ∃ v ∈ absSearch t t0.stemmed.toList, loadInstance s₁ v = .ok (i, s₁) ∧
        (exact = true → i.raw = t0.raw) := by
      cases exact with
      | true =>
        rw [if_pos rfl] at himem
        obtain ⟨hm, hraw⟩ := filterExact_mem himem
        obtain ⟨v, hv, hload⟩ := hmem₀ i hm
        exact ⟨v, hv, hload, fun _ => hraw⟩
      | false =>
        rw [if_neg (by simp)] at himem
        obtain ⟨v, hv, hload⟩ := hmem₀ i himem
        exact ⟨v, hv, hload, fun hcon => by cases hcon⟩
    obtain ⟨v, hv, hload, hrawEq⟩ := hvx
    obtain ⟨toks, d, idx, hmemD, hidx, hstem, hchain⟩ := habs2 _ v hv
    rw [drop_getD_cons toks idx hidx] at hchain
    obtain ⟨rawH, nextH, hload₂, htail⟩ := ChainRep_loadInstance hchain
    rw [hload] at hload₂
    injection hload₂ with hload₂
    injection hload₂ with hieq hseq
    subst hieq
    unfold matches_phrase at hmatch
    obtain ⟨⟨cur, sB⟩, h3, h4⟩ := bind_ok hmatch
    obtain ⟨hsB, hcur⟩ := instNext_chain htail h3
    subst hsB
    dsimp only at h4
    obtain ⟨hlenM, hmatM⟩ := matchesPhraseLoop_sound rest (toks.drop (idx + 1)) cur hcur h4 rfl
    obtain ⟨p, hp, hpe⟩ := List.mem_map.mp hmemD
    have htoks : toks = tokenize p.1 := by
      injection hpe with h5 h6
      exact h5.symm
    refine ⟨toks, d, idx, hmemD, hidx, rfl, rfl, ?_⟩
    unfold PhraseMatchAt
    have hdlen : (toks.drop (idx + 1)).length = toks.length - (idx + 1) :=
      List.length_drop _ _
    rw [hdlen] at hlenM
    refine ⟨by rw [List.length_cons]; omega, ?_⟩
    intro j hj
    cases j with
    | zero =>
      show tokMatch exact t0 (toks.getD (idx + 0) default)
      rw [Nat.add_zero]
      cases exact with
      | true =>
        unfold tokMatch
        rw [if_pos rfl]
        exact (hrawEq rfl).symm
      | false =>
        unfold tokMatch
        rw [if_neg (by simp)]
        have h5 : (toks.getD idx default).stemmed = t0.stemmed := string_toList_inj hstem
        have h6 : (toks.getD idx default).stemmed = stem (toks.getD idx default).raw := by
          have hmem2 : toks.getD idx default ∈ tokenize p.1 := by
            rw [← htoks]
            exact getD_mem hidx
          exact tokenize_stemmed hmem2
        rw [← h5, h6]
    | succ j2 =>
      show tokMatch exact ((t0 :: rest).getD (j2 + 1) default)
        (toks.getD (idx + (j2 + 1)) default)
      have hgd : (t0 :: rest).getD (j2 + 1) default = rest.getD j2 default := rfl
      rw [hgd]
      have hj2 : j2 < rest.length := by
        rw [List.length_cons] at hj
        omega
      have hmj := hmatM j2 hj2
      rw [getD_drop] at hmj
      have harith : idx + (j2 + 1) = idx + 1 + j2 := by omega
      rw [harith]
      exact hmj

/-! ## Walking a stored chain with `chainFrom` -/

theorem chainFrom_none_succ {s : Store} {v k : Nat}
    (h : chainFrom s v k = .ok none) : chainFrom s v (k + 1) = .ok none := by
  unfold chainFrom
  rw [h, ok_bind]

theorem chainFrom_spec {s : Store} {live : List Nat} {d : Nat} :
    ∀ (k : Nat) {v : Nat} {dtoks : List Tok},
      ChainRep s live d v dtoks → k < dtoks.length →
      ∃ jk, chainFrom s v k = .ok (some jk) ∧ jk.doc = d ∧
        jk.offset = (dtoks.getD k default).off ∧
        TailRep s live d jk.nextH (dtoks.drop (k + 1)) := by
  intro k
  induction k with
  | zero =>
    intro v dtoks hc hk
    cases dtoks with
    | nil => cases hk
    | cons dt dr =>
      obtain ⟨rawH, nextH, hload, htail⟩ := ChainRep_loadInstance hc
      refine ⟨⟨v, d, dt.off, rawH, nextH, dt.raw⟩, ?_, rfl, rfl, ?_⟩
      · unfold chainFrom
        rw [hload]
      · exact htail
  | succ k2 ihk =>
    intro v dtoks hc hk
    have hk2 : k2 < dtoks.length := Nat.lt_of_succ_lt hk
    obtain ⟨jk, hcf, hdoc, hoff, htail⟩ := ihk hc hk2
    cases hdm : dtoks.drop (k2 + 1) with
    | nil =>
      exfalso
      have hle := List.drop_eq_nil_iff.mp hdm
      omega
    | cons dt2 dr2 =>
      rw [hdm] at htail
      rw [TailRep] at htail
      obtain ⟨hnz, hcr2⟩ := htail
      obtain ⟨rawH2, nextH2, hload2, htail2⟩ := ChainRep_loadInstance hcr2
      have hget : dtoks.getD (k2 + 1) default = dt2 := by
        have h0 := getD_drop dtoks (k2 + 1) 0
        rw [hdm] at h0
        rw [Nat.add_zero] at h0
        exact h0.symm
      have hdrop2 : dtoks.drop (k2 + 1 + 1) = dr2 := by
        have h0 : List.drop 1 (List.drop (k2 + 1) dtoks) = List.drop (k2 + 1 + 1) dtoks :=
          List.drop_drop 1 (k2 + 1) dtoks
        rw [← h0, hdm]
        rfl
      refine ⟨⟨jk.nextH, d, dt2.off, rawH2, nextH2, dt2.raw⟩, ?_, rfl, ?_, ?_⟩
      · unfold chainFrom
        rw [hcf, ok_bind]
        dsimp only
        rw [if_neg hnz, hload2]
      · rw [hget]
      · rw [hdrop2]
        exact htail2

theorem chainFrom_past {s : Store} {live : List Nat} {d v : Nat} {dtoks : List Tok}
    (hc : ChainRep s live d v dtoks) (hne : dtoks ≠ []) :
    ∀ j, chainFrom s v (dtoks.length + j) = .ok none := by
  have hpos : 0 < dtoks.length := List.length_pos.mpr hne
  intro j
  induction j with
  | zero =>
    obtain ⟨jk, hcf, hdoc, hoff, htail⟩ := chainFrom_spec (dtoks.length - 1) hc (by omega)
    have hdrop : dtoks.drop (dtoks.length - 1 + 1) = [] :=
      List.drop_eq_nil_iff.mpr (by omega)
    rw [hdrop, TailRep] at htail
    have heq : dtoks.length + 0 = (dtoks.length - 1) + 1 := by omega
    rw [heq]
    unfold chainFrom
    rw [hcf, ok_bind]
    dsimp only
    rw [if_pos htail]
  | succ j2 ihj =>
    rw [show dtoks.length + (j2 + 1) = (dtoks.length + j2) + 1 from by omega]
    exact chainFrom_none_succ ihj

theorem pairwise_getD_lt {l : List Tok}
    (h : l.Pairwise (fun a b : Tok => a.off < b.off)) {k : Nat} (hk : k + 1 < l.length) :
    (l.getD k default).off < (l.getD (k + 1) default).off := by
  rw [List.pairwise_iff_get] at h
  have h1 := h ⟨k, by omega⟩ ⟨k + 1, hk⟩ (Nat.lt_succ_self k)
  rw [List.getD_eq_getElem l default (by omega : k < l.length),
    List.getD_eq_getElem l default hk]
  exact h1

/-- C5: after any sequence of `add` operations on an initially empty store,
every `TermInstance` reachable from the root trie node either ends its chain
(`next_instance_handle = 0`) or points to an instance of the same document at a
strictly greater token offset. -/
theorem c5_chain_invariant (docs : List (String × Nat)) (σ : List Char)
    (rootH : Nat) (s₀ s₁ sA : Store) (is : List Inst)
    (hopen : openIndex emptyStore = .ok (rootH, s₀))
    (hadd : addAll rootH s₀ docs = .ok s₁)
    (hns : nodeSearch s₁ rootH σ = .ok (is, sA))
    (i : Inst) (hi : i ∈ is) (k : Nat) (j : Inst)
    (hcf : chainFrom s₁ i.handle k = .ok (some j)) (hne : j.nextH ≠ 0) :
    ∃ j', chainFrom s₁ i.handle (k + 1) = .ok (some j') ∧
      j'.doc = j.doc ∧ j.offset < j'.offset := by
  rw [openIndex_empty] at hopen
  injection hopen with hopen
  injection hopen with hr hs
  subst hr
  subst hs
  obtain ⟨t, fl, live, hInv, hrootH0⟩ :=
    addAll_inv docs (Inv_oneNode (docsTok docs)) rfl (fun p hp => hp) hadd
  have hrootH : t.nodeH = 136 := hrootH0
  obtain ⟨hrep, hndt, hfl, hnd, hdb, hfoot_fl, hlive_fl, hlive_foot, hlive_dom, habs2⟩ := hInv
  rw [← hrootH] at hns
  obtain ⟨hsA, hmem₀⟩ := nodeSearch_abs σ t hrep hns
  obtain ⟨v, hv, hload⟩ := hmem₀ i hi
  obtain ⟨toks, d, idx, hmemD, hidx, hstem, hchain⟩ := habs2 _ v hv
  have hchain' : ChainRep s₁ live d v (toks.drop idx) := hchain
  rw [drop_getD_cons toks idx hidx] at hchain
  obtain ⟨rawH, nextH, hload₂, htail⟩ := ChainRep_loadInstance hchain
  rw [hload] at hload₂
  injection hload₂ with hload₂
  injection hload₂ with hieq hseq
  subst hieq
  dsimp only at hcf ⊢
  obtain ⟨p, hp, hpe⟩ := List.mem_map.mp hmemD
  have htoks : toks = tokenize p.1 := by
    injection hpe with h5 h6
    exact h5.symm
  have hpair : (toks.drop idx).Pairwise (fun a b : Tok => a.off < b.off) := by
    refine List.Pairwise.sublist (List.drop_sublist _ _) ?_
    rw [htoks]
    exact tokenize_pairwise p.1
  have hdne : toks.drop idx ≠ [] := by
    intro hcon
    have hle := List.drop_eq_nil_iff.mp hcon
    omega
  have hklt : k < (toks.drop idx).length := by
    by_contra hcon
    push_neg at hcon
    have hpast := chainFrom_past hchain' hdne (k - (toks.drop idx).length)
    rw [show (toks.drop idx).length + (k - (toks.drop idx).length) = k from by omega]
      at hpast
    rw [hpast] at hcf
    cases hcf
  obtain ⟨jk, hcfk, hdock, hoffk, htailk⟩ := chainFrom_spec k hchain' hklt
  rw [hcf] at hcfk
  injection hcfk with hcfk
  injection hcfk with hjk
  have hj : j = jk := hjk
  have hk1 : k + 1 < (toks.drop idx).length := by
    by_contra hcon
    have hdp : (toks.drop idx).drop (k + 1) = [] := List.drop_eq_nil_iff.mpr (by omega)
    rw [hdp, TailRep] at htailk
    rw [hj] at hne
    exact hne htailk
  obtain ⟨jk1, hcfk1, hdock1, hoffk1, htk1⟩ := chainFrom_spec (k + 1) hchain' hk1
  refine ⟨jk1, hcfk1, ?_, ?_⟩
  · rw [hdock1, hj, hdock]
  · rw [hj, hoffk, hoffk1]
    exact pairwise_getD_lt hpair hk1

theorem c1_search_sound_witness :
    openIndex emptyStore = .ok (136, oneNodeStore) ∧
    addAll 136 oneNodeStore [("ab", 7)] = .ok c1Store ∧
    search c1Store 136 "ab" false = .ok ([⟨170, 7, 0, 160, 0, "ab"⟩], c1Store) ∧
    ∀ i ∈ [(⟨170, 7, 0, 160, 0, "ab"⟩ : Inst)], ∃ toks d idx,
      (toks, d) ∈ docsTok [("ab", 7)] ∧ idx < toks.length ∧
      i.doc = d ∧ i.offset = (toks.getD idx default).off ∧
      PhraseMatchAt (tokenize "ab") toks idx false :=
  ⟨by decide, by decide, by decide,
    c1_search_sound [("ab", 7)] "ab" false 136 oneNodeStore c1Store c1Store
      [⟨170, 7, 0, 160, 0, "ab"⟩] (by decide) (by decide) (by decide)⟩

theorem c5_chain_invariant_witness :
    openIndex emptyStore = .ok (136, oneNodeStore) ∧
    addAll 136 oneNodeStore [("ab ab", 7)] = .ok c5Store ∧
    nodeSearch c5Store 136 ['a', 'b'] = .ok (c5Insts, c5Store) ∧
    (⟨332, 7, 0, 322, 170, "ab"⟩ : Inst) ∈ c5Insts ∧
    chainFrom c5Store 332 0 = .ok (some c5J) ∧ c5J.nextH ≠ 0 ∧
    ∃ j', chainFrom c5Store 332 (0 + 1) = .ok (some j') ∧ j'.doc = c5J.doc ∧
      c5J.offset < j'.offset :=
  ⟨by decide, by decide, by decide, by decide, by decide, by decide,
    c5_chain_invariant [("ab ab", 7)] ['a', 'b'] 136 oneNodeStore c5Store c5Store
      c5Insts (by decide) (by decide) (by decide) ⟨332, 7, 0, 322, 170, "ab"⟩
      (by decide) 0 c5J (by decide) (by decide)⟩

end Tripe
